import Mathlib

/-!
Shallow embedding of the `go-islist` interval skip list.

The Go heap is modelled as a list of `Node` records indexed by node ids
(`id 0` is the head sentinel); `next` pointers are node ids.  Allocation
appends a fresh node (observationally equivalent to the Go node pool,
whose `newNode` overwrites every field that is subsequently read).
Random level draws become an explicit `rLevel` argument of `Insert`,
constrained to `[1, MaxLevel]` exactly as `randomLevel` guarantees.
Traversal loops take explicit fuel `sl.nodes.length`, which suffices in
every well-formed state because chains visit distinct live nodes.
-/

namespace Islist

def MaxLevel : Nat := 32

def MaxSearchLevel : Nat := 10

structure IntervalKey where
  Start : Int := 0
  End : Int := 0
  Key : String := ""
deriving DecidableEq, Repr, Inhabited

/-- `less` from `interval_key.go`: order by `Start`, ties by `End`. -/
def less (a b : IntervalKey) : Bool :=
  if a.Start < b.Start then true
  else if a.Start > b.Start then false
  else decide (a.End < b.End)

/-- `equalInterval` from `interval_key.go`: identity on `(Start, End)` only. -/
def IntervalKey.equalInterval (i i2 : IntervalKey) : Bool :=
  i.Start == i2.Start && i.End == i2.End

/-- Result of `NewIntervalKey`, which in the source panics on invalid bounds. -/
inductive KeyResult where
  | panicked (msg : String)
  | ok (k : IntervalKey)
deriving DecidableEq, Repr

/-- `NewIntervalKey` from `interval_key.go` (panic modelled as `KeyResult.panicked`). -/
def NewIntervalKey (start end_ : Int) (key : String) : KeyResult :=
  if start < 0 ∨ end_ < 0 ∨ start > end_ then
    .panicked "interval Start and End must be a positive number and Start must be < End"
  else
    .ok { Start := start, End := end_, Key := key }

/-- `NewIntervalQuery` from `interval_key.go`. -/
def NewIntervalQuery (start end_ : Int) : KeyResult :=
  NewIntervalKey start end_ ""

structure nodeLevel where
  next : Option Nat := none
  span : Int := 0
deriving DecidableEq, Repr, Inhabited

structure Node where
  intervalKey : IntervalKey := {}
  levels : List nodeLevel := []
deriving DecidableEq, Repr, Inhabited

structure SkipList where
  nodes : List Node
  maxLevel : Nat
  length : Int
deriving DecidableEq, Repr, Inhabited

structure QueryParam where
  Offset : Int := 0
  Limit : Int := 0
deriving DecidableEq, Repr, Inhabited

namespace SkipList

/-- Dereference a node id. -/
def node (sl : SkipList) (id : Nat) : Node :=
  sl.nodes.getD id {}

/-- The level-`i` record of node `id`. -/
def nlv (sl : SkipList) (id i : Nat) : nodeLevel :=
  (sl.node id).levels.getD i {}

/-- The key stored in node `id`. -/
def key (sl : SkipList) (id : Nat) : IntervalKey :=
  (sl.node id).intervalKey

/-- The number of level records of node `id` (`len(n.levels)`). -/
def height (sl : SkipList) (id : Nat) : Nat :=
  (sl.node id).levels.length

/-- Overwrite the level-`i` record of node `id`. -/
def setNlv (sl : SkipList) (id i : Nat) (lv : nodeLevel) : SkipList :=
  { sl with nodes := sl.nodes.set id { sl.node id with levels := (sl.node id).levels.set i lv } }

def setNext (sl : SkipList) (id i : Nat) (nx : Option Nat) : SkipList :=
  sl.setNlv id i { sl.nlv id i with next := nx }

def setSpan (sl : SkipList) (id i : Nat) (s : Int) : SkipList :=
  sl.setNlv id i { sl.nlv id i with span := s }

/-- `New` from `islist.go`: head sentinel with `MaxLevel` zeroed level records. -/
def new : SkipList :=
  { nodes := [{ intervalKey := {}, levels := List.replicate MaxLevel {} }],
    maxLevel := 1,
    length := 0 }

/-- One level of the narrowing walk: advance while the next node's key is
strictly `less` than the target, accumulating spans (`Insert`'s inner loop). -/
def walk (sl : SkipList) (k : IntervalKey) (i : Nat) : Nat → Nat → Int → Nat × Int
  | 0, n, d => (n, d)
  | fuel + 1, n, d =>
    match (sl.nlv n i).next with
    | none => (n, d)
    | some m =>
      if less (sl.key m) k then sl.walk k i fuel m (d + (sl.nlv n i).span)
      else (n, d)

/-- Top-down narrowing walk over `lvls` levels starting at node `n`.
Returns the per-level `(nodePath[i], dist[i])` pairs (list index = level)
and the final node reached (the Go variable `n` after the loop). -/
def descend (sl : SkipList) (k : IntervalKey) : Nat → Nat → Int → List (Nat × Int) × Nat
  | 0, n, _ => ([], n)
  | l + 1, n, d =>
    let p := sl.walk k l sl.nodes.length n d
    let r := sl.descend k l p.1 p.2
    (r.1 ++ [p], r.2)

/-- `nodePath[i]`/`dist[i]` lookup; Go's arrays default to `nil`/`0` and every
read of `nodePath[i]` beyond `maxLevel` happens after it was set to the head. -/
def pathAt (path : List (Nat × Int)) (i : Nat) : Nat × Int :=
  path.getD i (0, 0)

/-- `Insert`'s "initialize any new higher levels" block: point `nodePath[i]`
at the head, set the head's level-`i` span to the length, bump `maxLevel`. -/
def insertGrow (sl : SkipList) (i : Nat) : SkipList :=
  if sl.maxLevel ≤ i then
    let sl2 := sl.setSpan 0 i sl.length
    { sl2 with maxLevel := sl2.maxLevel + 1 }
  else sl

/-- `Insert`'s four link/span assignments splicing node `nu` after `pi`. -/
def insertLink (sl : SkipList) (di dist0 : Int) (pi nu i : Nat) : SkipList :=
  let sl2 := sl.setNext nu i (sl.nlv pi i).next
  let sl3 := sl2.setSpan nu i ((sl2.nlv pi i).span - (dist0 - di))
  let sl4 := sl3.setNext pi i (some nu)
  sl4.setSpan pi i ((dist0 - di) + 1)

/-- One iteration of `Insert`'s linking loop (loop variable `i`). -/
def insertStep (sl : SkipList) (path : List (Nat × Int)) (dist0 : Int) (nu rLevel i : Nat) :
    SkipList :=
  let pi : Nat := if sl.maxLevel ≤ i then 0 else (pathAt path i).1
  let di : Int := (pathAt path i).2
  let sl2 := insertGrow sl i
  if i < rLevel then insertLink sl2 di dist0 pi nu i
  else sl2.setSpan pi i ((sl2.nlv pi i).span + 1)

/-- `Insert`'s linking loop over the level indices `is`. -/
def insertLoop (sl : SkipList) (path : List (Nat × Int)) (dist0 : Int) (nu rLevel : Nat) :
    List Nat → SkipList
  | [] => sl
  | i :: is => (sl.insertStep path dist0 nu rLevel i).insertLoop path dist0 nu rLevel is

/-- `newNode` by way of the pool: a fresh node whose `rLevel` level records are
all observationally zero (every record the code later reads is overwritten). -/
def allocNode (sl : SkipList) (ik : IntervalKey) (rLevel : Nat) : SkipList :=
  { sl with nodes := sl.nodes ++ [{ intervalKey := ik, levels := List.replicate rLevel {} }] }

/-- The non-update branch of `Insert`: allocate a node of `rLevel` levels and link it. -/
def insertNewNode (sl : SkipList) (ik : IntervalKey) (rLevel : Nat) (path : List (Nat × Int)) :
    SkipList × Option IntervalKey :=
  let nu := sl.nodes.length
  let sl1 := sl.allocNode ik rLevel
  let sl2 := sl1.insertLoop path ((pathAt path 0).2) nu rLevel (List.range (max sl.maxLevel rLevel))
  ({ sl2 with length := sl2.length + 1 }, none)

/-- `Insert` from `islist.go`; `rLevel` is the level drawn by `randomLevel`. -/
def Insert (sl : SkipList) (intervalKey : IntervalKey) (rLevel : Nat) :
    SkipList × Option IntervalKey :=
  let pd := sl.descend intervalKey sl.maxLevel 0 0
  match (sl.nlv pd.2 0).next with
  | some m =>
    if (sl.key m).equalInterval intervalKey then
      ({ sl with nodes := sl.nodes.set m { sl.node m with intervalKey := intervalKey } },
        some (sl.key m))
    else sl.insertNewNode intervalKey rLevel pd.1
  | none => sl.insertNewNode intervalKey rLevel pd.1

/-- `Delete`'s unlink assignments at a level where the target is present. -/
def deleteUnlink (sl : SkipList) (pi tau i : Nat) : SkipList :=
  let sl2 := sl.setNext pi i (sl.nlv tau i).next
  sl2.setSpan pi i ((sl2.nlv pi i).span + (sl2.nlv tau i).span - 1)

/-- One iteration of `Delete`'s unlink loop (loop variable `i`, target node `tau`). -/
def deleteStep (sl : SkipList) (path : List (Nat × Int)) (tau i : Nat) : SkipList :=
  let pi : Nat := (pathAt path i).1
  if i < sl.height tau ∧ (sl.nlv pi i).next = some tau then
    let sl2 := deleteUnlink sl pi tau i
    if i < sl2.maxLevel ∧ 1 < sl2.maxLevel ∧ (sl2.nlv 0 i).next = none then
      { sl2 with maxLevel := i }
    else sl2
  else
    sl.setSpan pi i ((sl.nlv pi i).span - 1)

def deleteLoop (sl : SkipList) (path : List (Nat × Int)) (tau : Nat) : List Nat → SkipList
  | [] => sl
  | i :: is => (sl.deleteStep path tau i).deleteLoop path tau is

/-- `pool.put(n)` clears the node's fields (`Node.reset` in `node.go`). -/
def resetNode (sl : SkipList) (tau : Nat) : SkipList :=
  { sl with nodes := sl.nodes.set tau { intervalKey := {}, levels := [] } }

/-- `Delete` from `islist.go`. -/
def Delete (sl : SkipList) (interval : IntervalKey) : SkipList × Option IntervalKey :=
  let pd := sl.descend interval sl.maxLevel 0 0
  match (sl.nlv pd.2 0).next with
  | none => (sl, none)
  | some tau =>
    if (sl.key tau).equalInterval interval then
      let sl2 := sl.deleteLoop pd.1 tau (List.range sl.maxLevel)
      let k := sl2.key tau
      let sl3 := sl2.resetNode tau
      ({ sl3 with length := sl3.length - 1 }, some k)
    else (sl, none)

/-- `maxSearchLevel` from `islist.go` (a level index, possibly `-1`). -/
def maxSearchLevel (sl : SkipList) : Int :=
  let m : Int := (sl.maxLevel : Int) - 1
  if m ≥ (MaxSearchLevel : Int) then (MaxSearchLevel : Int) - 1 else m

/-- Number of levels the capped read-only descent visits. -/
def searchLevels (sl : SkipList) : Nat :=
  (sl.maxSearchLevel + 1).toNat

/-- `Get` from `islist.go`. -/
def Get (sl : SkipList) (interval : IntervalKey) : Option IntervalKey :=
  let pd := sl.descend interval sl.searchLevels 0 0
  match (sl.nlv pd.2 0).next with
  | some m => if (sl.key m).equalInterval interval then some (sl.key m) else none
  | none => none

/-- The forward scan of `Overlaps` (its final `for` loop), starting at node
`n` with match counter `count` and accumulated result `acc`. -/
def overlapScan (sl : SkipList) (interval : IntervalKey) (offset limit : Int) :
    Nat → Option Nat → Int → List IntervalKey → List IntervalKey
  | 0, _, _, acc => acc
  | _ + 1, none, _, acc => acc
  | fuel + 1, some n, count, acc =>
    if (sl.key n).Start ≤ interval.End then
      if (sl.key n).End ≥ interval.Start then
        if count ≥ offset then
          let acc2 := acc ++ [sl.key n]
          if limit ≠ 0 ∧ (acc2.length : Int) ≥ limit then acc2
          else sl.overlapScan interval offset limit fuel ((sl.nlv n 0).next) (count + 1) acc2
        else sl.overlapScan interval offset limit fuel ((sl.nlv n 0).next) (count + 1) acc
      else sl.overlapScan interval offset limit fuel ((sl.nlv n 0).next) count acc
    else acc

/-- `Overlaps` from `islist.go`. -/
def Overlaps (sl : SkipList) (interval : IntervalKey) (qParam : QueryParam) :
    List IntervalKey :=
  let pd := sl.descend interval sl.searchLevels 0 0
  sl.overlapScan interval qParam.Offset qParam.Limit sl.nodes.length (some pd.2) 0 []

/-- The two failure modes of `GetByIndex` (`fmt.Errorf` calls in the source). -/
inductive IndexError where
  | outOfBounds (index : Int)
  | notFound (index : Int)
deriving DecidableEq, Repr

/-- The positional walk of `GetByIndex` at level `i`. -/
def posWalk (sl : SkipList) (i : Nat) : Nat → Nat → Int → Nat × Int
  | 0, n, pos => (n, pos)
  | fuel + 1, n, pos =>
    match (sl.nlv n i).next with
    | none => (n, pos)
    | some m =>
      if pos ≥ (sl.nlv n i).span then sl.posWalk i fuel m (pos - (sl.nlv n i).span)
      else (n, pos)

def posDescend (sl : SkipList) : Nat → Nat → Int → Nat × Int
  | 0, n, pos => (n, pos)
  | l + 1, n, pos =>
    let p := sl.posWalk l sl.nodes.length n pos
    sl.posDescend l p.1 p.2

/-- `GetByIndex` from `islist.go`. -/
def GetByIndex (sl : SkipList) (index : Int) : Except IndexError IntervalKey :=
  if index < 0 ∨ index ≥ sl.length then .error (.outOfBounds index)
  else
    let p := sl.posDescend sl.searchLevels 0 (index + 1)
    if p.1 ≠ 0 then .ok (sl.key p.1) else .error (.notFound index)

/-- The level-`i` chain of node ids reachable from node `n` (fuel-bounded). -/
def chain (sl : SkipList) (i : Nat) : Nat → Nat → List Nat
  | 0, _ => []
  | fuel + 1, n =>
    match (sl.nlv n i).next with
    | none => []
    | some m => m :: sl.chain i fuel m

/-- The level-`i` chain from the head sentinel. -/
def row (sl : SkipList) (i : Nat) : List Nat :=
  sl.chain i sl.nodes.length 0

end SkipList

/-! ## Order lemmas for `less` and `equalInterval` -/

theorem less_iff {a b : IntervalKey} :
    less a b = true ↔ (a.Start < b.Start ∨ (a.Start = b.Start ∧ a.End < b.End)) := by
  simp only [less]
  split <;> [simp_all; split <;> simp_all <;> omega]

theorem equalInterval_iff {a b : IntervalKey} :
    a.equalInterval b = true ↔ (a.Start = b.Start ∧ a.End = b.End) := by
  simp [IntervalKey.equalInterval]

theorem less_trans {a b c : IntervalKey} (h1 : less a b = true) (h2 : less b c = true) :
    less a c = true := by
  rw [less_iff] at *
  omega

theorem less_irrefl (a : IntervalKey) : less a a = false := by
  rw [Bool.eq_false_iff]
  intro h
  rw [less_iff] at h
  omega

theorem equalInterval_of_not_less {a b : IntervalKey}
    (h1 : less a b = false) (h2 : less b a = false) : a.equalInterval b = true := by
  rw [Bool.eq_false_iff, ne_eq, less_iff] at h1 h2
  rw [equalInterval_iff]
  omega

theorem less_of_equalInterval_left {a b c : IntervalKey} (h : a.equalInterval b = true) :
    less a c = less b c := by
  rw [equalInterval_iff] at h
  simp only [less, h.1, h.2]

theorem less_of_equalInterval_right {a b c : IntervalKey} (h : a.equalInterval b = true) :
    less c a = less c b := by
  rw [equalInterval_iff] at h
  simp only [less, h.1, h.2]

theorem not_equalInterval_of_less {a b : IntervalKey} (h : less a b = true) :
    a.equalInterval b = false := by
  rw [less_iff] at h
  rw [Bool.eq_false_iff, ne_eq, equalInterval_iff]
  omega

theorem equalInterval_symm (a b : IntervalKey) : a.equalInterval b = b.equalInterval a := by
  by_cases h : a.Start = b.Start ∧ a.End = b.End
  · rw [equalInterval_iff.mpr h, equalInterval_iff.mpr ⟨h.1.symm, h.2.symm⟩]
  · have h1 : a.equalInterval b = false := by
      rw [Bool.eq_false_iff, ne_eq, equalInterval_iff]
      tauto
    have h2 : b.equalInterval a = false := by
      rw [Bool.eq_false_iff, ne_eq, equalInterval_iff]
      intro hc
      exact h ⟨hc.1.symm, hc.2.symm⟩
    rw [h1, h2]

/-! ## Chains of linked nodes -/

namespace SkipList

/-- `IsChain sl i n l`: starting at node `n`, the level-`i` forward pointers
traverse exactly the ids in `l` and then hit `none`. -/
def IsChain (sl : SkipList) (i : Nat) : Nat → List Nat → Prop
  | n, [] => (sl.nlv n i).next = none
  | n, m :: l => (sl.nlv n i).next = some m ∧ IsChain sl i m l

/-- Kernel-friendly decidability for `List.Chain` (no tactic-produced
`Eq.rec`, so `decide` can evaluate it on concrete states). -/
instance (priority := 2000) decChainT {α : Type} (R : α → α → Prop) [DecidableRel R] :
    ∀ (a : α) (l : List α), Decidable (List.Chain R a l)
  | _, [] => isTrue List.Chain.nil
  | a, b :: l =>
    have : Decidable (List.Chain R b l) := decChainT R b l
    decidable_of_iff (R a b ∧ List.Chain R b l) List.chain_cons.symm

instance (priority := 2000) decChainT2 {α : Type} (R : α → α → Prop) [DecidableRel R] :
    (l : List α) → Decidable (List.Chain' R l)
  | [] => isTrue trivial
  | a :: l => decChainT R a l

instance decidableIsChain (sl : SkipList) (i : Nat) :
    (n : Nat) → (l : List Nat) → Decidable (sl.IsChain i n l)
  | n, [] => inferInstanceAs (Decidable ((sl.nlv n i).next = none))
  | n, m :: l =>
    have : Decidable (sl.IsChain i m l) := decidableIsChain sl i m l
    inferInstanceAs (Decidable ((sl.nlv n i).next = some m ∧ sl.IsChain i m l))

/-- `ChainTo sl i n l m`: from `n` the level-`i` pointers traverse `l` and then
point at `m`. -/
def ChainTo (sl : SkipList) (i : Nat) : Nat → List Nat → Nat → Prop
  | n, [], m => (sl.nlv n i).next = some m
  | n, x :: l, m => (sl.nlv n i).next = some x ∧ ChainTo sl i x l m

theorem isChain_append {sl : SkipList} {i n : Nat} {l1 l2 : List Nat} {m : Nat} :
    sl.IsChain i n (l1 ++ m :: l2) ↔ sl.ChainTo i n l1 m ∧ sl.IsChain i m l2 := by
  induction l1 generalizing n with
  | nil => simp [IsChain, ChainTo]
  | cons x xs ih => simp [IsChain, ChainTo, ih, and_assoc]

theorem chainTo_append {sl : SkipList} {i n : Nat} {l1 l2 : List Nat} {m p : Nat} :
    sl.ChainTo i n (l1 ++ m :: l2) p ↔ sl.ChainTo i n l1 m ∧ sl.ChainTo i m l2 p := by
  induction l1 generalizing n with
  | nil => simp [ChainTo, and_assoc]
  | cons x xs ih => simp [ChainTo, ih, and_assoc]

/-- The fuel-bounded `chain` computes the chain list when given enough fuel. -/
theorem chain_eq_of_isChain {sl : SkipList} {i n : Nat} {l : List Nat} {fuel : Nat}
    (h : sl.IsChain i n l) (hf : l.length ≤ fuel) : sl.chain i fuel n = l := by
  induction l generalizing n fuel with
  | nil =>
    cases fuel with
    | zero => rfl
    | succ f =>
      simp only [IsChain] at h
      simp [chain, h]
  | cons m tl ih =>
    cases fuel with
    | zero => simp at hf
    | succ f =>
      obtain ⟨h1, h2⟩ := h
      simp only [chain, h1]
      simp only [List.length_cons, Nat.succ_le_succ_iff] at hf
      rw [ih h2 hf]

/-- Positions: `0` for the head sentinel, 1-based index in `base` otherwise. -/
def posIn (base : List Nat) (id : Nat) : Int :=
  if id = 0 then 0 else (base.indexOf id : Int) + 1

/-- The ids expected on the level-`i` chain: the base nodes of height `> i`. -/
def rowOf (sl : SkipList) (base : List Nat) (i : Nat) : List Nat :=
  base.filter (fun id => decide (i < sl.height id))

/-- The span of `a`'s level-`i` record is the base-position distance to `b`. -/
def spanOk (sl : SkipList) (base : List Nat) (i : Nat) (a b : Nat) : Prop :=
  (sl.nlv a i).span = posIn base b - posIn base a

/-- All level-`i` spans between consecutive chain members are base distances. -/
def SpansOk (sl : SkipList) (base : List Nat) (i : Nat) : Prop :=
  List.Chain' (sl.spanOk base i) (0 :: sl.rowOf base i)

instance decidableSpanOk (sl : SkipList) (base : List Nat) (i a b : Nat) :
    Decidable (sl.spanOk base i a b) :=
  inferInstanceAs (Decidable ((sl.nlv a i).span = posIn base b - posIn base a))

instance decidableSpansOk (sl : SkipList) (base : List Nat) (i : Nat) :
    Decidable (sl.SpansOk base i) :=
  inferInstanceAs (Decidable (List.Chain' (sl.spanOk base i) (0 :: sl.rowOf base i)))

/-- The structural invariant of a well-formed list state, relative to the
list `base` of live node ids in level-0 order. -/
@[mk_iff]
structure InvW (sl : SkipList) (base : List Nat) : Prop where
  head_lt : 0 < sl.nodes.length
  head_levels : sl.height 0 = MaxLevel
  head_key : sl.key 0 = {}
  base_mem : ∀ id ∈ base, 0 < id ∧ id < sl.nodes.length
  base_nodup : base.Nodup
  sorted : List.Chain' (fun a b => less (sl.key a) (sl.key b) = true) base
  height_pos : ∀ id ∈ base, 0 < sl.height id
  height_le : ∀ id ∈ base, sl.height id ≤ sl.maxLevel
  ml_le : sl.maxLevel ≤ MaxLevel
  chains : ∀ i < MaxLevel, sl.IsChain i 0 (sl.rowOf base i)
  spans : ∀ i < MaxLevel, sl.SpansOk base i
  length_eq : sl.length = (base.length : Int)

instance decidableInvW (sl : SkipList) (base : List Nat) : Decidable (sl.InvW base) :=
  decidable_of_iff _ (invW_iff sl base).symm

theorem InvW.rowOf_zero {sl : SkipList} {base : List Nat} (h : sl.InvW base) :
    sl.rowOf base 0 = base :=
  List.filter_eq_self.mpr fun id hid => decide_eq_true (h.height_pos id hid)

theorem InvW.base_chain {sl : SkipList} {base : List Nat} (h : sl.InvW base) :
    sl.IsChain 0 0 base := by
  have := h.chains 0 (by decide)
  rwa [h.rowOf_zero] at this

theorem InvW.base_length_lt {sl : SkipList} {base : List Nat} (h : sl.InvW base) :
    base.length < sl.nodes.length := by
  classical
  have hnodup : (0 :: base).Nodup := by
    refine List.nodup_cons.mpr ⟨fun hc => ?_, h.base_nodup⟩
    exact absurd (h.base_mem 0 hc).1 (by omega)
  have hb : ∀ x ∈ (0 :: base), x < sl.nodes.length := by
    intro x hx
    rcases List.mem_cons.mp hx with rfl | hx
    · exact h.head_lt
    · exact (h.base_mem x hx).2
  have h1 : (0 :: base).toFinset.card = (0 :: base).length :=
    List.toFinset_card_of_nodup hnodup
  have h2 : (0 :: base).toFinset ⊆ Finset.range sl.nodes.length := by
    intro x hx
    simp only [List.mem_toFinset] at hx
    exact Finset.mem_range.mpr (hb x hx)
  have := Finset.card_le_card h2
  simp only [h1, Finset.card_range, List.length_cons] at this
  omega

theorem InvW.row_eq_rowOf {sl : SkipList} {base : List Nat} (h : sl.InvW base)
    {i : Nat} (hi : i < MaxLevel) : sl.row i = sl.rowOf base i := by
  have hlen : (sl.rowOf base i).length ≤ sl.nodes.length := by
    have h1 : (sl.rowOf base i).length ≤ base.length :=
      (List.filter_sublist base).length_le
    have := h.base_length_lt
    omega
  exact chain_eq_of_isChain (h.chains i hi) hlen

theorem InvW.base_eq_row {sl : SkipList} {base : List Nat} (h : sl.InvW base) :
    sl.row 0 = base := by
  rw [h.row_eq_rowOf (by decide), h.rowOf_zero]

/-! ## Read/write plumbing for the heap model -/

theorem getD_set_ne {α : Type} (l : List α) {i j : Nat} (a d : α) (h : j ≠ i) :
    (l.set i a).getD j d = l.getD j d := by
  simp [List.getD_eq_getElem?_getD, List.getElem?_set_ne (fun hc => h hc.symm)]

theorem getD_set_self {α : Type} (l : List α) {i : Nat} (a d : α) (h : i < l.length) :
    (l.set i a).getD i d = a := by
  simp [List.getD_eq_getElem?_getD, List.getElem?_set_self', List.getElem?_eq_getElem h]

theorem getD_append_left {α : Type} (l1 l2 : List α) {i : Nat} (d : α) (h : i < l1.length) :
    (l1 ++ l2).getD i d = l1.getD i d := by
  simp [List.getD_eq_getElem?_getD, List.getElem?_append, h]

theorem getD_append_right {α : Type} (l1 l2 : List α) {i : Nat} (d : α) (h : l1.length ≤ i) :
    (l1 ++ l2).getD i d = l2.getD (i - l1.length) d := by
  simp [List.getD_eq_getElem?_getD, List.getElem?_append_right h]

theorem getD_of_length_le {α : Type} (l : List α) {i : Nat} (d : α) (h : l.length ≤ i) :
    l.getD i d = d := by
  simp [List.getD_eq_getElem?_getD, List.getElem?_eq_none h]

@[simp]
theorem length_setNlv (sl : SkipList) (id i : Nat) (lv : nodeLevel) :
    (sl.setNlv id i lv).nodes.length = sl.nodes.length := by
  simp [setNlv]

@[simp]
theorem maxLevel_setNlv (sl : SkipList) (id i : Nat) (lv : nodeLevel) :
    (sl.setNlv id i lv).maxLevel = sl.maxLevel := rfl

@[simp]
theorem length_field_setNlv (sl : SkipList) (id i : Nat) (lv : nodeLevel) :
    (sl.setNlv id i lv).length = sl.length := rfl

theorem node_setNlv_ne (sl : SkipList) {id id' : Nat} (i : Nat) (lv : nodeLevel)
    (h : id' ≠ id) : (sl.setNlv id i lv).node id' = sl.node id' := by
  simp only [setNlv, node]
  exact getD_set_ne _ _ _ h

theorem node_setNlv_self (sl : SkipList) {id : Nat} (i : Nat) (lv : nodeLevel)
    (h : id < sl.nodes.length) :
    (sl.setNlv id i lv).node id = { sl.node id with levels := (sl.node id).levels.set i lv } := by
  simp only [setNlv, node]
  exact getD_set_self _ _ _ h

@[simp]
theorem key_setNlv (sl : SkipList) (id i : Nat) (lv : nodeLevel) (id' : Nat) :
    (sl.setNlv id i lv).key id' = sl.key id' := by
  by_cases hid : id' = id
  · subst hid
    by_cases h : id' < sl.nodes.length
    · rw [key, node_setNlv_self sl i lv h]
      rfl
    · simp only [setNlv, key, node]
      rw [List.set_eq_of_length_le (by omega)]
  · rw [key, node_setNlv_ne sl i lv hid, key]

@[simp]
theorem height_setNlv (sl : SkipList) (id i : Nat) (lv : nodeLevel) (id' : Nat) :
    (sl.setNlv id i lv).height id' = sl.height id' := by
  by_cases hid : id' = id
  · subst hid
    by_cases h : id' < sl.nodes.length
    · rw [height, node_setNlv_self sl i lv h]
      simp [height]
    · simp only [setNlv, height, node]
      rw [List.set_eq_of_length_le (by omega)]
  · rw [height, node_setNlv_ne sl i lv hid, height]

theorem nlv_setNlv_self (sl : SkipList) {id i : Nat} (lv : nodeLevel)
    (hid : id < sl.nodes.length) (hi : i < sl.height id) :
    (sl.setNlv id i lv).nlv id i = lv := by
  rw [nlv, node_setNlv_self sl i lv hid]
  exact getD_set_self _ _ _ hi

theorem nlv_setNlv_ne (sl : SkipList) {id id' i i' : Nat} (lv : nodeLevel)
    (h : id' ≠ id ∨ i' ≠ i) : (sl.setNlv id i lv).nlv id' i' = sl.nlv id' i' := by
  rcases h with h | h
  · rw [nlv, node_setNlv_ne sl i lv h, nlv]
  · by_cases hid : id' = id
    · subst hid
      by_cases hl : id' < sl.nodes.length
      · rw [nlv, node_setNlv_self sl i lv hl]
        exact getD_set_ne _ _ _ h
      · simp only [setNlv, nlv, node]
        rw [List.set_eq_of_length_le (by omega)]
    · rw [nlv, node_setNlv_ne sl i lv hid, nlv]

@[simp]
theorem length_setNext (sl : SkipList) (id i : Nat) (nx : Option Nat) :
    (sl.setNext id i nx).nodes.length = sl.nodes.length := by simp [setNext]

@[simp]
theorem length_setSpan (sl : SkipList) (id i : Nat) (s : Int) :
    (sl.setSpan id i s).nodes.length = sl.nodes.length := by simp [setSpan]

theorem nlv_setNext_self (sl : SkipList) {id i : Nat} (nx : Option Nat)
    (hid : id < sl.nodes.length) (hi : i < sl.height id) :
    (sl.setNext id i nx).nlv id i = { sl.nlv id i with next := nx } :=
  nlv_setNlv_self sl _ hid hi

theorem nlv_setSpan_self (sl : SkipList) {id i : Nat} (s : Int)
    (hid : id < sl.nodes.length) (hi : i < sl.height id) :
    (sl.setSpan id i s).nlv id i = { sl.nlv id i with span := s } :=
  nlv_setNlv_self sl _ hid hi

theorem nlv_setNext_ne (sl : SkipList) {id id' i i' : Nat} (nx : Option Nat)
    (h : id' ≠ id ∨ i' ≠ i) : (sl.setNext id i nx).nlv id' i' = sl.nlv id' i' :=
  nlv_setNlv_ne sl _ h

theorem nlv_setSpan_ne (sl : SkipList) {id id' i i' : Nat} (s : Int)
    (h : id' ≠ id ∨ i' ≠ i) : (sl.setSpan id i s).nlv id' i' = sl.nlv id' i' :=
  nlv_setNlv_ne sl _ h

/-! ## List helpers -/

end SkipList

/-- Last element of a list, with a default for the empty list. -/
def lastD {α : Type} : List α → α → α
  | [], d => d
  | a :: l, _ => lastD l a

theorem lastD_append {α : Type} (t : List α) (n : α) (s : List α) (d : α) :
    lastD (t ++ n :: s) d = lastD s n := by
  induction t generalizing d with
  | nil => rfl
  | cons x xs ih => exact ih x

theorem lastD_mem {α : Type} (l : List α) (d : α) : lastD l d ∈ d :: l := by
  induction l generalizing d with
  | nil => exact List.mem_cons_self d []
  | cons x xs ih =>
    have h := ih x
    have hx : lastD (x :: xs) d = lastD xs x := rfl
    rw [hx]
    exact List.mem_cons.mpr (Or.inr h)

theorem takeWhile_eq_filter_of_sorted {α : Type} {R : α → α → Prop} {p : α → Bool} :
    ∀ {l : List α}, l.Pairwise R → (∀ a b, R a b → p b = true → p a = true) →
      l.takeWhile p = l.filter p := by
  intro l hs hd
  induction l with
  | nil => rfl
  | cons x xs ih =>
    rcases List.pairwise_cons.mp hs with ⟨hx, hxs⟩
    by_cases hp : p x = true
    · rw [List.takeWhile_cons_of_pos hp, List.filter_cons_of_pos hp, ih hxs]
    · have hnil : xs.filter p = [] := by
        rw [List.filter_eq_nil_iff]
        intro y hy hpy
        exact hp (hd x y (hx y hy) hpy)
      rw [List.takeWhile_cons_of_neg hp, List.filter_cons_of_neg hp, hnil]

theorem head_dropWhile_false {α : Type} (p : α → Bool) (l : List α) {x : α}
    (h : (l.dropWhile p).head? = some x) : p x = false := by
  have := List.head?_dropWhile_not p l
  rw [h] at this
  simpa using this

theorem lastD_mem_of_ne_nil {α : Type} : ∀ {l : List α}, l ≠ [] → ∀ d, lastD l d ∈ l := by
  intro l
  induction l with
  | nil => intro h _; exact absurd rfl h
  | cons x xs ih =>
    intro _ d
    have hx : lastD (x :: xs) d = lastD xs x := rfl
    rw [hx]
    cases xs with
    | nil => simp [lastD]
    | cons y ys => exact List.mem_cons.mpr (Or.inr (ih (by simp) x))

theorem lastD_eq_getLast? {α : Type} : ∀ (l : List α) (d : α),
    (d :: l).getLast? = some (lastD l d) := by
  intro l
  induction l with
  | nil => intro d; rfl
  | cons x xs ih =>
    intro d
    rw [List.getLast?_cons_cons, ih x]
    rfl

theorem mem_of_getLast?_eq {α : Type} {l : List α} {a : α} (h : l.getLast? = some a) :
    a ∈ l := by
  cases l with
  | nil => simp at h
  | cons x xs =>
    rw [lastD_eq_getLast? xs x] at h
    have h3 : lastD xs x = a := by injection h
    exact h3 ▸ lastD_mem xs x

theorem chain'_congr_mem {α : Type} {R R2 : α → α → Prop} :
    ∀ {l : List α}, (∀ a ∈ l, ∀ b ∈ l, R a b → R2 a b) →
      List.Chain' R l → List.Chain' R2 l := by
  intro l
  induction l with
  | nil => intro _ _; simp
  | cons x tl ih =>
    intro hc h
    cases tl with
    | nil => simp
    | cons y tl2 =>
      rcases List.chain'_cons.mp h with ⟨h1, h2⟩
      refine List.chain'_cons.mpr ⟨hc x (by simp) y (by simp) h1, ?_⟩
      exact ih (fun a ha b hb hr => hc a (by simp [ha]) b (by simp [hb]) hr) h2

namespace SkipList

/-! ## Walk and descend correctness -/

theorem spanSum_telescope {sl : SkipList} {base : List Nat} {i : Nat} {l : List Nat} :
    ∀ {n : Nat}, List.Chain' (sl.spanOk base i) (n :: l) →
      ((n :: l).dropLast.map (fun x => (sl.nlv x i).span)).sum
        = posIn base (lastD l n) - posIn base n := by
  induction l with
  | nil => intro n _; simp [lastD]
  | cons m tl ih =>
    intro n h
    rcases List.chain'_cons.mp h with ⟨h1, h2⟩
    have hrec := ih h2
    have hdl : (n :: m :: tl).dropLast = n :: (m :: tl).dropLast := rfl
    rw [hdl]
    simp only [List.map_cons, List.sum_cons, hrec]
    have hlast : lastD (m :: tl) n = lastD tl m := rfl
    rw [hlast]
    unfold spanOk at h1
    omega

theorem walk_spec {sl : SkipList} {K : IntervalKey} {i : Nat} :
    ∀ {s1 s2 : List Nat} {n fuel : Nat} {d : Int},
      sl.IsChain i n (s1 ++ s2) →
      (∀ x ∈ s1, less (sl.key x) K = true) →
      (∀ m, s2.head? = some m → less (sl.key m) K = false) →
      s1.length ≤ fuel →
      sl.walk K i fuel n d
        = (lastD s1 n, d + ((n :: s1).dropLast.map (fun x => (sl.nlv x i).span)).sum) := by
  intro s1
  induction s1 with
  | nil =>
    intro s2 n fuel d hc _ hs2 _
    simp only [List.nil_append] at hc
    have hstop : sl.walk K i fuel n d = (n, d) := by
      cases fuel with
      | zero => rfl
      | succ f =>
        cases s2 with
        | nil =>
          simp only [IsChain] at hc
          simp [walk, hc]
        | cons m tl =>
          obtain ⟨h1, _⟩ := hc
          have hm := hs2 m rfl
          simp [walk, h1, hm]
    rw [hstop]
    simp [lastD]
  | cons x xs ih =>
    intro s2 n fuel d hc hs1 hs2 hlen
    cases fuel with
    | zero => simp at hlen
    | succ f =>
      obtain ⟨h1, h2⟩ := hc
      have hx := hs1 x (by simp)
      have hstep : sl.walk K i (f + 1) n d = sl.walk K i f x (d + (sl.nlv n i).span) := by
        simp [walk, h1, hx]
      rw [hstep, ih h2 (fun y hy => hs1 y (by simp [hy])) hs2 (by simpa using hlen)]
      have hl : lastD (x :: xs) n = lastD xs x := rfl
      have hdl : (n :: x :: xs).dropLast = n :: (x :: xs).dropLast := rfl
      rw [hl, hdl]
      simp only [Prod.mk.injEq, List.map_cons, List.sum_cons, true_and]
      rw [Int.add_assoc]

/-- Ids on the level-`i` chain that are strictly `less` than `K`. -/
def lowPath (sl : SkipList) (base : List Nat) (K : IntervalKey) (i : Nat) : List Nat :=
  (sl.rowOf base i).takeWhile (fun id => less (sl.key id) K)

/-- The remainder of the level-`i` chain (first id not `less` than `K` onwards). -/
def highPath (sl : SkipList) (base : List Nat) (K : IntervalKey) (i : Nat) : List Nat :=
  (sl.rowOf base i).dropWhile (fun id => less (sl.key id) K)

/-- The last level-`i` node strictly `less` than `K` (the head if none). -/
def predAt (sl : SkipList) (base : List Nat) (K : IntervalKey) (i : Nat) : Nat :=
  lastD (lowPath sl base K i) 0

theorem InvW.base_pairwise {sl : SkipList} {base : List Nat} (h : sl.InvW base) :
    base.Pairwise (fun a b => less (sl.key a) (sl.key b) = true) := by
  haveI : IsTrans Nat (fun a b => less (sl.key a) (sl.key b) = true) :=
    ⟨fun _ _ _ hab hbc => less_trans hab hbc⟩
  exact List.chain'_iff_pairwise.mp h.sorted

theorem InvW.rowOf_pairwise {sl : SkipList} {base : List Nat} (h : sl.InvW base) (i : Nat) :
    (sl.rowOf base i).Pairwise (fun a b => less (sl.key a) (sl.key b) = true) :=
  h.base_pairwise.sublist (List.filter_sublist base)

theorem InvW.lowPath_eq_filter {sl : SkipList} {base : List Nat} (h : sl.InvW base)
    (K : IntervalKey) (i : Nat) :
    lowPath sl base K i
      = (base.filter (fun id => less (sl.key id) K)).filter
          (fun id => decide (i < sl.height id)) := by
  unfold lowPath
  rw [takeWhile_eq_filter_of_sorted (h.rowOf_pairwise i)
    (fun a b hab hbk => less_trans hab hbk)]
  unfold rowOf
  rw [List.filter_comm]

theorem InvW.lowPath_antitone {sl : SkipList} {base : List Nat} (h : sl.InvW base)
    (K : IntervalKey) {i j : Nat} (hij : j ≤ i) :
    List.Sublist (lowPath sl base K i) (lowPath sl base K j) := by
  rw [h.lowPath_eq_filter K i, h.lowPath_eq_filter K j]
  refine List.monotone_filter_right _ ?_
  intro x hx
  simp only [decide_eq_true_eq] at *
  omega

theorem InvW.mem_lowPath_base {sl : SkipList} {base : List Nat} (h : sl.InvW base)
    {K : IntervalKey} {i x : Nat} (hx : x ∈ lowPath sl base K i) : x ∈ base := by
  unfold lowPath at hx
  have h1 : x ∈ sl.rowOf base i := (List.takeWhile_sublist _).subset hx
  exact List.mem_of_mem_filter h1

theorem InvW.zero_not_mem_lowPath {sl : SkipList} {base : List Nat} (h : sl.InvW base)
    {K : IntervalKey} {i : Nat} : 0 ∉ lowPath sl base K i := by
  intro hc
  exact absurd (h.base_mem 0 (h.mem_lowPath_base hc)).1 (by omega)

theorem InvW.predAt_mem {sl : SkipList} {base : List Nat} (h : sl.InvW base)
    (K : IntervalKey) (i : Nat) : predAt sl base K i ∈ 0 :: lowPath sl base K i :=
  lastD_mem _ _

theorem InvW.predAt_mem_pred {sl : SkipList} {base : List Nat} (h : sl.InvW base)
    (K : IntervalKey) (i : Nat) : predAt sl base K i ∈ 0 :: lowPath sl base K (i - 1) := by
  rcases List.mem_cons.mp (h.predAt_mem K i) with h0 | hm
  · simp [h0]
  · exact List.mem_cons.mpr (Or.inr ((h.lowPath_antitone K (by omega)).mem hm))

/-- The per-level outcome of the narrowing walk within a descend. -/
theorem walk_level {sl : SkipList} {base : List Nat} (h : sl.InvW base)
    {K : IntervalKey} {i n : Nat} (hi : i < MaxLevel)
    (hn : n ∈ 0 :: lowPath sl base K i) :
    sl.walk K i sl.nodes.length n (posIn base n)
      = (predAt sl base K i, posIn base (predAt sl base K i)) := by
  obtain ⟨t, s1, hts⟩ := List.append_of_mem hn
  have hrow : sl.rowOf base i = lowPath sl base K i ++ highPath sl base K i :=
    (List.takeWhile_append_dropWhile _ _).symm
  -- The chain from `n` consists of `s1` then `highPath`.
  have hchain : sl.IsChain i n (s1 ++ highPath sl base K i) := by
    have hc := h.chains i hi
    rw [hrow] at hc
    cases t with
    | nil =>
      have h0 : n = 0 ∧ lowPath sl base K i = s1 := by
        have := hts
        simp only [List.nil_append, List.cons.injEq] at this
        exact ⟨this.1.symm, this.2⟩
      rw [← h0.2]
      rw [← h0.1] at hc
      exact hc
    | cons t0 ts =>
      have h0 : t0 = 0 ∧ lowPath sl base K i = ts ++ n :: s1 := by
        have := hts
        simp only [List.cons_append, List.cons.injEq] at this
        exact ⟨this.1.symm, this.2⟩
      rw [h0.2, List.append_assoc, List.cons_append] at hc
      exact (isChain_append.mp hc).2
  have hs1sub : ∀ x ∈ s1, x ∈ lowPath sl base K i := by
    intro x hx
    cases t with
    | nil =>
      have h0 : lowPath sl base K i = s1 := by
        have := hts
        simp only [List.nil_append, List.cons.injEq] at this
        exact this.2
      rw [h0]; exact hx
    | cons t0 ts =>
      have h0 : lowPath sl base K i = ts ++ n :: s1 := by
        have := hts
        simp only [List.cons_append, List.cons.injEq] at this
        exact this.2
      rw [h0]
      simp [hx]
  have hs1 : ∀ x ∈ s1, less (sl.key x) K = true := by
    intro x hx
    have hx2 := hs1sub x hx
    unfold lowPath at hx2
    have h3 := List.mem_takeWhile_imp hx2
    simpa using h3
  have hs2 : ∀ m, (highPath sl base K i).head? = some m → less (sl.key m) K = false := by
    intro m hm
    unfold highPath at hm
    have h3 := head_dropWhile_false (fun id => less (sl.key id) K) (sl.rowOf base i) hm
    simpa using h3
  have hlen : s1.length ≤ sl.nodes.length := by
    have h1 : s1.length ≤ (lowPath sl base K i).length := by
      have := congrArg List.length hts
      simp only [List.length_cons, List.length_append] at this
      omega
    have h2 : (lowPath sl base K i).length ≤ (sl.rowOf base i).length := by
      rw [hrow]; simp
    have h3 : (sl.rowOf base i).length ≤ base.length := (List.filter_sublist base).length_le
    have h4 := h.base_length_lt
    omega
  rw [walk_spec hchain hs1 hs2 hlen]
  have hfst : lastD s1 n = predAt sl base K i := by
    have : lastD (0 :: lowPath sl base K i) 0 = lastD s1 n := by
      rw [hts, lastD_append]
    rw [predAt, ← this]
    rfl
  have hsnd : posIn base n
        + ((n :: s1).dropLast.map (fun x => (sl.nlv x i).span)).sum
      = posIn base (predAt sl base K i) := by
    have hinfix : List.Chain' (sl.spanOk base i) (n :: s1) := by
      have hsp := h.spans i hi
      unfold SpansOk at hsp
      refine hsp.infix ⟨t, highPath sl base K i, ?_⟩
      rw [hrow]
      have hcons : (0 : Nat) :: (lowPath sl base K i ++ highPath sl base K i)
          = (0 :: lowPath sl base K i) ++ highPath sl base K i := rfl
      rw [hcons, hts]
    have := spanSum_telescope hinfix
    rw [this, ← hfst]
    omega
  rw [hfst, hsnd]

theorem lastD_take {α : Type} :
    ∀ (l : List α) (p : Nat) (d : α), p < l.length →
      lastD (l.take (p + 1)) d = l.getD p d := by
  intro l
  induction l with
  | nil => intro p d h; simp at h
  | cons x xs ih =>
    intro p d h
    cases p with
    | zero => rfl
    | succ q =>
      have h2 : q < xs.length := by simpa using h
      have h3 : (x :: xs).take (q + 2) = x :: xs.take (q + 1) := rfl
      rw [h3]
      have h4 : lastD (x :: xs.take (q + 1)) d = lastD (xs.take (q + 1)) x := rfl
      rw [h4, ih q x h2]
      rw [List.getD_eq_getElem xs x h2,
        List.getD_eq_getElem (x :: xs) d (by simpa using h)]
      simp

theorem dropLast_take {α : Type} :
    ∀ (l : List α) (p : Nat), p < l.length → (l.take (p + 1)).dropLast = l.take p := by
  intro l
  induction l with
  | nil => intro p h; simp at h
  | cons x xs ih =>
    intro p h
    cases p with
    | zero => rfl
    | succ q =>
      have h2 : q < xs.length := by simpa using h
      have h3 : (x :: xs).take (q + 2) = x :: xs.take (q + 1) := rfl
      rw [h3]
      have h4 : xs.take (q + 1) ≠ [] := by
        have h5 : 0 < (xs.take (q + 1)).length := by
          rw [List.length_take]
          omega
        exact List.ne_nil_of_length_pos h5
      rw [List.dropLast_cons_of_ne_nil h4, ih q h2]
      rfl

/-- A list whose predicate holds exactly on the first `m` positions has
`takeWhile` equal to `take m`. -/
theorem takeWhile_eq_take_of_index {α : Type} (p : α → Bool) :
    ∀ (l : List α) (m : Nat),
      (∀ k, (hk : k < l.length) → (p (l.get ⟨k, hk⟩) = true ↔ k < m)) →
      l.takeWhile p = l.take m := by
  intro l
  induction l with
  | nil => intro m _; simp
  | cons x xs ih =>
    intro m hchar
    by_cases hx : p x = true
    · have hm : 0 < m := (hchar 0 (by simp)).mp hx
      rw [List.takeWhile_cons, if_pos hx]
      rw [ih (m - 1) ?_]
      · cases m with
        | zero => omega
        | succ m2 => rfl
      · intro k hk
        have h5 := hchar (k + 1) (by simpa using hk)
        simp only [List.get_cons_succ] at h5
        rw [h5]
        omega
    · have hm : m = 0 := by
        by_contra hc
        exact hx ((hchar 0 (by simp)).mpr (by omega))
      rw [List.takeWhile_cons, if_neg hx, hm]
      rfl

/-- The 1-based position of the `k`-th base element is `k + 1`. -/
theorem InvW.posIn_getElem {sl : SkipList} {base : List Nat} (h : sl.InvW base)
    {k : Nat} (hk : k < base.length) :
    posIn base (base.get ⟨k, hk⟩) = (k : Int) + 1 := by
  unfold posIn
  have hnz : base.get ⟨k, hk⟩ ≠ 0 := by
    intro hc
    have h2 := (h.base_mem _ (base.get_mem k hk)).1
    omega
  rw [if_neg hnz]
  have h3 : base.indexOf (base.get ⟨k, hk⟩) = k := by
    have := List.indexOf_getElem h.base_nodup k hk
    simpa using this
  rw [h3]

/-- Base elements appear in strictly increasing 1-based position order. -/
theorem InvW.base_pairwise_posIn {sl : SkipList} {base : List Nat} (h : sl.InvW base) :
    base.Pairwise (fun a b => posIn base a < posIn base b) := by
  rw [List.pairwise_iff_getElem]
  intro i j hi hj hij
  have h1 := h.posIn_getElem hi
  have h2 := h.posIn_getElem hj
  simp only [List.get_eq_getElem] at h1 h2
  rw [h1, h2]
  omega

/-- Nodes on the level-`i` chain whose 1-based position is at most `T`. -/
def posLow (sl : SkipList) (base : List Nat) (T : Int) (i : Nat) : List Nat :=
  (sl.rowOf base i).takeWhile (fun id => decide (posIn base id ≤ T))

/-- The last level-`i` node positioned at or before `T` (head if none). -/
def posPred (sl : SkipList) (base : List Nat) (T : Int) (i : Nat) : Nat :=
  lastD (posLow sl base T i) 0

theorem InvW.posLow_eq_filter {sl : SkipList} {base : List Nat} (h : sl.InvW base)
    (T : Int) (i : Nat) :
    posLow sl base T i
      = (sl.rowOf base i).filter (fun id => decide (posIn base id ≤ T)) := by
  refine takeWhile_eq_filter_of_sorted
    (R := fun a b => posIn base a < posIn base b) ?_ ?_
  · exact h.base_pairwise_posIn.sublist (List.filter_sublist base)
  · intro a b hab hb
    simp only [decide_eq_true_eq] at hb ⊢
    omega

theorem InvW.posLow_antitone {sl : SkipList} {base : List Nat} (h : sl.InvW base)
    (T : Int) {i j : Nat} (hij : j ≤ i) :
    List.Sublist (posLow sl base T i) (posLow sl base T j) := by
  rw [h.posLow_eq_filter T i, h.posLow_eq_filter T j]
  refine List.Sublist.filter _ ?_
  unfold rowOf
  refine List.monotone_filter_right _ ?_
  intro x hx
  simp only [decide_eq_true_eq] at *
  omega

theorem InvW.mem_posLow_base {sl : SkipList} {base : List Nat} (h : sl.InvW base)
    {T : Int} {i x : Nat} (hx : x ∈ posLow sl base T i) : x ∈ base := by
  unfold posLow at hx
  have h1 : x ∈ sl.rowOf base i := (List.takeWhile_sublist _).subset hx
  exact List.mem_of_mem_filter h1

theorem InvW.posPred_mem {sl : SkipList} {base : List Nat} (h : sl.InvW base)
    (T : Int) (i : Nat) : posPred sl base T i ∈ 0 :: posLow sl base T i :=
  lastD_mem _ _

theorem InvW.posPred_mem_pred {sl : SkipList} {base : List Nat} (h : sl.InvW base)
    (T : Int) (i : Nat) :
    posPred sl base T i ∈ 0 :: posLow sl base T (i - 1) := by
  rcases List.mem_cons.mp (h.posPred_mem T i) with h0 | hm
  · simp [h0]
  · exact List.mem_cons.mpr (Or.inr ((h.posLow_antitone T (by omega)).mem hm))

/-- The positional walk of `GetByIndex` stops at the last chain node whose
1-based position does not exceed the target. -/
theorem posWalk_spec {sl : SkipList} {base : List Nat} {T : Int} {i : Nat} :
    ∀ {s1 s2 : List Nat} {n fuel : Nat},
      sl.IsChain i n (s1 ++ s2) →
      List.Chain' (sl.spanOk base i) (n :: (s1 ++ s2)) →
      (∀ x ∈ s1, posIn base x ≤ T) →
      (∀ m, s2.head? = some m → ¬ (posIn base m ≤ T)) →
      s1.length ≤ fuel →
      sl.posWalk i fuel n (T - posIn base n)
        = (lastD s1 n, T - posIn base (lastD s1 n)) := by
  intro s1
  induction s1 with
  | nil =>
    intro s2 n fuel hc hsp _ hs2 _
    simp only [List.nil_append] at hc hsp
    have hstop : sl.posWalk i fuel n (T - posIn base n) = (n, T - posIn base n) := by
      cases fuel with
      | zero => rfl
      | succ f =>
        cases s2 with
        | nil =>
          have hnone : (sl.nlv n i).next = none := hc
          simp [posWalk, hnone]
        | cons m tl =>
          obtain ⟨h1, _⟩ := hc
          have hm := hs2 m rfl
          have hspan : (sl.nlv n i).span = posIn base m - posIn base n :=
            (List.chain'_cons.mp hsp).1
          have hlt : ¬ (T - posIn base n ≥ (sl.nlv n i).span) := by
            rw [hspan]
            omega
          simp [posWalk, h1, hlt]
    rw [hstop]
    simp [lastD]
  | cons x xs ih =>
    intro s2 n fuel hc hsp hs1 hs2 hlen
    cases fuel with
    | zero => simp at hlen
    | succ f =>
      obtain ⟨h1, h2⟩ := hc
      have hx := hs1 x (by simp)
      have hspan : (sl.nlv n i).span = posIn base x - posIn base n :=
        (List.chain'_cons.mp hsp).1
      have hge : (T - posIn base n ≥ (sl.nlv n i).span) := by
        rw [hspan]
        omega
      have hstep : sl.posWalk i (f + 1) n (T - posIn base n)
          = sl.posWalk i f x (T - posIn base n - (sl.nlv n i).span) := by
        simp [posWalk, h1, hge]
      have harg : T - posIn base n - (sl.nlv n i).span = T - posIn base x := by
        rw [hspan]
        ring
      rw [hstep, harg,
        ih h2 (List.chain'_cons.mp hsp).2 (fun y hy => hs1 y (by simp [hy])) hs2
          (by simpa using hlen)]
      rfl

/-- The per-level outcome of `GetByIndex`'s positional walk. -/
theorem posWalk_level {sl : SkipList} {base : List Nat} (h : sl.InvW base)
    {T : Int} {i n : Nat} (hi : i < MaxLevel)
    (hn : n ∈ 0 :: posLow sl base T i) :
    sl.posWalk i sl.nodes.length n (T - posIn base n)
      = (posPred sl base T i, T - posIn base (posPred sl base T i)) := by
  obtain ⟨t, s1, hts⟩ := List.append_of_mem hn
  set s2 : List Nat :=
    (sl.rowOf base i).dropWhile (fun id => decide (posIn base id ≤ T)) with hs2def
  have hrow : sl.rowOf base i = posLow sl base T i ++ s2 :=
    (List.takeWhile_append_dropWhile _ _).symm
  have hshape : (0 : Nat) :: sl.rowOf base i = t ++ (n :: (s1 ++ s2)) := by
    rw [hrow]
    have hcons : (0 : Nat) :: (posLow sl base T i ++ s2)
        = ((0 : Nat) :: posLow sl base T i) ++ s2 := rfl
    rw [hcons, hts]
    simp
  have hchain : sl.IsChain i n (s1 ++ s2) := by
    have hc := h.chains i hi
    rw [hrow] at hc
    cases t with
    | nil =>
      have h0 : n = 0 ∧ posLow sl base T i = s1 := by
        have h4 := hts
        simp only [List.nil_append, List.cons.injEq] at h4
        exact ⟨h4.1.symm, h4.2⟩
      rw [← h0.2]
      rw [← h0.1] at hc
      exact hc
    | cons t0 ts =>
      have h0 : t0 = 0 ∧ posLow sl base T i = ts ++ n :: s1 := by
        have h4 := hts
        simp only [List.cons_append, List.cons.injEq] at h4
        exact ⟨h4.1.symm, h4.2⟩
      rw [h0.2, List.append_assoc, List.cons_append] at hc
      exact (isChain_append.mp hc).2
  have hsp : List.Chain' (sl.spanOk base i) (n :: (s1 ++ s2)) := by
    have hspall := h.spans i hi
    unfold SpansOk at hspall
    refine hspall.infix ⟨t, [], ?_⟩
    rw [List.append_nil, ← hshape]
  have hs1sub : ∀ x ∈ s1, x ∈ posLow sl base T i := by
    intro x hx
    cases t with
    | nil =>
      have h0 : posLow sl base T i = s1 := by
        have h4 := hts
        simp only [List.nil_append, List.cons.injEq] at h4
        exact h4.2
      rw [h0]
      exact hx
    | cons t0 ts =>
      have h0 : posLow sl base T i = ts ++ n :: s1 := by
        have h4 := hts
        simp only [List.cons_append, List.cons.injEq] at h4
        exact h4.2
      rw [h0]
      simp [hx]
  have hs1 : ∀ x ∈ s1, posIn base x ≤ T := by
    intro x hx
    have hx2 := hs1sub x hx
    unfold posLow at hx2
    have h3 := List.mem_takeWhile_imp hx2
    simpa using h3
  have hs2 : ∀ m, s2.head? = some m → ¬ (posIn base m ≤ T) := by
    intro m hm
    rw [hs2def] at hm
    have h3 := head_dropWhile_false (fun id => decide (posIn base id ≤ T))
      (sl.rowOf base i) hm
    simpa using h3
  have hlen : s1.length ≤ sl.nodes.length := by
    have h1 : s1.length ≤ (posLow sl base T i).length := by
      cases t with
      | nil =>
        have h4 := hts
        simp only [List.nil_append, List.cons.injEq] at h4
        rw [← h4.2]
      | cons t0 ts =>
        have h4 := hts
        simp only [List.cons_append, List.cons.injEq] at h4
        rw [h4.2]
        simp
        omega
    have h2 : (posLow sl base T i).length ≤ (sl.rowOf base i).length := by
      rw [hrow]
      simp
    have h3 : (sl.rowOf base i).length ≤ base.length :=
      (List.filter_sublist base).length_le
    have h4 := h.base_length_lt
    omega
  rw [posWalk_spec hchain hsp hs1 hs2 hlen]
  have hfst : lastD s1 n = posPred sl base T i := by
    have h5 : lastD ((0 : Nat) :: posLow sl base T i) 0 = lastD s1 n := by
      rw [hts, lastD_append]
    rw [posPred, ← h5]
    rfl
  rw [hfst]

/-- Full characterisation of `GetByIndex`'s positional descend. -/
theorem posDescend_spec {sl : SkipList} {base : List Nat} (h : sl.InvW base)
    (T : Int) :
    ∀ {lvls n : Nat}, lvls ≤ MaxLevel →
      n ∈ 0 :: posLow sl base T (lvls - 1) →
      sl.posDescend lvls n (T - posIn base n)
        = (if lvls = 0 then n else posPred sl base T 0,
           T - posIn base (if lvls = 0 then n else posPred sl base T 0)) := by
  intro lvls
  induction lvls with
  | zero =>
    intro n _ _
    simp [posDescend]
  | succ l ih =>
    intro n hl hn
    have hl2 : l < MaxLevel := by omega
    have hwalk := posWalk_level h hl2 (by simpa using hn)
    have hrec := ih (n := posPred sl base T l) (by omega) (h.posPred_mem_pred T l)
    have hd : sl.posDescend (l + 1) n (T - posIn base n)
        = sl.posDescend l (posPred sl base T l)
            (T - posIn base (posPred sl base T l)) := by
      show sl.posDescend l (sl.posWalk l sl.nodes.length n (T - posIn base n)).1
            (sl.posWalk l sl.nodes.length n (T - posIn base n)).2 = _
      rw [hwalk]
    rw [hd, hrec]
    cases l with
    | zero => simp
    | succ l2 => simp

theorem InvW.posLow_zero_take {sl : SkipList} {base : List Nat} (h : sl.InvW base)
    {T : Int} (hT : 0 ≤ T) :
    posLow sl base T 0 = base.take T.toNat := by
  unfold posLow
  rw [h.rowOf_zero]
  refine takeWhile_eq_take_of_index _ base T.toNat ?_
  intro k hk
  simp only [decide_eq_true_eq]
  rw [h.posIn_getElem hk]
  omega

theorem InvW.posPred_zero {sl : SkipList} {base : List Nat} (h : sl.InvW base)
    {T : Int} (hT1 : 1 ≤ T) (hT2 : T ≤ (base.length : Int)) :
    posPred sl base T 0 = base.getD (T.toNat - 1) 0 ∧
    posIn base (posPred sl base T 0) = T := by
  have htake := h.posLow_zero_take (T := T) (by omega)
  have hlt : T.toNat - 1 < base.length := by omega
  have h1 : posPred sl base T 0 = base.getD (T.toNat - 1) 0 := by
    unfold posPred
    rw [htake]
    have h2 : T.toNat = (T.toNat - 1) + 1 := by omega
    have h4 := lastD_take base (T.toNat - 1) 0 hlt
    rw [← h2] at h4
    exact h4
  refine ⟨h1, ?_⟩
  rw [h1]
  have h3 : base.getD (T.toNat - 1) 0 = base.get ⟨T.toNat - 1, hlt⟩ := by
    rw [List.getD_eq_getElem base 0 hlt]
    simp
  rw [h3, h.posIn_getElem hlt]
  omega

@[simp]
theorem maxLevel_setNext (sl : SkipList) (id i : Nat) (nx : Option Nat) :
    (sl.setNext id i nx).maxLevel = sl.maxLevel := rfl

@[simp]
theorem maxLevel_setSpan (sl : SkipList) (id i : Nat) (s : Int) :
    (sl.setSpan id i s).maxLevel = sl.maxLevel := rfl

@[simp]
theorem length_field_setNext (sl : SkipList) (id i : Nat) (nx : Option Nat) :
    (sl.setNext id i nx).length = sl.length := rfl

@[simp]
theorem length_field_setSpan (sl : SkipList) (id i : Nat) (s : Int) :
    (sl.setSpan id i s).length = sl.length := rfl

@[simp]
theorem key_setNext (sl : SkipList) (id i : Nat) (nx : Option Nat) (id' : Nat) :
    (sl.setNext id i nx).key id' = sl.key id' := key_setNlv sl id i _ id'

@[simp]
theorem key_setSpan (sl : SkipList) (id i : Nat) (s : Int) (id' : Nat) :
    (sl.setSpan id i s).key id' = sl.key id' := key_setNlv sl id i _ id'

@[simp]
theorem height_setNext (sl : SkipList) (id i : Nat) (nx : Option Nat) (id' : Nat) :
    (sl.setNext id i nx).height id' = sl.height id' := height_setNlv sl id i _ id'

@[simp]
theorem height_setSpan (sl : SkipList) (id i : Nat) (s : Int) (id' : Nat) :
    (sl.setSpan id i s).height id' = sl.height id' := height_setNlv sl id i _ id'

theorem insertLoop_append (sl : SkipList) (path : List (Nat × Int)) (d0 : Int)
    (nu r : Nat) (l1 l2 : List Nat) :
    sl.insertLoop path d0 nu r (l1 ++ l2)
      = (sl.insertLoop path d0 nu r l1).insertLoop path d0 nu r l2 := by
  induction l1 generalizing sl with
  | nil => rfl
  | cons x xs ih => exact ih _

theorem deleteLoop_append (sl : SkipList) (path : List (Nat × Int)) (tau : Nat)
    (l1 l2 : List Nat) :
    sl.deleteLoop path tau (l1 ++ l2)
      = (sl.deleteLoop path tau l1).deleteLoop path tau l2 := by
  induction l1 generalizing sl with
  | nil => rfl
  | cons x xs ih => exact ih _

/-! ## Read lemmas for the step helpers -/

theorem insertGrow_of_lt {sl : SkipList} {i : Nat} (h : i < sl.maxLevel) :
    sl.insertGrow i = sl := by
  unfold insertGrow
  rw [if_neg (by omega)]

@[simp]
theorem nodes_length_insertGrow (sl : SkipList) (i : Nat) :
    (sl.insertGrow i).nodes.length = sl.nodes.length := by
  unfold insertGrow
  split <;> simp

theorem maxLevel_insertGrow (sl : SkipList) (i : Nat) :
    (sl.insertGrow i).maxLevel = if sl.maxLevel ≤ i then sl.maxLevel + 1 else sl.maxLevel := by
  unfold insertGrow
  split <;> simp

@[simp]
theorem length_insertGrow (sl : SkipList) (i : Nat) :
    (sl.insertGrow i).length = sl.length := by
  unfold insertGrow
  split <;> simp

@[simp]
theorem key_insertGrow (sl : SkipList) (i : Nat) (id : Nat) :
    (sl.insertGrow i).key id = sl.key id := by
  unfold insertGrow
  split
  · show (sl.setSpan 0 i sl.length).key id = sl.key id
    simp
  · rfl

@[simp]
theorem height_insertGrow (sl : SkipList) (i : Nat) (id : Nat) :
    (sl.insertGrow i).height id = sl.height id := by
  unfold insertGrow
  split
  · show (sl.setSpan 0 i sl.length).height id = sl.height id
    simp
  · rfl

theorem nlv_insertGrow_ne (sl : SkipList) {i id j : Nat} (h : id ≠ 0 ∨ j ≠ i) :
    (sl.insertGrow i).nlv id j = sl.nlv id j := by
  unfold insertGrow
  split
  · show ((sl.setSpan 0 i sl.length).nlv id j) = sl.nlv id j
    exact nlv_setSpan_ne sl _ h
  · rfl

theorem nlv_insertGrow_self (sl : SkipList) {i : Nat} (h : sl.maxLevel ≤ i)
    (h0 : 0 < sl.nodes.length) (hh : i < sl.height 0) :
    (sl.insertGrow i).nlv 0 i = { sl.nlv 0 i with span := sl.length } := by
  unfold insertGrow
  rw [if_pos h]
  show ((sl.setSpan 0 i sl.length).nlv 0 i) = _
  exact nlv_setSpan_self sl _ h0 hh

@[simp]
theorem nodes_length_insertLink (sl : SkipList) (di dist0 : Int) (pi nu i : Nat) :
    (sl.insertLink di dist0 pi nu i).nodes.length = sl.nodes.length := by
  unfold insertLink
  simp

@[simp]
theorem maxLevel_insertLink (sl : SkipList) (di dist0 : Int) (pi nu i : Nat) :
    (sl.insertLink di dist0 pi nu i).maxLevel = sl.maxLevel := by
  unfold insertLink
  simp

@[simp]
theorem length_insertLink (sl : SkipList) (di dist0 : Int) (pi nu i : Nat) :
    (sl.insertLink di dist0 pi nu i).length = sl.length := by
  unfold insertLink
  simp

@[simp]
theorem key_insertLink (sl : SkipList) (di dist0 : Int) (pi nu i : Nat) (id : Nat) :
    (sl.insertLink di dist0 pi nu i).key id = sl.key id := by
  unfold insertLink
  simp

@[simp]
theorem height_insertLink (sl : SkipList) (di dist0 : Int) (pi nu i : Nat) (id : Nat) :
    (sl.insertLink di dist0 pi nu i).height id = sl.height id := by
  unfold insertLink
  simp

theorem nlv_insertLink_nu (sl : SkipList) (di dist0 : Int) {pi nu i : Nat}
    (hne : pi ≠ nu) (hnu : nu < sl.nodes.length) (hhnu : i < sl.height nu) :
    (sl.insertLink di dist0 pi nu i).nlv nu i
      = { next := (sl.nlv pi i).next, span := (sl.nlv pi i).span - (dist0 - di) } := by
  unfold insertLink
  rw [nlv_setSpan_ne _ _ (Or.inl (fun hc => hne hc.symm))]
  rw [nlv_setNext_ne _ _ (Or.inl (fun hc => hne hc.symm))]
  rw [nlv_setSpan_self _ _ (by simpa using hnu) (by simpa using hhnu)]
  rw [nlv_setNext_self _ _ hnu hhnu]
  rw [nlv_setNext_ne _ _ (Or.inl hne)]

theorem nlv_insertLink_pi (sl : SkipList) (di dist0 : Int) {pi nu i : Nat}
    (hne : pi ≠ nu) (hpi : pi < sl.nodes.length) (hhpi : i < sl.height pi) :
    (sl.insertLink di dist0 pi nu i).nlv pi i
      = { next := some nu, span := (dist0 - di) + 1 } := by
  unfold insertLink
  rw [nlv_setSpan_self _ _ (by simpa using hpi) (by simpa using hhpi),
    nlv_setNext_self _ _ (by simpa using hpi) (by simpa using hhpi)]

theorem nlv_insertLink_other (sl : SkipList) (di dist0 : Int) {pi nu i id j : Nat}
    (h : (id ≠ nu ∧ id ≠ pi) ∨ j ≠ i) :
    (sl.insertLink di dist0 pi nu i).nlv id j = sl.nlv id j := by
  unfold insertLink
  rcases h with ⟨h1, h2⟩ | h
  · rw [nlv_setSpan_ne _ _ (Or.inl h2), nlv_setNext_ne _ _ (Or.inl h2),
      nlv_setSpan_ne _ _ (Or.inl h1), nlv_setNext_ne _ _ (Or.inl h1)]
  · rw [nlv_setSpan_ne _ _ (Or.inr h), nlv_setNext_ne _ _ (Or.inr h),
      nlv_setSpan_ne _ _ (Or.inr h), nlv_setNext_ne _ _ (Or.inr h)]

@[simp]
theorem nodes_length_deleteUnlink (sl : SkipList) (pi tau i : Nat) :
    (sl.deleteUnlink pi tau i).nodes.length = sl.nodes.length := by
  unfold deleteUnlink
  simp

@[simp]
theorem maxLevel_deleteUnlink (sl : SkipList) (pi tau i : Nat) :
    (sl.deleteUnlink pi tau i).maxLevel = sl.maxLevel := by
  unfold deleteUnlink
  simp

@[simp]
theorem length_deleteUnlink (sl : SkipList) (pi tau i : Nat) :
    (sl.deleteUnlink pi tau i).length = sl.length := by
  unfold deleteUnlink
  simp

@[simp]
theorem key_deleteUnlink (sl : SkipList) (pi tau i : Nat) (id : Nat) :
    (sl.deleteUnlink pi tau i).key id = sl.key id := by
  unfold deleteUnlink
  simp

@[simp]
theorem height_deleteUnlink (sl : SkipList) (pi tau i : Nat) (id : Nat) :
    (sl.deleteUnlink pi tau i).height id = sl.height id := by
  unfold deleteUnlink
  simp

theorem nlv_deleteUnlink_pi (sl : SkipList) {pi tau i : Nat}
    (hne : pi ≠ tau) (hpi : pi < sl.nodes.length) (hhpi : i < sl.height pi) :
    (sl.deleteUnlink pi tau i).nlv pi i
      = { next := (sl.nlv tau i).next,
          span := (sl.nlv pi i).span + (sl.nlv tau i).span - 1 } := by
  unfold deleteUnlink
  rw [nlv_setSpan_self _ _ (by simpa using hpi) (by simpa using hhpi)]
  rw [nlv_setNext_self _ _ hpi hhpi]
  rw [nlv_setNext_ne _ _ (Or.inl (fun hc => hne hc.symm))]

theorem nlv_deleteUnlink_other (sl : SkipList) {pi tau i id j : Nat}
    (h : id ≠ pi ∨ j ≠ i) :
    (sl.deleteUnlink pi tau i).nlv id j = sl.nlv id j := by
  unfold deleteUnlink
  rw [nlv_setSpan_ne _ _ h, nlv_setNext_ne _ _ h]

/-- The predecessor node used by iteration `j` of `Insert`'s linking loop
(the head once `j` reaches the pre-insert `maxLevel`). -/
def insPj (path : List (Nat × Int)) (ml0 j : Nat) : Nat :=
  if ml0 ≤ j then 0 else (pathAt path j).1

/-- Effect of one iteration of `Insert`'s linking loop on a state `S` whose
level-`m` records still agree with the post-allocation state `sl1`. -/
theorem insertStep_spec {S sl1 : SkipList} {path : List (Nat × Int)} {d0 : Int}
    {nu r ml0 m : Nat}
    (hmx : m < max ml0 r)
    (hSml : S.maxLevel = max ml0 m)
    (hSlen : S.nodes.length = sl1.nodes.length)
    (hSheight : ∀ id, S.height id = sl1.height id)
    (hSm : ∀ id, S.nlv id m = sl1.nlv id m)
    (hSlength : S.length = sl1.length)
    (hnu : nu < sl1.nodes.length)
    (hhnu : sl1.height nu = r)
    (hpne : insPj path ml0 m ≠ nu)
    (hplt : insPj path ml0 m < sl1.nodes.length)
    (hph : m < sl1.height (insPj path ml0 m)) :
    (S.insertStep path d0 nu r m).nodes.length = sl1.nodes.length ∧
    (S.insertStep path d0 nu r m).maxLevel = max ml0 (m + 1) ∧
    (S.insertStep path d0 nu r m).length = sl1.length ∧
    (∀ id, (S.insertStep path d0 nu r m).key id = S.key id) ∧
    (∀ id, (S.insertStep path d0 nu r m).height id = S.height id) ∧
    (∀ j, j ≠ m → ∀ id, (S.insertStep path d0 nu r m).nlv id j = S.nlv id j) ∧
    (m < r →
      (S.insertStep path d0 nu r m).nlv nu m
        = { next := (sl1.nlv (insPj path ml0 m) m).next,
            span := (if ml0 ≤ m then sl1.length else (sl1.nlv (insPj path ml0 m) m).span)
              - (d0 - (pathAt path m).2) } ∧
      (S.insertStep path d0 nu r m).nlv (insPj path ml0 m) m
        = { next := some nu, span := (d0 - (pathAt path m).2) + 1 }) ∧
    (r ≤ m →
      (S.insertStep path d0 nu r m).nlv (insPj path ml0 m) m
        = { next := (sl1.nlv (insPj path ml0 m) m).next,
            span := (sl1.nlv (insPj path ml0 m) m).span + 1 }) ∧
    (∀ id, id ≠ nu → id ≠ insPj path ml0 m →
      (S.insertStep path d0 nu r m).nlv id m = sl1.nlv id m) := by
  have hstep : S.insertStep path d0 nu r m
      = (if m < r then
          (S.insertGrow m).insertLink (pathAt path m).2 d0
            (if S.maxLevel ≤ m then 0 else (pathAt path m).1) nu m
        else
          (S.insertGrow m).setSpan (if S.maxLevel ≤ m then 0 else (pathAt path m).1) m
            (((S.insertGrow m).nlv (if S.maxLevel ≤ m then 0 else (pathAt path m).1) m).span
              + 1)) := rfl
  have hpieq : (if S.maxLevel ≤ m then 0 else (pathAt path m).1) = insPj path ml0 m := by
    unfold insPj
    by_cases hml : ml0 ≤ m
    · rw [if_pos (by omega), if_pos hml]
    · rw [if_neg (by omega), if_neg hml]
  rw [hpieq] at hstep
  have h0S : 0 < S.nodes.length := by omega
  have hSnu : nu < S.nodes.length := by omega
  have hShnu : S.height nu = r := by rw [hSheight]; exact hhnu
  have hSplt : insPj path ml0 m < S.nodes.length := by omega
  have hSph : m < S.height (insPj path ml0 m) := by rw [hSheight]; exact hph
  rcases Nat.lt_or_ge m r with hr | hr
  · rw [if_pos hr] at hstep
    by_cases hml : ml0 ≤ m
    · -- a fresh level: the predecessor is the head
      have hpj : insPj path ml0 m = 0 := if_pos hml
      have hgml : S.maxLevel ≤ m := by omega
      have hG0 : (S.insertGrow m).nlv 0 m = { S.nlv 0 m with span := S.length } :=
        nlv_insertGrow_self S hgml h0S (by rw [hpj] at hSph; exact hSph)
      refine ⟨?_, ?_, ?_, ?_, ?_, ?_, ?_, ?_, ?_⟩
      · rw [hstep]; simp [hSlen]
      · rw [hstep]
        simp only [maxLevel_insertLink, maxLevel_insertGrow, if_pos hgml]
        omega
      · rw [hstep]; simp [hSlength]
      · intro id; rw [hstep]; simp
      · intro id; rw [hstep]; simp
      · intro j hj id
        rw [hstep, nlv_insertLink_other _ _ _ (Or.inr hj), nlv_insertGrow_ne _ (Or.inr hj)]
      · intro _
        constructor
        · rw [hstep, hpj]
          rw [nlv_insertLink_nu _ _ _ (by rw [hpj] at hpne; exact hpne)
            (by simpa using hSnu) (by simpa using hShnu ▸ hr)]
          rw [hG0, if_pos hml, hSm 0]
          simp [hSlength]
        · rw [hstep, hpj]
          rw [nlv_insertLink_pi _ _ _ (by rw [hpj] at hpne; exact hpne)
            (by simpa using h0S) (by simpa using (hpj ▸ hSph))]
      · intro hc; omega
      · intro id hid1 hid2
        rw [hstep, nlv_insertLink_other _ _ _ (Or.inl ⟨hid1, hpj ▸ hid2⟩),
          nlv_insertGrow_ne _ (Or.inl (hpj ▸ hid2)), hSm id]
    · -- below the old maxLevel: no growth
      have hgml : m < S.maxLevel := by omega
      have hG : S.insertGrow m = S := insertGrow_of_lt hgml
      refine ⟨?_, ?_, ?_, ?_, ?_, ?_, ?_, ?_, ?_⟩
      · rw [hstep, hG]; simp [hSlen]
      · rw [hstep]; simp only [maxLevel_insertLink, maxLevel_insertGrow]
        rw [if_neg (by omega)]
        omega
      · rw [hstep, hG]; simp [hSlength]
      · intro id; rw [hstep, hG]; simp
      · intro id; rw [hstep, hG]; simp
      · intro j hj id
        rw [hstep, hG, nlv_insertLink_other _ _ _ (Or.inr hj)]
      · intro _
        constructor
        · rw [hstep, hG]
          rw [nlv_insertLink_nu _ _ _ hpne hSnu (by rw [hShnu]; exact hr)]
          rw [hSm, if_neg hml]
        · rw [hstep, hG]
          rw [nlv_insertLink_pi _ _ _ hpne hSplt hSph]
      · intro hc; omega
      · intro id hid1 hid2
        rw [hstep, hG, nlv_insertLink_other _ _ _ (Or.inl ⟨hid1, hid2⟩), hSm id]
  · -- above the node's level: only bump the predecessor's span
    rw [if_neg (by omega)] at hstep
    have hml : ¬ ml0 ≤ m := by omega
    have hgml : m < S.maxLevel := by omega
    have hG : S.insertGrow m = S := insertGrow_of_lt hgml
    rw [hG] at hstep
    refine ⟨?_, ?_, ?_, ?_, ?_, ?_, ?_, ?_, ?_⟩
    · rw [hstep]; simp [hSlen]
    · rw [hstep]; simp only [maxLevel_setSpan]
      omega
    · rw [hstep]; simp [hSlength]
    · intro id; rw [hstep]; simp
    · intro id; rw [hstep]; simp
    · intro j hj id
      rw [hstep, nlv_setSpan_ne _ _ (Or.inr hj)]
    · intro hc; omega
    · intro _
      rw [hstep, nlv_setSpan_self _ _ hSplt hSph, hSm]
    · intro id hid1 hid2
      rw [hstep, nlv_setSpan_ne _ _ (Or.inl hid2), hSm id]

/-- Cumulative effect of `Insert`'s linking loop over levels `0..m-1`. -/
theorem insertLoop_spec {sl1 : SkipList} {path : List (Nat × Int)} {d0 : Int}
    {nu r ml0 : Nat}
    (hml : sl1.maxLevel = ml0)
    (hnu : nu < sl1.nodes.length)
    (hhnu : sl1.height nu = r)
    (hp : ∀ j, j < max ml0 r →
      insPj path ml0 j ≠ nu ∧ insPj path ml0 j < sl1.nodes.length ∧
        j < sl1.height (insPj path ml0 j)) :
    ∀ m, m ≤ max ml0 r →
      (sl1.insertLoop path d0 nu r (List.range m)).nodes.length = sl1.nodes.length ∧
      (sl1.insertLoop path d0 nu r (List.range m)).maxLevel = max ml0 m ∧
      (sl1.insertLoop path d0 nu r (List.range m)).length = sl1.length ∧
      (∀ id, (sl1.insertLoop path d0 nu r (List.range m)).key id = sl1.key id) ∧
      (∀ id, (sl1.insertLoop path d0 nu r (List.range m)).height id = sl1.height id) ∧
      (∀ j, m ≤ j → ∀ id,
        (sl1.insertLoop path d0 nu r (List.range m)).nlv id j = sl1.nlv id j) ∧
      (∀ j, j < m →
        (j < r →
          (sl1.insertLoop path d0 nu r (List.range m)).nlv nu j
            = { next := (sl1.nlv (insPj path ml0 j) j).next,
                span := (if ml0 ≤ j then sl1.length else (sl1.nlv (insPj path ml0 j) j).span)
                  - (d0 - (pathAt path j).2) } ∧
          (sl1.insertLoop path d0 nu r (List.range m)).nlv (insPj path ml0 j) j
            = { next := some nu, span := (d0 - (pathAt path j).2) + 1 }) ∧
        (r ≤ j →
          (sl1.insertLoop path d0 nu r (List.range m)).nlv (insPj path ml0 j) j
            = { next := (sl1.nlv (insPj path ml0 j) j).next,
                span := (sl1.nlv (insPj path ml0 j) j).span + 1 }) ∧
        (∀ id, id ≠ nu → id ≠ insPj path ml0 j →
          (sl1.insertLoop path d0 nu r (List.range m)).nlv id j = sl1.nlv id j)) := by
  intro m
  induction m with
  | zero =>
    intro _
    refine ⟨rfl, by simpa using hml, rfl, fun _ => rfl, fun _ => rfl, fun _ _ _ => rfl,
      by omega⟩
  | succ m ih =>
    intro hm
    obtain ⟨ihlen, ihml, ihlength, ihkey, ihheight, ihhigh, ihdone⟩ := ih (by omega)
    have hsplit : sl1.insertLoop path d0 nu r (List.range (m + 1))
        = (sl1.insertLoop path d0 nu r (List.range m)).insertStep path d0 nu r m := by
      rw [List.range_succ, insertLoop_append]
      rfl
    have hstep := @insertStep_spec (sl1.insertLoop path d0 nu r (List.range m)) sl1 path
      d0 nu r ml0 m (by omega) ihml ihlen ihheight
      (fun id => ihhigh m (by omega) id) ihlength
      hnu hhnu (hp m (by omega)).1 (hp m (by omega)).2.1 (hp m (by omega)).2.2
    obtain ⟨s1, s2, s3, s4, s5, s6, s7, s8, s9⟩ := hstep
    rw [hsplit]
    refine ⟨s1, s2, s3, ?_, ?_, ?_, ?_⟩
    · intro id; rw [s4 id, ihkey id]
    · intro id; rw [s5 id, ihheight id]
    · intro j hj id
      rw [s6 j (by omega) id, ihhigh j (by omega) id]
    · intro j hj
      by_cases hjm : j = m
      · subst hjm
        exact ⟨s7, s8, s9⟩
      · have hjm2 : j < m := by omega
        obtain ⟨d1, d2, d3⟩ := ihdone j hjm2
        refine ⟨?_, ?_, ?_⟩
        · intro hjr
          obtain ⟨e1, e2⟩ := d1 hjr
          exact ⟨by rw [s6 j hjm, e1], by rw [s6 j hjm, e2]⟩
        · intro hjr
          rw [s6 j hjm, d2 hjr]
        · intro id h1 h2
          rw [s6 j hjm, d3 id h1 h2]

/-- Full characterisation of the descend over any number of levels `≤ MaxLevel`. -/
theorem descend_spec {sl : SkipList} {base : List Nat} (h : sl.InvW base) (K : IntervalKey) :
    ∀ {lvls n : Nat}, lvls ≤ MaxLevel →
      n ∈ 0 :: lowPath sl base K (lvls - 1) →
      (sl.descend K lvls n (posIn base n)).1.length = lvls ∧
      (∀ j, j < lvls →
        pathAt (sl.descend K lvls n (posIn base n)).1 j
          = (predAt sl base K j, posIn base (predAt sl base K j))) ∧
      (sl.descend K lvls n (posIn base n)).2
        = (if lvls = 0 then n else predAt sl base K 0) := by
  intro lvls
  induction lvls with
  | zero =>
    intro n _ _
    refine ⟨rfl, by omega, by simp [descend]⟩
  | succ l ih =>
    intro n hl hn
    have hl' : l < MaxLevel := by omega
    have hwalk := walk_level h hl' (by simpa using hn)
    have hrec := ih (n := predAt sl base K l) (by omega) (h.predAt_mem_pred K l)
    have hd : sl.descend K (l + 1) n (posIn base n)
        = ((sl.descend K l (predAt sl base K l) (posIn base (predAt sl base K l))).1
            ++ [(predAt sl base K l, posIn base (predAt sl base K l))],
           (sl.descend K l (predAt sl base K l) (posIn base (predAt sl base K l))).2) := by
      simp only [descend, hwalk]
    rw [hd]
    obtain ⟨hlen, hpath, hfin⟩ := hrec
    refine ⟨by simp [hlen], ?_, ?_⟩
    · intro j hj
      by_cases hjl : j < l
      · rw [pathAt, getD_append_left _ _ _ (by omega), ← pathAt, hpath j hjl]
      · have hjeq : j = l := by omega
        subst hjeq
        rw [pathAt, getD_append_right _ _ _ (by omega), hlen]
        simp
    · cases l with
      | zero =>
        simp only [hfin, if_pos rfl]
        simp
      | succ l2 =>
        simp only [hfin]
        simp

/-! ## Chain congruence and decomposition lemmas -/

theorem isChain_congr_next {sl sl2 : SkipList} {i : Nat} :
    ∀ {n : Nat} {l : List Nat},
      (∀ x ∈ n :: l, (sl2.nlv x i).next = (sl.nlv x i).next) →
      sl.IsChain i n l → sl2.IsChain i n l := by
  intro n l
  induction l generalizing n with
  | nil =>
    intro hc h
    simp only [IsChain] at *
    rw [hc n (by simp)]
    exact h
  | cons m tl ih =>
    intro hc h
    obtain ⟨h1, h2⟩ := h
    refine ⟨by rw [hc n (by simp)]; exact h1, ih (fun x hx => hc x (by simp [List.mem_cons] at hx ⊢; tauto)) h2⟩

theorem chainTo_congr_next {sl sl2 : SkipList} {i : Nat} :
    ∀ {n : Nat} {l : List Nat} {m : Nat},
      (∀ x ∈ n :: l, (sl2.nlv x i).next = (sl.nlv x i).next) →
      sl.ChainTo i n l m → sl2.ChainTo i n l m := by
  intro n l
  induction l generalizing n with
  | nil =>
    intro m hc h
    simp only [ChainTo] at *
    rw [hc n (by simp)]
    exact h
  | cons x tl ih =>
    intro m hc h
    obtain ⟨h1, h2⟩ := h
    refine ⟨by rw [hc n (by simp)]; exact h1, ih (fun y hy => hc y (by simp [List.mem_cons] at hy ⊢; tauto)) h2⟩

theorem isChain_lastD_next {sl : SkipList} {i : Nat} :
    ∀ {l : List Nat} {n : Nat}, sl.IsChain i n l → (sl.nlv (lastD l n) i).next = none := by
  intro l
  induction l with
  | nil => intro n h; exact h
  | cons m tl ih => intro n h; exact ih h.2

theorem chainTo_lastD_next {sl : SkipList} {i : Nat} :
    ∀ {l : List Nat} {n m : Nat}, sl.ChainTo i n l m → (sl.nlv (lastD l n) i).next = some m := by
  intro l
  induction l with
  | nil => intro n m h; exact h
  | cons x tl ih => intro n m h; exact ih h.2

/-- Transport a span chain to a new state whose spans agree on all pair
sources and whose positions are uniformly shifted by `c`. -/
theorem chain'_spanOk_shift {sl sl2 : SkipList} {base base2 : List Nat} {i : Nat} {c : Int} :
    ∀ {l : List Nat},
      (∀ a ∈ l.dropLast, (sl2.nlv a i).span = (sl.nlv a i).span) →
      (∀ a ∈ l, posIn base2 a = posIn base a + c) →
      List.Chain' (sl.spanOk base i) l → List.Chain' (sl2.spanOk base2 i) l := by
  intro l
  induction l with
  | nil => intro _ _ _; simp
  | cons x tl ih =>
    intro hsp hpos h
    cases tl with
    | nil => simp
    | cons y tl2 =>
      rcases List.chain'_cons.mp h with ⟨h1, h2⟩
      refine List.chain'_cons.mpr ⟨?_, ?_⟩
      · unfold spanOk at h1 ⊢
        rw [hsp x (by simp), hpos x (by simp), hpos y (by simp)]
        omega
      · refine ih ?_ (fun a ha => hpos a (by simp [ha])) h2
        intro a ha
        refine hsp a ?_
        have : (x :: y :: tl2).dropLast = x :: (y :: tl2).dropLast := rfl
        rw [this]
        simp [ha]

theorem indexOf_lastD {l : List Nat} (h : l.Nodup) (hne : l ≠ []) :
    l.indexOf (lastD l 0) = l.length - 1 := by
  rcases List.eq_nil_or_concat l with rfl | ⟨t, x, rfl⟩
  · exact absurd rfl hne
  · rw [List.concat_eq_append] at *
    have h1 : lastD (t ++ [x]) 0 = x := lastD_append t x [] 0
    rw [h1]
    have hx : x ∉ t := by
      intro hc
      have := List.disjoint_of_nodup_append h
      exact this hc (by simp)
    rw [List.indexOf_append_of_not_mem hx]
    simp

/-! ## The new node's position in the updated base list -/

theorem posIn_zero (base : List Nat) : posIn base 0 = 0 := rfl

theorem posIn_append_left {base1 base2 : List Nat} {x : Nat} (hx : x ∈ base1) (hx0 : x ≠ 0) :
    posIn (base1 ++ base2) x = posIn base1 x := by
  unfold posIn
  rw [if_neg hx0, if_neg hx0, List.indexOf_append_of_mem hx]

theorem posIn_insert_left {P S : List Nat} {nu x : Nat} (hx : x ∈ P) (hx0 : x ≠ 0) :
    posIn (P ++ nu :: S) x = posIn (P ++ S) x := by
  unfold posIn
  rw [if_neg hx0, if_neg hx0, List.indexOf_append_of_mem hx, List.indexOf_append_of_mem hx]

theorem posIn_insert_self {P S : List Nat} {nu : Nat} (hnu : nu ∉ P) (hnu0 : nu ≠ 0) :
    posIn (P ++ nu :: S) nu = (P.length : Int) + 1 := by
  unfold posIn
  rw [if_neg hnu0, List.indexOf_append_of_not_mem hnu]
  simp

theorem posIn_insert_right {P S : List Nat} {nu x : Nat} (hxP : x ∉ P) (hxnu : x ≠ nu)
    (hx0 : x ≠ 0) :
    posIn (P ++ nu :: S) x = posIn (P ++ S) x + 1 := by
  unfold posIn
  rw [if_neg hx0, if_neg hx0, List.indexOf_append_of_not_mem hxP,
    List.indexOf_append_of_not_mem hxP]
  have : (nu :: S).indexOf x = S.indexOf x + 1 := by
    rw [List.indexOf_cons_ne _ (fun hc => hxnu hc.symm)]
  rw [this]
  push_cast
  ring

/-! ## Reads through `allocNode` -/

@[simp]
theorem nodes_length_allocNode (sl : SkipList) (ik : IntervalKey) (r : Nat) :
    (sl.allocNode ik r).nodes.length = sl.nodes.length + 1 := by
  simp [allocNode]

@[simp]
theorem maxLevel_allocNode (sl : SkipList) (ik : IntervalKey) (r : Nat) :
    (sl.allocNode ik r).maxLevel = sl.maxLevel := rfl

@[simp]
theorem length_allocNode (sl : SkipList) (ik : IntervalKey) (r : Nat) :
    (sl.allocNode ik r).length = sl.length := rfl

theorem node_allocNode_ne (sl : SkipList) (ik : IntervalKey) (r : Nat) {id : Nat}
    (h : id ≠ sl.nodes.length) : (sl.allocNode ik r).node id = sl.node id := by
  unfold allocNode node
  rcases Nat.lt_or_ge id sl.nodes.length with h2 | h2
  · exact getD_append_left _ _ _ h2
  · rw [getD_append_right _ _ _ h2, getD_of_length_le _ _ (by simp; omega),
      getD_of_length_le _ _ h2]

theorem key_allocNode_ne (sl : SkipList) (ik : IntervalKey) (r : Nat) {id : Nat}
    (h : id ≠ sl.nodes.length) : (sl.allocNode ik r).key id = sl.key id := by
  rw [key, node_allocNode_ne sl ik r h, key]

theorem height_allocNode_ne (sl : SkipList) (ik : IntervalKey) (r : Nat) {id : Nat}
    (h : id ≠ sl.nodes.length) : (sl.allocNode ik r).height id = sl.height id := by
  rw [height, node_allocNode_ne sl ik r h, height]

theorem nlv_allocNode_ne (sl : SkipList) (ik : IntervalKey) (r : Nat) {id : Nat} (j : Nat)
    (h : id ≠ sl.nodes.length) : (sl.allocNode ik r).nlv id j = sl.nlv id j := by
  rw [nlv, node_allocNode_ne sl ik r h, nlv]

theorem node_allocNode_self (sl : SkipList) (ik : IntervalKey) (r : Nat) :
    (sl.allocNode ik r).node sl.nodes.length
      = { intervalKey := ik, levels := List.replicate r {} } := by
  unfold allocNode node
  rw [getD_append_right _ _ _ (le_refl _)]
  simp

@[simp]
theorem key_allocNode_self (sl : SkipList) (ik : IntervalKey) (r : Nat) :
    (sl.allocNode ik r).key sl.nodes.length = ik := by
  rw [key, node_allocNode_self]

@[simp]
theorem height_allocNode_self (sl : SkipList) (ik : IntervalKey) (r : Nat) :
    (sl.allocNode ik r).height sl.nodes.length = r := by
  rw [height, node_allocNode_self]
  simp

theorem nlv_allocNode_self (sl : SkipList) (ik : IntervalKey) (r : Nat) (j : Nat) :
    (sl.allocNode ik r).nlv sl.nodes.length j = {} := by
  rw [nlv, node_allocNode_self]
  rcases Nat.lt_or_ge j r with h | h
  · simp only [List.getD_eq_getElem?_getD, List.getElem?_replicate, if_pos h]
    rfl
  · exact getD_of_length_le _ _ (by simpa using h)

/-! ## Packaged descend facts for `Insert`/`Delete` -/

theorem InvW.base_nil_of_ml_zero {sl : SkipList} {base : List Nat} (h : sl.InvW base)
    (hml : sl.maxLevel = 0) : base = [] := by
  cases base with
  | nil => rfl
  | cons x xs =>
    have h1 := h.height_pos x (by simp)
    have h2 := h.height_le x (by simp)
    omega

theorem InvW.rowOf_nil_of_top {sl : SkipList} {base : List Nat} (h : sl.InvW base)
    {j : Nat} (hj : sl.maxLevel ≤ j) : sl.rowOf base j = [] := by
  unfold rowOf
  rw [List.filter_eq_nil_iff]
  intro id hid
  have := h.height_le id hid
  simp only [decide_eq_true_eq]
  omega

theorem InvW.predAt_top {sl : SkipList} {base : List Nat} (h : sl.InvW base)
    (K : IntervalKey) {j : Nat} (hj : sl.maxLevel ≤ j) : predAt sl base K j = 0 := by
  unfold predAt lowPath
  rw [h.rowOf_nil_of_top hj]
  rfl

theorem InvW.predAt_lt {sl : SkipList} {base : List Nat} (h : sl.InvW base)
    (K : IntervalKey) (j : Nat) : predAt sl base K j < sl.nodes.length := by
  rcases List.mem_cons.mp (h.predAt_mem K j) with h0 | hm
  · rw [h0]; exact h.head_lt
  · exact (h.base_mem _ (h.mem_lowPath_base hm)).2

theorem InvW.predAt_height {sl : SkipList} {base : List Nat} (h : sl.InvW base)
    (K : IntervalKey) {j : Nat} (hj : j < MaxLevel) :
    j < sl.height (predAt sl base K j) := by
  rcases List.mem_cons.mp (h.predAt_mem K j) with h0 | hm
  · rw [h0, h.head_levels]; exact hj
  · unfold lowPath at hm
    have h1 : predAt sl base K j ∈ sl.rowOf base j := (List.takeWhile_sublist _).subset hm
    unfold rowOf at h1
    have := List.mem_filter.mp h1
    simpa using this.2

theorem InvW.insert_path {sl : SkipList} {base : List Nat} (h : sl.InvW base)
    (K : IntervalKey) :
    (∀ j, j < MaxLevel →
      pathAt (sl.descend K sl.maxLevel 0 0).1 j
        = (predAt sl base K j, posIn base (predAt sl base K j))) ∧
    (sl.descend K sl.maxLevel 0 0).2 = predAt sl base K 0 := by
  have hd0 : (0 : Int) = posIn base 0 := rfl
  have hspec := @descend_spec sl base h K sl.maxLevel 0 h.ml_le (by simp)
  rw [← hd0] at hspec
  obtain ⟨hlen, hpath, hfin⟩ := hspec
  constructor
  · intro j hj
    rcases Nat.lt_or_ge j sl.maxLevel with hjm | hjm
    · exact hpath j hjm
    · rw [pathAt, getD_of_length_le _ _ (by omega), h.predAt_top K hjm]
      rfl
  · rw [hfin]
    rcases Nat.eq_zero_or_pos sl.maxLevel with hml | hml
    · rw [if_pos hml, h.predAt_top K (by omega)]
    · rw [if_neg (by omega)]

theorem InvW.next_predAt {sl : SkipList} {base : List Nat} (h : sl.InvW base)
    (K : IntervalKey) {i : Nat} (hi : i < MaxLevel) :
    (sl.nlv (predAt sl base K i) i).next = (highPath sl base K i).head? := by
  have hrow : sl.rowOf base i = lowPath sl base K i ++ highPath sl base K i :=
    (List.takeWhile_append_dropWhile _ _).symm
  have hc := h.chains i hi
  rw [hrow] at hc
  cases hh : highPath sl base K i with
  | nil =>
    rw [hh, List.append_nil] at hc
    exact isChain_lastD_next hc
  | cons sigma rest =>
    rw [hh] at hc
    have := (isChain_append.mp hc).1
    exact chainTo_lastD_next this

/-- Effect of a non-update `Insert` on every observable field of the state. -/
theorem InvW.insert_state {sl : SkipList} {base : List Nat} (h : sl.InvW base)
    {K : IntervalKey} {r : Nat} (hr2 : r ≤ MaxLevel)
    (hno : ∀ id ∈ base, (sl.key id).equalInterval K = false) :
    (sl.Insert K r).2 = none ∧
    (sl.Insert K r).1.nodes.length = sl.nodes.length + 1 ∧
    (sl.Insert K r).1.maxLevel = max sl.maxLevel r ∧
    (sl.Insert K r).1.length = sl.length + 1 ∧
    ((sl.Insert K r).1.key sl.nodes.length = K) ∧
    (∀ id, id ≠ sl.nodes.length → (sl.Insert K r).1.key id = sl.key id) ∧
    ((sl.Insert K r).1.height sl.nodes.length = r) ∧
    (∀ id, id ≠ sl.nodes.length → (sl.Insert K r).1.height id = sl.height id) ∧
    (∀ j, j < max sl.maxLevel r →
      (j < r → (sl.Insert K r).1.nlv sl.nodes.length j
          = { next := (sl.nlv (predAt sl base K j) j).next,
              span := (if sl.maxLevel ≤ j then sl.length
                  else (sl.nlv (predAt sl base K j) j).span)
                - (posIn base (predAt sl base K 0) - posIn base (predAt sl base K j)) } ∧
        (sl.Insert K r).1.nlv (predAt sl base K j) j
          = { next := some sl.nodes.length,
              span := (posIn base (predAt sl base K 0)
                - posIn base (predAt sl base K j)) + 1 }) ∧
      (r ≤ j → (sl.Insert K r).1.nlv (predAt sl base K j) j
          = { next := (sl.nlv (predAt sl base K j) j).next,
              span := (sl.nlv (predAt sl base K j) j).span + 1 }) ∧
      (∀ id, id ≠ sl.nodes.length → id ≠ predAt sl base K j →
        (sl.Insert K r).1.nlv id j = sl.nlv id j)) ∧
    (∀ j, max sl.maxLevel r ≤ j →
      ((sl.Insert K r).1.nlv sl.nodes.length j = {} ∧
       ∀ id, id ≠ sl.nodes.length → (sl.Insert K r).1.nlv id j = sl.nlv id j)) := by
  obtain ⟨hpath, hfin⟩ := h.insert_path K
  -- the update branch is not taken
  have hnext : (sl.nlv (sl.descend K sl.maxLevel 0 0).2 0).next
      = (highPath sl base K 0).head? := by
    rw [hfin]
    exact h.next_predAt K (by decide)
  have hins : sl.Insert K r = sl.insertNewNode K r (sl.descend K sl.maxLevel 0 0).1 := by
    show (match (sl.nlv (sl.descend K sl.maxLevel 0 0).2 0).next with
      | some m =>
        if (sl.key m).equalInterval K then
          ({ sl with nodes := sl.nodes.set m { sl.node m with intervalKey := K } },
            some (sl.key m))
        else sl.insertNewNode K r (sl.descend K sl.maxLevel 0 0).1
      | none => sl.insertNewNode K r (sl.descend K sl.maxLevel 0 0).1)
      = sl.insertNewNode K r (sl.descend K sl.maxLevel 0 0).1
    rw [hnext]
    cases hh : (highPath sl base K 0).head? with
    | none => rfl
    | some sigma =>
      have hsig : sigma ∈ base := by
        have h1 : sigma ∈ highPath sl base K 0 := List.mem_of_mem_head? hh
        unfold highPath at h1
        have h2 : sigma ∈ sl.rowOf base 0 := (List.dropWhile_sublist _).subset h1
        exact List.mem_of_mem_filter h2
      simp [hno sigma hsig]
  have hinsPj : ∀ j, j < MaxLevel →
      insPj (sl.descend K sl.maxLevel 0 0).1 sl.maxLevel j = predAt sl base K j := by
    intro j hj
    unfold insPj
    by_cases hml : sl.maxLevel ≤ j
    · rw [if_pos hml, h.predAt_top K hml]
    · rw [if_neg hml, hpath j hj]
  have hd0 : (pathAt (sl.descend K sl.maxLevel 0 0).1 0).2
      = posIn base (predAt sl base K 0) := by
    rw [hpath 0 (by decide)]
  have hmx32 : max sl.maxLevel r ≤ MaxLevel := by
    have := h.ml_le
    omega
  have hp : ∀ j, j < max sl.maxLevel r →
      insPj (sl.descend K sl.maxLevel 0 0).1 sl.maxLevel j ≠ sl.nodes.length ∧
      insPj (sl.descend K sl.maxLevel 0 0).1 sl.maxLevel j < (sl.allocNode K r).nodes.length ∧
      j < (sl.allocNode K r).height (insPj (sl.descend K sl.maxLevel 0 0).1 sl.maxLevel j) := by
    intro j hj
    have hj32 : j < MaxLevel := by omega
    rw [hinsPj j hj32]
    have hlt := h.predAt_lt K j
    refine ⟨by omega, by simp; omega, ?_⟩
    rw [height_allocNode_ne sl K r (by omega)]
    exact h.predAt_height K hj32
  have hloop := @insertLoop_spec (sl.allocNode K r) (sl.descend K sl.maxLevel 0 0).1
    ((pathAt (sl.descend K sl.maxLevel 0 0).1 0).2) sl.nodes.length r sl.maxLevel
    (maxLevel_allocNode sl K r) (by simp) (height_allocNode_self sl K r) hp
    (max sl.maxLevel r) (le_refl _)
  obtain ⟨L1, L2, L3, L4, L5, L6, L7⟩ := hloop
  rw [hins]
  refine ⟨rfl, ?_, ?_, ?_, ?_, ?_, ?_, ?_, ?_, ?_⟩
  · show ((sl.allocNode K r).insertLoop (sl.descend K sl.maxLevel 0 0).1
        ((pathAt (sl.descend K sl.maxLevel 0 0).1 0).2) sl.nodes.length r
        (List.range (max sl.maxLevel r))).nodes.length = sl.nodes.length + 1
    rw [L1]
    simp
  · show ((sl.allocNode K r).insertLoop (sl.descend K sl.maxLevel 0 0).1
        ((pathAt (sl.descend K sl.maxLevel 0 0).1 0).2) sl.nodes.length r
        (List.range (max sl.maxLevel r))).maxLevel = max sl.maxLevel r
    rw [L2]
    omega
  · show ((sl.allocNode K r).insertLoop (sl.descend K sl.maxLevel 0 0).1
        ((pathAt (sl.descend K sl.maxLevel 0 0).1 0).2) sl.nodes.length r
        (List.range (max sl.maxLevel r))).length + 1 = sl.length + 1
    rw [L3]
    simp
  · show ((sl.allocNode K r).insertLoop (sl.descend K sl.maxLevel 0 0).1
        ((pathAt (sl.descend K sl.maxLevel 0 0).1 0).2) sl.nodes.length r
        (List.range (max sl.maxLevel r))).key sl.nodes.length = K
    rw [L4]
    simp
  · intro id hid
    show ((sl.allocNode K r).insertLoop (sl.descend K sl.maxLevel 0 0).1
        ((pathAt (sl.descend K sl.maxLevel 0 0).1 0).2) sl.nodes.length r
        (List.range (max sl.maxLevel r))).key id = sl.key id
    rw [L4, key_allocNode_ne sl K r hid]
  · show ((sl.allocNode K r).insertLoop (sl.descend K sl.maxLevel 0 0).1
        ((pathAt (sl.descend K sl.maxLevel 0 0).1 0).2) sl.nodes.length r
        (List.range (max sl.maxLevel r))).height sl.nodes.length = r
    rw [L5]
    simp
  · intro id hid
    show ((sl.allocNode K r).insertLoop (sl.descend K sl.maxLevel 0 0).1
        ((pathAt (sl.descend K sl.maxLevel 0 0).1 0).2) sl.nodes.length r
        (List.range (max sl.maxLevel r))).height id = sl.height id
    rw [L5, height_allocNode_ne sl K r hid]
  · intro j hj
    have hj32 : j < MaxLevel := by omega
    obtain ⟨D1, D2, D3⟩ := L7 j hj
    rw [hinsPj j hj32] at D1 D2 D3
    have hpredne : predAt sl base K j ≠ sl.nodes.length := by
      have := h.predAt_lt K j
      omega
    have hdj : (pathAt (sl.descend K sl.maxLevel 0 0).1 j).2
        = posIn base (predAt sl base K j) := by
      rw [hpath j hj32]
    refine ⟨?_, ?_, ?_⟩
    · intro hjr
      obtain ⟨E1, E2⟩ := D1 hjr
      rw [nlv_allocNode_ne sl K r j hpredne] at E1
      constructor
      · show ((sl.allocNode K r).insertLoop (sl.descend K sl.maxLevel 0 0).1
            ((pathAt (sl.descend K sl.maxLevel 0 0).1 0).2) sl.nodes.length r
            (List.range (max sl.maxLevel r))).nlv sl.nodes.length j = _
        rw [E1]
        simp only [hdj, hd0, length_allocNode]
      · show ((sl.allocNode K r).insertLoop (sl.descend K sl.maxLevel 0 0).1
            ((pathAt (sl.descend K sl.maxLevel 0 0).1 0).2) sl.nodes.length r
            (List.range (max sl.maxLevel r))).nlv (predAt sl base K j) j = _
        rw [E2]
        simp only [hdj, hd0]
    · intro hjr
      rw [nlv_allocNode_ne sl K r j hpredne] at D2
      show ((sl.allocNode K r).insertLoop (sl.descend K sl.maxLevel 0 0).1
          ((pathAt (sl.descend K sl.maxLevel 0 0).1 0).2) sl.nodes.length r
          (List.range (max sl.maxLevel r))).nlv (predAt sl base K j) j = _
      exact D2 hjr
    · intro id hid1 hid2
      show ((sl.allocNode K r).insertLoop (sl.descend K sl.maxLevel 0 0).1
          ((pathAt (sl.descend K sl.maxLevel 0 0).1 0).2) sl.nodes.length r
          (List.range (max sl.maxLevel r))).nlv id j = sl.nlv id j
      rw [D3 id hid1 hid2, nlv_allocNode_ne sl K r j hid1]
  · intro j hj
    constructor
    · show ((sl.allocNode K r).insertLoop (sl.descend K sl.maxLevel 0 0).1
          ((pathAt (sl.descend K sl.maxLevel 0 0).1 0).2) sl.nodes.length r
          (List.range (max sl.maxLevel r))).nlv sl.nodes.length j = {}
      rw [L6 j hj, nlv_allocNode_self]
    · intro id hid
      show ((sl.allocNode K r).insertLoop (sl.descend K sl.maxLevel 0 0).1
          ((pathAt (sl.descend K sl.maxLevel 0 0).1 0).2) sl.nodes.length r
          (List.range (max sl.maxLevel r))).nlv id j = sl.nlv id j
      rw [L6 j hj, nlv_allocNode_ne sl K r j hid]

/-- The live nodes strictly below the insertion/deletion point of `K`. -/
def Pof (sl : SkipList) (base : List Nat) (K : IntervalKey) : List Nat :=
  base.takeWhile (fun id => less (sl.key id) K)

/-- The live nodes at or above the insertion/deletion point of `K`. -/
def Sof (sl : SkipList) (base : List Nat) (K : IntervalKey) : List Nat :=
  base.dropWhile (fun id => less (sl.key id) K)

theorem Pof_append_Sof (sl : SkipList) (base : List Nat) (K : IntervalKey) :
    Pof sl base K ++ Sof sl base K = base :=
  List.takeWhile_append_dropWhile _ _

theorem Pof_sublist (sl : SkipList) (base : List Nat) (K : IntervalKey) :
    List.Sublist (Pof sl base K) base :=
  List.takeWhile_sublist _

theorem Sof_sublist (sl : SkipList) (base : List Nat) (K : IntervalKey) :
    List.Sublist (Sof sl base K) base :=
  List.dropWhile_sublist _

theorem mem_Pof_less {sl : SkipList} {base : List Nat} {K : IntervalKey} {x : Nat}
    (hx : x ∈ Pof sl base K) : less (sl.key x) K = true := by
  have h3 := List.mem_takeWhile_imp hx
  simpa using h3

theorem head_Sof_not_less {sl : SkipList} {base : List Nat} {K : IntervalKey} {x : Nat}
    (hx : (Sof sl base K).head? = some x) : less (sl.key x) K = false := by
  have h3 := head_dropWhile_false (fun id => less (sl.key id) K) base hx
  simpa using h3

theorem InvW.Pof_filter {sl : SkipList} {base : List Nat} (h : sl.InvW base)
    (K : IntervalKey) :
    Pof sl base K = base.filter (fun id => less (sl.key id) K) :=
  takeWhile_eq_filter_of_sorted h.base_pairwise (fun a b hab hbk => less_trans hab hbk)

theorem InvW.lowPath_eq_Pof {sl : SkipList} {base : List Nat} (h : sl.InvW base)
    (K : IntervalKey) (i : Nat) :
    lowPath sl base K i
      = (Pof sl base K).filter (fun id => decide (i < sl.height id)) := by
  rw [h.lowPath_eq_filter K i, ← h.Pof_filter K]

theorem InvW.highPath_eq_Sof {sl : SkipList} {base : List Nat} (h : sl.InvW base)
    (K : IntervalKey) (i : Nat) :
    highPath sl base K i
      = (Sof sl base K).filter (fun id => decide (i < sl.height id)) := by
  have h1 : sl.rowOf base i = lowPath sl base K i ++ highPath sl base K i :=
    (List.takeWhile_append_dropWhile _ _).symm
  have h2 : sl.rowOf base i
      = (Pof sl base K).filter (fun id => decide (i < sl.height id))
        ++ (Sof sl base K).filter (fun id => decide (i < sl.height id)) := by
    unfold rowOf
    conv_lhs => rw [← Pof_append_Sof sl base K]
    exact List.filter_append _ _
  rw [h.lowPath_eq_Pof K i] at h1
  exact List.append_cancel_left (h1.symm.trans h2)

theorem InvW.lowPath_zero {sl : SkipList} {base : List Nat} (h : sl.InvW base)
    (K : IntervalKey) : lowPath sl base K 0 = Pof sl base K := by
  rw [h.lowPath_eq_Pof K 0]
  apply List.filter_eq_self.mpr
  intro x hx
  have hxb : x ∈ base := (Pof_sublist sl base K).subset hx
  simpa using h.height_pos x hxb

theorem InvW.posIn_predAt_zero {sl : SkipList} {base : List Nat} (h : sl.InvW base)
    (K : IntervalKey) :
    posIn base (predAt sl base K 0) = ((Pof sl base K).length : Int) := by
  unfold predAt
  rw [h.lowPath_zero K]
  by_cases hP : Pof sl base K = []
  · rw [hP]
    simp [lastD, posIn]
  · have hmem : lastD (Pof sl base K) 0 ∈ Pof sl base K := lastD_mem_of_ne_nil hP 0
    have hmemb : lastD (Pof sl base K) 0 ∈ base := (Pof_sublist sl base K).subset hmem
    have hne0 : lastD (Pof sl base K) 0 ≠ 0 := by
      have := h.base_mem _ hmemb
      omega
    unfold posIn
    rw [if_neg hne0]
    have hnodupP : (Pof sl base K).Nodup := h.base_nodup.sublist (Pof_sublist sl base K)
    have hidx : (Pof sl base K).indexOf (lastD (Pof sl base K) 0)
        = (Pof sl base K).length - 1 := indexOf_lastD hnodupP hP
    have hbase : base.indexOf (lastD (Pof sl base K) 0)
        = (Pof sl base K).indexOf (lastD (Pof sl base K) 0) := by
      have h4 : (Pof sl base K ++ Sof sl base K).indexOf (lastD (Pof sl base K) 0)
          = (Pof sl base K).indexOf (lastD (Pof sl base K) 0) :=
        List.indexOf_append_of_mem hmem
      rwa [Pof_append_Sof sl base K] at h4
    rw [hbase, hidx]
    have hlen : 0 < (Pof sl base K).length := List.length_pos.mpr hP
    omega

theorem mem_dropLast_ne_lastD {α : Type} :
    ∀ {l : List α} {d x : α}, (d :: l).Nodup → x ∈ (d :: l).dropLast → x ≠ lastD l d := by
  intro l
  induction l with
  | nil =>
    intro d x _ hx
    simp at hx
  | cons y ys ih =>
    intro d x hnd hx
    have hdl : (d :: y :: ys).dropLast = d :: (y :: ys).dropLast := rfl
    rw [hdl] at hx
    have hl : lastD (y :: ys) d = lastD ys y := rfl
    rw [hl]
    rcases List.mem_cons.mp hx with rfl | hx
    · intro hc
      have hmem : lastD ys y ∈ y :: ys := lastD_mem ys y
      rw [← hc] at hmem
      exact (List.nodup_cons.mp hnd).1 hmem
    · exact ih (List.nodup_cons.mp hnd).2 hx

theorem lowPath_sublist (sl : SkipList) (base : List Nat) (K : IntervalKey) (i : Nat) :
    List.Sublist (lowPath sl base K i) base :=
  (List.takeWhile_sublist _).trans (List.filter_sublist base)

theorem highPath_sublist (sl : SkipList) (base : List Nat) (K : IntervalKey) (i : Nat) :
    List.Sublist (highPath sl base K i) base :=
  (List.dropWhile_sublist _).trans (List.filter_sublist base)

/-- A non-update `Insert` preserves the structural invariant, with the new
node spliced into the base list at its sorted position. -/
theorem InvW.insert_inv {sl : SkipList} {base : List Nat} (h : sl.InvW base)
    {K : IntervalKey} {r : Nat} (hr1 : 1 ≤ r) (hr2 : r ≤ MaxLevel)
    (hno : ∀ id ∈ base, (sl.key id).equalInterval K = false) :
    (sl.Insert K r).1.InvW (Pof sl base K ++ sl.nodes.length :: Sof sl base K) := by
  obtain ⟨hres, hlen', hml', hlength', hkeyv, hkeyo, hhv, hho, hlow, hhigh⟩ :=
    h.insert_state hr2 hno
  have hv1 : 1 ≤ sl.nodes.length := h.head_lt
  have hbne : ∀ x ∈ base, x ≠ sl.nodes.length := by
    intro x hx
    have := h.base_mem x hx
    omega
  have hb0 : ∀ x ∈ base, x ≠ 0 := by
    intro x hx
    have := h.base_mem x hx
    omega
  have hmemPb : ∀ x ∈ Pof sl base K, x ∈ base :=
    fun x hx => (Pof_sublist sl base K).subset hx
  have hmemSb : ∀ x ∈ Sof sl base K, x ∈ base :=
    fun x hx => (Sof_sublist sl base K).subset hx
  have hnodupPS : (Pof sl base K ++ Sof sl base K).Nodup := by
    rw [Pof_append_Sof sl base K]
    exact h.base_nodup
  have hdisj : (Pof sl base K).Disjoint (Sof sl base K) :=
    List.disjoint_of_nodup_append hnodupPS
  have hkeyP : ∀ x ∈ base, (sl.Insert K r).1.key x = sl.key x :=
    fun x hx => hkeyo x (hbne x hx)
  have hhP : ∀ x ∈ base, (sl.Insert K r).1.height x = sl.height x :=
    fun x hx => hho x (hbne x hx)
  have hmx32 : max sl.maxLevel r ≤ MaxLevel := by
    have := h.ml_le
    omega
  have hrow' : ∀ i, (sl.Insert K r).1.rowOf
        (Pof sl base K ++ sl.nodes.length :: Sof sl base K) i
      = (Pof sl base K).filter (fun id => decide (i < sl.height id))
        ++ (if i < r then [sl.nodes.length] else [])
        ++ (Sof sl base K).filter (fun id => decide (i < sl.height id)) := by
    intro i
    unfold rowOf
    rw [List.filter_append]
    have hP : (Pof sl base K).filter (fun id => decide (i < (sl.Insert K r).1.height id))
        = (Pof sl base K).filter (fun id => decide (i < sl.height id)) := by
      apply List.filter_congr
      intro x hx
      rw [hhP x (hmemPb x hx)]
    have hS : (Sof sl base K).filter (fun id => decide (i < (sl.Insert K r).1.height id))
        = (Sof sl base K).filter (fun id => decide (i < sl.height id)) := by
      apply List.filter_congr
      intro x hx
      rw [hhP x (hmemSb x hx)]
    have hcons : (sl.nodes.length :: Sof sl base K).filter
          (fun id => decide (i < (sl.Insert K r).1.height id))
        = (if i < r then [sl.nodes.length] else [])
          ++ (Sof sl base K).filter (fun id => decide (i < (sl.Insert K r).1.height id)) := by
      rw [List.filter_cons]
      by_cases hir : i < r
      · rw [if_pos (by simp [hhv, hir]), if_pos hir]
        rfl
      · rw [if_neg (by simp [hhv, hir]), if_neg hir]
        rfl
    rw [hP, hcons, hS, List.append_assoc]
  refine ⟨?_, ?_, ?_, ?_, ?_, ?_, ?_, ?_, ?_, ?_, ?_, ?_⟩
  · -- head_lt
    omega
  · -- head_levels
    rw [hho 0 (by omega)]
    exact h.head_levels
  · -- head_key
    rw [hkeyo 0 (by omega)]
    exact h.head_key
  · -- base_mem
    intro id hid
    rw [hlen']
    rcases List.mem_append.mp hid with hid | hid
    · have := h.base_mem id (hmemPb id hid)
      omega
    · rcases List.mem_cons.mp hid with rfl | hid
      · omega
      · have := h.base_mem id (hmemSb id hid)
        omega
  · -- base_nodup
    rw [List.nodup_middle, List.nodup_cons]
    refine ⟨?_, hnodupPS⟩
    intro hc
    rw [Pof_append_Sof sl base K] at hc
    exact (hbne _ hc) rfl
  · -- sorted
    have hold : List.Chain' (fun a b => less (sl.key a) (sl.key b) = true)
        (Pof sl base K ++ Sof sl base K) := by
      rw [Pof_append_Sof sl base K]
      exact h.sorted
    obtain ⟨hcP, hcS, hbd⟩ := List.chain'_append.mp hold
    apply List.chain'_append.mpr
    refine ⟨?_, ?_, ?_⟩
    · refine chain'_congr_mem ?_ hcP
      intro a ha b hb hr
      rwa [hkeyP a (hmemPb a ha), hkeyP b (hmemPb b hb)]
    · apply List.chain'_cons'.mpr
      refine ⟨?_, ?_⟩
      · intro y hy
        have hyS : y ∈ Sof sl base K := List.mem_of_mem_head? hy
        rw [hkeyv, hkeyP y (hmemSb y hyS)]
        have hnl : less (sl.key y) K = false := head_Sof_not_less hy
        have hne : (sl.key y).equalInterval K = false := hno y (hmemSb y hyS)
        by_contra hc
        rw [Bool.not_eq_true] at hc
        have heq := equalInterval_of_not_less hnl hc
        rw [heq] at hne
        exact absurd hne (by simp)
      · refine chain'_congr_mem ?_ hcS
        intro a ha b hb hr
        rwa [hkeyP a (hmemSb a ha), hkeyP b (hmemSb b hb)]
    · intro x hx y hy
      have hxP : x ∈ Pof sl base K := mem_of_getLast?_eq hx
      have hy2 : y = sl.nodes.length := by
        simp only [List.head?_cons, Option.mem_def, Option.some.injEq] at hy
        exact hy.symm
      rw [hy2, hkeyv, hkeyP x (hmemPb x hxP)]
      exact mem_Pof_less hxP
  · -- height_pos
    intro id hid
    rcases List.mem_append.mp hid with hid | hid
    · rw [hhP id (hmemPb id hid)]
      exact h.height_pos id (hmemPb id hid)
    · rcases List.mem_cons.mp hid with rfl | hid
      · rw [hhv]
        omega
      · rw [hhP id (hmemSb id hid)]
        exact h.height_pos id (hmemSb id hid)
  · -- height_le
    intro id hid
    rw [hml']
    rcases List.mem_append.mp hid with hid | hid
    · rw [hhP id (hmemPb id hid)]
      have := h.height_le id (hmemPb id hid)
      omega
    · rcases List.mem_cons.mp hid with rfl | hid
      · rw [hhv]
        omega
      · rw [hhP id (hmemSb id hid)]
        have := h.height_le id (hmemSb id hid)
        omega
  · -- ml_le
    rw [hml']
    omega
  · -- chains
    have hunch : ∀ i, ∀ x, x ≠ sl.nodes.length → x ≠ predAt sl base K i →
        (sl.Insert K r).1.nlv x i = sl.nlv x i := by
      intro i x h1 h2
      by_cases hi : i < max sl.maxLevel r
      · exact ((hlow i hi).2.2) x h1 h2
      · exact (hhigh i (by omega)).2 x h1
    have hnext_pred : ∀ i, r ≤ i →
        ((sl.Insert K r).1.nlv (predAt sl base K i) i).next
          = (sl.nlv (predAt sl base K i) i).next := by
      intro i hri
      by_cases hi : i < max sl.maxLevel r
      · rw [(hlow i hi).2.1 hri]
      · have hne : predAt sl base K i ≠ sl.nodes.length := by
          have := h.predAt_lt K i
          omega
        rw [(hhigh i (by omega)).2 _ hne]
    intro i hi
    rw [hrow' i]
    have hPf : (Pof sl base K).filter (fun id => decide (i < sl.height id))
        = lowPath sl base K i := (h.lowPath_eq_Pof K i).symm
    have hSf : (Sof sl base K).filter (fun id => decide (i < sl.height id))
        = highPath sl base K i := (h.highPath_eq_Sof K i).symm
    have hrowsplit : sl.rowOf base i = lowPath sl base K i ++ highPath sl base K i :=
      (List.takeWhile_append_dropWhile _ _).symm
    have hc := h.chains i hi
    rw [hrowsplit] at hc
    have hlpnodup : (lowPath sl base K i).Nodup :=
      h.base_nodup.sublist (lowPath_sublist sl base K i)
    by_cases hir : i < r
    · rw [if_pos hir, hPf, hSf, List.append_assoc, List.singleton_append]
      obtain ⟨E1, E2⟩ := (hlow i (by omega)).1 hir
      apply isChain_append.mpr
      constructor
      · -- chain through the untouched prefix, then into the new node
        rcases List.eq_nil_or_concat (lowPath sl base K i) with hnil | ⟨q, w, hqw⟩
        · rw [hnil]
          have hpred0 : predAt sl base K i = 0 := by
            unfold predAt
            rw [hnil]
            rfl
          rw [hpred0] at E2
          show ((sl.Insert K r).1.nlv 0 i).next = some sl.nodes.length
          rw [E2]
        · rw [List.concat_eq_append] at hqw
          have hw : predAt sl base K i = w := by
            unfold predAt
            rw [hqw, lastD_append]
            rfl
          rw [hqw]
          have hc2 : sl.IsChain i 0 (q ++ w :: highPath sl base K i) := by
            rw [hqw, List.append_assoc, List.singleton_append] at hc
            exact hc
          obtain ⟨hq, _⟩ := isChain_append.mp hc2
          have hq' : (sl.Insert K r).1.ChainTo i 0 q w := by
            refine chainTo_congr_next ?_ hq
            intro x hx
            have hwq : w ∉ q := by
              rw [hqw] at hlpnodup
              have := List.disjoint_of_nodup_append hlpnodup
              intro hcc
              exact this hcc (by simp)
            rcases List.mem_cons.mp hx with rfl | hx
            · refine congrArg nodeLevel.next (hunch i 0 (by omega) ?_)
              rw [hw]
              intro hcc
              have : w ∈ base := (lowPath_sublist sl base K i).subset (by rw [hqw]; simp)
              exact (hb0 w this) hcc.symm
            · refine congrArg nodeLevel.next (hunch i x ?_ ?_)
              · have : x ∈ base := (lowPath_sublist sl base K i).subset (by rw [hqw]; simp [hx])
                exact hbne x this
              · rw [hw]
                intro hcc
                exact hwq (hcc ▸ hx)
          apply chainTo_append.mpr
          refine ⟨hq', ?_⟩
          show ((sl.Insert K r).1.nlv w i).next = some sl.nodes.length
          rw [← hw, E2]
      · -- the new node continues into the untouched suffix
        have hnextv : ((sl.Insert K r).1.nlv sl.nodes.length i).next
            = (highPath sl base K i).head? := by
          rw [E1]
          exact h.next_predAt K hi
        cases hhp : highPath sl base K i with
        | nil =>
          show ((sl.Insert K r).1.nlv sl.nodes.length i).next = none
          rw [hnextv, hhp]
          rfl
        | cons sigma rest =>
          refine ⟨by rw [hnextv, hhp]; rfl, ?_⟩
          have hcs : sl.IsChain i sigma rest := by
            rw [hhp] at hc
            exact (isChain_append.mp hc).2
          refine isChain_congr_next ?_ hcs
          intro x hx
          have hxh : x ∈ highPath sl base K i := by
            rw [hhp]
            exact hx
          have hxS : x ∈ Sof sl base K := by
            rw [h.highPath_eq_Sof K i] at hxh
            exact List.mem_of_mem_filter hxh
          have hxb : x ∈ base := hmemSb x hxS
          refine congrArg nodeLevel.next (hunch i x (hbne x hxb) ?_)
          intro hcc
          rcases List.mem_cons.mp (h.predAt_mem K i) with hp0 | hpl
          · rw [← hcc] at hp0
            exact (hb0 x hxb) hp0
          · rw [← hcc] at hpl
            have hxP : x ∈ Pof sl base K := by
              have := h.lowPath_eq_Pof K i
              rw [this] at hpl
              exact List.mem_of_mem_filter hpl
            exact hdisj hxP hxS
    · rw [if_neg hir, hPf, hSf]
      have hshape : lowPath sl base K i ++ [] ++ highPath sl base K i
          = lowPath sl base K i ++ highPath sl base K i := by simp
      rw [hshape]
      refine isChain_congr_next ?_ hc
      intro x hx
      by_cases hxp : x = predAt sl base K i
      · rw [hxp]
        exact hnext_pred i (by omega)
      · refine congrArg nodeLevel.next (hunch i x ?_ hxp)
        rcases List.mem_cons.mp hx with rfl | hx
        · omega
        · have hxb : x ∈ base := by
            rcases List.mem_append.mp hx with hx | hx
            · exact (lowPath_sublist sl base K i).subset hx
            · exact (highPath_sublist sl base K i).subset hx
          exact hbne x hxb
  · -- spans
    have hunch : ∀ i, ∀ x, x ≠ sl.nodes.length → x ≠ predAt sl base K i →
        (sl.Insert K r).1.nlv x i = sl.nlv x i := by
      intro i x h1 h2
      by_cases hi : i < max sl.maxLevel r
      · exact ((hlow i hi).2.2) x h1 h2
      · exact (hhigh i (by omega)).2 x h1
    have hvnotP : sl.nodes.length ∉ Pof sl base K := by
      intro hc
      exact (hbne _ (hmemPb _ hc)) rfl
    have hposP : ∀ i, ∀ x ∈ (0 : Nat) :: lowPath sl base K i,
        posIn (Pof sl base K ++ sl.nodes.length :: Sof sl base K) x = posIn base x := by
      intro i x hx
      rcases List.mem_cons.mp hx with rfl | hx
      · rfl
      · have hxP : x ∈ Pof sl base K := by
          rw [h.lowPath_eq_Pof K i] at hx
          exact List.mem_of_mem_filter hx
        have hx0 : x ≠ 0 := hb0 x (hmemPb x hxP)
        rw [posIn_insert_left hxP hx0]
        rw [Pof_append_Sof sl base K]
    have hposS : ∀ i, ∀ x ∈ highPath sl base K i,
        posIn (Pof sl base K ++ sl.nodes.length :: Sof sl base K) x = posIn base x + 1 := by
      intro i x hx
      have hxS : x ∈ Sof sl base K := by
        rw [h.highPath_eq_Sof K i] at hx
        exact List.mem_of_mem_filter hx
      have hxb : x ∈ base := hmemSb x hxS
      rw [posIn_insert_right (fun hc => hdisj hc hxS) (hbne x hxb) (hb0 x hxb)]
      rw [Pof_append_Sof sl base K]
    have hposv : posIn (Pof sl base K ++ sl.nodes.length :: Sof sl base K) sl.nodes.length
        = ((Pof sl base K).length : Int) + 1 :=
      posIn_insert_self hvnotP (by omega)
    have hpos0v : posIn base (predAt sl base K 0) = ((Pof sl base K).length : Int) :=
      h.posIn_predAt_zero K
    have hSne : ∀ i, ∀ x ∈ highPath sl base K i, x ≠ predAt sl base K i := by
      intro i x hx
      have hxS : x ∈ Sof sl base K := by
        rw [h.highPath_eq_Sof K i] at hx
        exact List.mem_of_mem_filter hx
      intro hc
      rcases List.mem_cons.mp (h.predAt_mem K i) with hp0 | hpl
      · rw [← hc] at hp0
        exact (hb0 x (hmemSb x hxS)) hp0
      · rw [← hc] at hpl
        have hxP : x ∈ Pof sl base K := by
          rw [h.lowPath_eq_Pof K i] at hpl
          exact List.mem_of_mem_filter hpl
        exact hdisj hxP hxS
    intro i hi
    unfold SpansOk
    rw [hrow' i]
    have hPf : (Pof sl base K).filter (fun id => decide (i < sl.height id))
        = lowPath sl base K i := (h.lowPath_eq_Pof K i).symm
    have hSf : (Sof sl base K).filter (fun id => decide (i < sl.height id))
        = highPath sl base K i := (h.highPath_eq_Sof K i).symm
    have hrowsplit : sl.rowOf base i = lowPath sl base K i ++ highPath sl base K i :=
      (List.takeWhile_append_dropWhile _ _).symm
    have hsp := h.spans i hi
    unfold SpansOk at hsp
    rw [hrowsplit] at hsp
    have hsp2 : List.Chain' (sl.spanOk base i)
        ((0 :: lowPath sl base K i) ++ highPath sl base K i) := hsp
    obtain ⟨hA, hB, hAB⟩ := List.chain'_append.mp hsp2
    have hnodup0l : ((0 : Nat) :: lowPath sl base K i).Nodup := by
      refine List.nodup_cons.mpr ⟨?_, h.base_nodup.sublist (lowPath_sublist sl base K i)⟩
      intro hc
      exact (hb0 0 ((lowPath_sublist sl base K i).subset hc)) rfl
    have hlastlow : ((0 : Nat) :: lowPath sl base K i).getLast? = some (predAt sl base K i) :=
      lastD_eq_getLast? _ _
    have hdropP : ∀ a ∈ ((0 : Nat) :: lowPath sl base K i).dropLast,
        ((sl.Insert K r).1.nlv a i).span = (sl.nlv a i).span := by
      intro a ha
      have hane : a ≠ predAt sl base K i := mem_dropLast_ne_lastD hnodup0l ha
      have hamem : a ∈ (0 : Nat) :: lowPath sl base K i := by
        have := List.dropLast_sublist ((0 : Nat) :: lowPath sl base K i)
        exact this.subset ha
      have hanu : a ≠ sl.nodes.length := by
        rcases List.mem_cons.mp hamem with rfl | hal
        · omega
        · exact hbne a ((lowPath_sublist sl base K i).subset hal)
      rw [hunch i a hanu hane]
    have hdropS : ∀ a ∈ (highPath sl base K i).dropLast,
        ((sl.Insert K r).1.nlv a i).span = (sl.nlv a i).span := by
      intro a ha
      have hamem : a ∈ highPath sl base K i :=
        (List.dropLast_sublist _).subset ha
      have hab : a ∈ base := (highPath_sublist sl base K i).subset hamem
      rw [hunch i a (hbne a hab) (hSne i a hamem)]
    have hCP : List.Chain' ((sl.Insert K r).1.spanOk
        (Pof sl base K ++ sl.nodes.length :: Sof sl base K) i)
        ((0 : Nat) :: lowPath sl base K i) :=
      chain'_spanOk_shift (c := 0) hdropP (fun a ha => by rw [hposP i a ha]; ring) hA
    have hCS : List.Chain' ((sl.Insert K r).1.spanOk
        (Pof sl base K ++ sl.nodes.length :: Sof sl base K) i)
        (highPath sl base K i) :=
      chain'_spanOk_shift hdropS (fun a ha => hposS i a ha) hB
    have hhtop : sl.maxLevel ≤ i → highPath sl base K i = [] := by
      intro hml
      unfold highPath
      rw [h.rowOf_nil_of_top hml]
      rfl
    by_cases hir : i < r
    · obtain ⟨E1, E2⟩ := (hlow i (by omega)).1 hir
      rw [if_pos hir, hPf, hSf]
      have hshape : (0 : Nat) :: (lowPath sl base K i ++ [sl.nodes.length]
            ++ highPath sl base K i)
          = ((0 : Nat) :: lowPath sl base K i)
            ++ sl.nodes.length :: highPath sl base K i := by
        simp
      rw [hshape]
      apply List.chain'_append.mpr
      refine ⟨hCP, ?_, ?_⟩
      · apply List.chain'_cons'.mpr
        refine ⟨?_, hCS⟩
        intro y hy
        rcases Nat.lt_or_ge i sl.maxLevel with hml | hml
        · have hy2 : (highPath sl base K i).head? = some y := hy
          have hbound := hAB (predAt sl base K i) hlastlow y hy2
          unfold spanOk at hbound ⊢
          rw [E1, if_neg (by omega), hposS i y (List.mem_of_mem_head? hy2), hposv, hpos0v]
          simp only []
          omega
        · rw [hhtop hml] at hy
          simp at hy
      · intro x hx y hy
        have hx2 : x = predAt sl base K i := by
          rw [hlastlow] at hx
          have := hx
          simp only [Option.mem_def, Option.some.injEq] at this
          exact this.symm
        have hy2 : y = sl.nodes.length := by
          have := hy
          simp only [List.head?_cons, Option.mem_def, Option.some.injEq] at this
          exact this.symm
        rw [hx2, hy2]
        unfold spanOk
        rw [E2, hposv, hpos0v, hposP i _ (h.predAt_mem K i)]
        simp only []
        omega
    · rw [if_neg hir, hPf, hSf]
      have hshape : (0 : Nat) :: (lowPath sl base K i ++ [] ++ highPath sl base K i)
          = ((0 : Nat) :: lowPath sl base K i) ++ highPath sl base K i := by
        simp
      rw [hshape]
      apply List.chain'_append.mpr
      refine ⟨hCP, hCS, ?_⟩
      intro x hx y hy
      have hx2 : x = predAt sl base K i := by
        rw [hlastlow] at hx
        have := hx
        simp only [Option.mem_def, Option.some.injEq] at this
        exact this.symm
      rcases Nat.lt_or_ge i sl.maxLevel with hml | hml
      · have hy2 : (highPath sl base K i).head? = some y := hy
        have hbound := hAB x hx y hy2
        have hE := (hlow i (by omega)).2.1 (by omega)
        rw [hx2] at hbound ⊢
        unfold spanOk at hbound ⊢
        rw [hE, hposS i y (List.mem_of_mem_head? hy2), hposP i _ (h.predAt_mem K i)]
        simp only []
        omega
      · rw [hhtop hml] at hy
        simp at hy
  · -- length_eq
    have hlenPS : (Pof sl base K).length + (Sof sl base K).length = base.length := by
      have := congrArg List.length (Pof_append_Sof sl base K)
      simpa using this
    rw [hlength', h.length_eq]
    simp
    omega

/-- A stored node whose interval equals `K` is exactly the head of `Sof`. -/
theorem InvW.head_Sof_match {sl : SkipList} {base : List Nat} (h : sl.InvW base)
    {K : IntervalKey} {m : Nat} (hm : m ∈ base)
    (heq : (sl.key m).equalInterval K = true) :
    (Sof sl base K).head? = some m := by
  have hmP : m ∉ Pof sl base K := by
    intro hc
    have h1 := mem_Pof_less hc
    rw [less_of_equalInterval_left heq, less_irrefl] at h1
    cases h1
  have hmS : m ∈ Sof sl base K := by
    have hPS := Pof_append_Sof sl base K
    rw [← hPS] at hm
    rcases List.mem_append.mp hm with h1 | h1
    · exact absurd h1 hmP
    · exact h1
  cases hS : Sof sl base K with
  | nil => rw [hS] at hmS; cases hmS
  | cons sigma rest =>
    by_cases hsm : sigma = m
    · rw [hsm]
      rfl
    · exfalso
      have hpairS : (Sof sl base K).Pairwise
          (fun a b => less (sl.key a) (sl.key b) = true) :=
        h.base_pairwise.sublist (Sof_sublist sl base K)
      rw [hS] at hpairS
      have hmrest : m ∈ rest := by
        rw [hS] at hmS
        rcases List.mem_cons.mp hmS with h1 | h1
        · exact absurd h1.symm hsm
        · exact h1
      have hless : less (sl.key sigma) (sl.key m) = true :=
        (List.pairwise_cons.mp hpairS).1 m hmrest
      rw [less_of_equalInterval_right heq] at hless
      have hF := head_Sof_not_less (x := sigma) (by rw [hS]; rfl)
      rw [hless] at hF
      cases hF

/-- Inserting a key whose interval matches node `m` only rewrites `m`'s key. -/
theorem InvW.insert_update {sl : SkipList} {base : List Nat} (h : sl.InvW base)
    {K : IntervalKey} {m : Nat} (hm : m ∈ base)
    (heq : (sl.key m).equalInterval K = true) (r : Nat) :
    sl.Insert K r
      = ({ sl with nodes := sl.nodes.set m { sl.node m with intervalKey := K } },
         some (sl.key m)) := by
  obtain ⟨hpath, hfin⟩ := h.insert_path K
  have hnext : (sl.nlv (sl.descend K sl.maxLevel 0 0).2 0).next
      = (highPath sl base K 0).head? := by
    rw [hfin]
    exact h.next_predAt K (by decide)
  have hhigh : highPath sl base K 0 = Sof sl base K := by
    rw [h.highPath_eq_Sof K 0]
    apply List.filter_eq_self.mpr
    intro x hx
    have hxb : x ∈ base := (Sof_sublist sl base K).subset hx
    simpa using h.height_pos x hxb
  have hhead : (highPath sl base K 0).head? = some m := by
    rw [hhigh]
    exact h.head_Sof_match hm heq
  show (match (sl.nlv (sl.descend K sl.maxLevel 0 0).2 0).next with
    | some m2 =>
      if (sl.key m2).equalInterval K then
        ({ sl with nodes := sl.nodes.set m2 { sl.node m2 with intervalKey := K } },
          some (sl.key m2))
      else sl.insertNewNode K r (sl.descend K sl.maxLevel 0 0).1
    | none => sl.insertNewNode K r (sl.descend K sl.maxLevel 0 0).1) = _
  rw [hnext, hhead]
  simp [heq]

/-- The in-place key update of a matching `Insert` preserves the invariant
with the same base list. -/
theorem InvW.insert_update_inv {sl : SkipList} {base : List Nat} (h : sl.InvW base)
    {K : IntervalKey} {m : Nat} (hm : m ∈ base)
    (heq : (sl.key m).equalInterval K = true) (r : Nat) :
    (sl.Insert K r).1.InvW base := by
  rw [h.insert_update hm heq r]
  have hmlt : m < sl.nodes.length := (h.base_mem m hm).2
  have hm0 : 0 < m := (h.base_mem m hm).1
  set U : SkipList :=
    { sl with nodes := sl.nodes.set m { sl.node m with intervalKey := K } } with hU
  have hUlen : U.nodes.length = sl.nodes.length := by simp [hU]
  have hnode_ne : ∀ x, x ≠ m → U.node x = sl.node x := by
    intro x hx
    show (sl.nodes.set m _).getD x {} = sl.nodes.getD x {}
    exact getD_set_ne _ _ _ hx
  have hnode_self : U.node m = { sl.node m with intervalKey := K } := by
    show (sl.nodes.set m _).getD m {} = _
    exact getD_set_self _ _ _ hmlt
  have hheight : ∀ x, U.height x = sl.height x := by
    intro x
    by_cases hx : x = m
    · subst hx
      show (U.node x).levels.length = (sl.node x).levels.length
      rw [hnode_self]
    · show (U.node x).levels.length = (sl.node x).levels.length
      rw [hnode_ne x hx]
  have hnlv : ∀ x i, U.nlv x i = sl.nlv x i := by
    intro x i
    by_cases hx : x = m
    · subst hx
      show (U.node x).levels.getD i {} = (sl.node x).levels.getD i {}
      rw [hnode_self]
    · show (U.node x).levels.getD i {} = (sl.node x).levels.getD i {}
      rw [hnode_ne x hx]
  have hkey_ne : ∀ x, x ≠ m → U.key x = sl.key x := by
    intro x hx
    show (U.node x).intervalKey = (sl.node x).intervalKey
    rw [hnode_ne x hx]
  have hkey_self : U.key m = K := by
    show (U.node m).intervalKey = K
    rw [hnode_self]
  have heqK : K.equalInterval (sl.key m) = true := by
    rw [equalInterval_symm]
    exact heq
  have hkeyless : ∀ x y, less (U.key x) (U.key y) = less (sl.key x) (sl.key y) := by
    intro x y
    by_cases hx : x = m
    · by_cases hy : y = m
      · rw [hx, hy, hkey_self, less_of_equalInterval_left heqK,
          less_of_equalInterval_right heqK]
      · rw [hx, hkey_self, hkey_ne y hy, less_of_equalInterval_left heqK]
    · by_cases hy : y = m
      · rw [hy, hkey_self, hkey_ne x hx, less_of_equalInterval_right heqK]
      · rw [hkey_ne x hx, hkey_ne y hy]
  have hrowOf : ∀ i, U.rowOf base i = sl.rowOf base i := by
    intro i
    unfold rowOf
    exact List.filter_congr (fun x _ => by rw [hheight x])
  refine ⟨?_, ?_, ?_, ?_, h.base_nodup, ?_, ?_, ?_, ?_, ?_, ?_, ?_⟩
  · rw [hUlen]
    exact h.head_lt
  · rw [hheight 0]
    exact h.head_levels
  · rw [hkey_ne 0 (by omega)]
    exact h.head_key
  · intro id hid
    rw [hUlen]
    exact h.base_mem id hid
  · exact chain'_congr_mem (fun a _ b _ hab => by rw [hkeyless a b]; exact hab) h.sorted
  · intro id hid
    rw [hheight id]
    exact h.height_pos id hid
  · intro id hid
    rw [hheight id]
    exact h.height_le id hid
  · exact h.ml_le
  · intro i hi
    rw [hrowOf i]
    exact isChain_congr_next (fun x _ => by rw [hnlv x i]) (h.chains i hi)
  · intro i hi
    unfold SpansOk
    rw [hrowOf i]
    exact chain'_spanOk_shift (c := 0)
      (fun a _ => by rw [hnlv a i]) (fun a _ => by ring) (h.spans i hi)
  · exact h.length_eq

/-! ## The delete loop -/

/-- The head's level-`i` forward pointer as it stands right after `Delete`
unlinks the target at level `i` (read by the `maxLevel`-shrink test). -/
def delNextAfter (sl : SkipList) (path : List (Nat × Int)) (tau i : Nat) : Option Nat :=
  if (pathAt path i).1 = 0 then (sl.nlv tau i).next else (sl.nlv 0 i).next

theorem key_withMaxLevel (sl : SkipList) (m : Nat) (id : Nat) :
    ({ sl with maxLevel := m } : SkipList).key id = sl.key id := rfl

theorem height_withMaxLevel (sl : SkipList) (m : Nat) (id : Nat) :
    ({ sl with maxLevel := m } : SkipList).height id = sl.height id := rfl

theorem nlv_withMaxLevel (sl : SkipList) (m : Nat) (id j : Nat) :
    ({ sl with maxLevel := m } : SkipList).nlv id j = sl.nlv id j := rfl

theorem nodes_withMaxLevel (sl : SkipList) (m : Nat) :
    ({ sl with maxLevel := m } : SkipList).nodes = sl.nodes := rfl

theorem length_withMaxLevel (sl : SkipList) (m : Nat) :
    ({ sl with maxLevel := m } : SkipList).length = sl.length := rfl

/-- Effect of one iteration of `Delete`'s unlink loop. -/
theorem deleteStep_spec {S sl : SkipList} {path : List (Nat × Int)} {tau m : Nat}
    (hSlen : S.nodes.length = sl.nodes.length)
    (hSheight : ∀ id, S.height id = sl.height id)
    (hSm : ∀ id, S.nlv id m = sl.nlv id m)
    (hSlength : S.length = sl.length)
    (hpne : (pathAt path m).1 ≠ tau)
    (hplt : (pathAt path m).1 < sl.nodes.length)
    (hph : m < sl.height (pathAt path m).1)
    (hcondm : m < sl.height tau → (sl.nlv (pathAt path m).1 m).next = some tau) :
    (S.deleteStep path tau m).nodes.length = sl.nodes.length ∧
    (S.deleteStep path tau m).length = sl.length ∧
    (∀ id, (S.deleteStep path tau m).key id = S.key id) ∧
    (∀ id, (S.deleteStep path tau m).height id = S.height id) ∧
    (∀ j, j ≠ m → ∀ id, (S.deleteStep path tau m).nlv id j = S.nlv id j) ∧
    (m < sl.height tau →
      (S.deleteStep path tau m).nlv (pathAt path m).1 m
        = { next := (sl.nlv tau m).next,
            span := (sl.nlv (pathAt path m).1 m).span + (sl.nlv tau m).span - 1 } ∧
      (S.deleteStep path tau m).maxLevel
        = (if m < S.maxLevel ∧ 1 < S.maxLevel ∧ delNextAfter sl path tau m = none then m
           else S.maxLevel)) ∧
    (sl.height tau ≤ m →
      (S.deleteStep path tau m).nlv (pathAt path m).1 m
        = { next := (sl.nlv (pathAt path m).1 m).next,
            span := (sl.nlv (pathAt path m).1 m).span - 1 } ∧
      (S.deleteStep path tau m).maxLevel = S.maxLevel) ∧
    (∀ id, id ≠ (pathAt path m).1 →
      (S.deleteStep path tau m).nlv id m = sl.nlv id m) := by
  have hSplt : (pathAt path m).1 < S.nodes.length := by omega
  have hSph : m < S.height (pathAt path m).1 := by rw [hSheight]; exact hph
  have hstep : S.deleteStep path tau m
      = (if m < S.height tau ∧ (S.nlv (pathAt path m).1 m).next = some tau then
          (if m < (S.deleteUnlink (pathAt path m).1 tau m).maxLevel ∧
              1 < (S.deleteUnlink (pathAt path m).1 tau m).maxLevel ∧
              ((S.deleteUnlink (pathAt path m).1 tau m).nlv 0 m).next = none then
            { S.deleteUnlink (pathAt path m).1 tau m with maxLevel := m }
          else S.deleteUnlink (pathAt path m).1 tau m)
        else S.setSpan (pathAt path m).1 m ((S.nlv (pathAt path m).1 m).span - 1)) := rfl
  rcases Nat.lt_or_ge m (sl.height tau) with hcase | hcase
  · -- the target occupies level m: unlink it
    have hScond : m < S.height tau ∧ (S.nlv (pathAt path m).1 m).next = some tau := by
      refine ⟨by rw [hSheight]; exact hcase, ?_⟩
      rw [hSm]
      exact hcondm hcase
    rw [if_pos hScond] at hstep
    have hU := @nlv_deleteUnlink_pi S (pathAt path m).1 tau m
      hpne hSplt hSph
    rw [hSm, hSm] at hU
    have hU0 : ((S.deleteUnlink (pathAt path m).1 tau m).nlv 0 m).next
        = delNextAfter sl path tau m := by
      unfold delNextAfter
      by_cases hp0 : (pathAt path m).1 = 0
      · rw [if_pos hp0, ← hp0, hU]
      · rw [if_neg hp0,
          nlv_deleteUnlink_other S (Or.inl (fun hc => hp0 hc.symm)), hSm]
    have hUoth : ∀ id, id ≠ (pathAt path m).1 →
        (S.deleteUnlink (pathAt path m).1 tau m).nlv id m = sl.nlv id m := by
      intro id hid
      rw [nlv_deleteUnlink_other S (Or.inl hid), hSm]
    have hUlev : ∀ j, j ≠ m → ∀ id,
        (S.deleteUnlink (pathAt path m).1 tau m).nlv id j = S.nlv id j := by
      intro j hj id
      exact nlv_deleteUnlink_other S (Or.inr hj)
    by_cases hsh : m < S.maxLevel ∧ 1 < S.maxLevel ∧ delNextAfter sl path tau m = none
    · have hsh2 : m < (S.deleteUnlink (pathAt path m).1 tau m).maxLevel ∧
          1 < (S.deleteUnlink (pathAt path m).1 tau m).maxLevel ∧
          ((S.deleteUnlink (pathAt path m).1 tau m).nlv 0 m).next = none := by
        rw [maxLevel_deleteUnlink, hU0]
        exact hsh
      rw [if_pos hsh2] at hstep
      rw [hstep]
      refine ⟨by rw [nodes_withMaxLevel, nodes_length_deleteUnlink, hSlen],
        by rw [length_withMaxLevel, length_deleteUnlink, hSlength],
        fun id => by rw [key_withMaxLevel, key_deleteUnlink],
        fun id => by rw [height_withMaxLevel, height_deleteUnlink],
        fun j hj id => by rw [nlv_withMaxLevel]; exact hUlev j hj id, ?_, ?_, ?_⟩
      · intro _
        exact ⟨by rw [nlv_withMaxLevel]; exact hU, by rw [if_pos hsh]⟩
      · intro hc; omega
      · intro id hid
        rw [nlv_withMaxLevel]; exact hUoth id hid
    · have hsh2 : ¬ (m < (S.deleteUnlink (pathAt path m).1 tau m).maxLevel ∧
          1 < (S.deleteUnlink (pathAt path m).1 tau m).maxLevel ∧
          ((S.deleteUnlink (pathAt path m).1 tau m).nlv 0 m).next = none) := by
        rw [maxLevel_deleteUnlink, hU0]
        exact hsh
      rw [if_neg hsh2] at hstep
      rw [hstep]
      refine ⟨by rw [nodes_length_deleteUnlink, hSlen],
        by rw [length_deleteUnlink, hSlength],
        fun id => key_deleteUnlink S _ _ _ id,
        fun id => height_deleteUnlink S _ _ _ id,
        fun j hj id => hUlev j hj id, ?_, ?_, ?_⟩
      · intro _
        exact ⟨hU, by rw [maxLevel_deleteUnlink, if_neg hsh]⟩
      · intro hc; omega
      · intro id hid
        exact hUoth id hid
  · -- the target is below level m: only decrement the predecessor's span
    have hScond : ¬ (m < S.height tau ∧ (S.nlv (pathAt path m).1 m).next = some tau) := by
      rw [hSheight]
      intro hc
      omega
    rw [if_neg hScond] at hstep
    rw [hstep]
    refine ⟨by rw [length_setSpan, hSlen],
      by rw [length_field_setSpan, hSlength],
      fun id => key_setSpan S _ _ _ id,
      fun id => height_setSpan S _ _ _ id,
      fun j hj id => nlv_setSpan_ne S _ (Or.inr hj), ?_, ?_, ?_⟩
    · intro hc; omega
    · intro _
      refine ⟨?_, by simp⟩
      rw [nlv_setSpan_self S _ hSplt hSph, hSm]
    · intro id hid
      rw [nlv_setSpan_ne S _ (Or.inl hid), hSm]

/-- Full characterisation of `Delete`'s unlink loop over the first `m` levels.
`eOpt` schedules the (at most one) `maxLevel` shrink: `some e` means level `e`
is the first level whose head pointer becomes `nil` after the unlink. -/
theorem deleteLoop_spec {sl : SkipList} {path : List (Nat × Int)} {tau ml0 : Nat}
    (hml : sl.maxLevel = ml0)
    (htau : tau < sl.nodes.length)
    (hp : ∀ j, j < ml0 → (pathAt path j).1 ≠ tau ∧ (pathAt path j).1 < sl.nodes.length ∧
      j < sl.height (pathAt path j).1)
    (hcond : ∀ j, j < sl.height tau → j < ml0 →
      (sl.nlv (pathAt path j).1 j).next = some tau)
    (eOpt : Option Nat)
    (hsched : Option.elim eOpt
      (∀ i, i < ml0 → i < sl.height tau →
        ¬ (1 < ml0 ∧ sl.delNextAfter path tau i = none))
      (fun e => e < ml0 ∧ e < sl.height tau ∧ 1 < ml0 ∧
        sl.delNextAfter path tau e = none ∧
        ∀ i, i < e → sl.delNextAfter path tau i ≠ none)) :
    ∀ m, m ≤ ml0 →
      (sl.deleteLoop path tau (List.range m)).nodes.length = sl.nodes.length ∧
      (sl.deleteLoop path tau (List.range m)).maxLevel
        = Option.elim eOpt ml0 (fun e => if e < m then e else ml0) ∧
      (sl.deleteLoop path tau (List.range m)).length = sl.length ∧
      (∀ id, (sl.deleteLoop path tau (List.range m)).key id = sl.key id) ∧
      (∀ id, (sl.deleteLoop path tau (List.range m)).height id = sl.height id) ∧
      (∀ j, m ≤ j → ∀ id,
        (sl.deleteLoop path tau (List.range m)).nlv id j = sl.nlv id j) ∧
      (∀ j, j < m →
        (j < sl.height tau →
          (sl.deleteLoop path tau (List.range m)).nlv (pathAt path j).1 j
            = { next := (sl.nlv tau j).next,
                span := (sl.nlv (pathAt path j).1 j).span + (sl.nlv tau j).span - 1 }) ∧
        (sl.height tau ≤ j →
          (sl.deleteLoop path tau (List.range m)).nlv (pathAt path j).1 j
            = { next := (sl.nlv (pathAt path j).1 j).next,
                span := (sl.nlv (pathAt path j).1 j).span - 1 }) ∧
        (∀ id, id ≠ (pathAt path j).1 →
          (sl.deleteLoop path tau (List.range m)).nlv id j = sl.nlv id j)) := by
  intro m
  induction m with
  | zero =>
    intro _
    refine ⟨rfl, ?_, rfl, fun _ => rfl, fun _ => rfl, fun _ _ _ => rfl, by omega⟩
    cases eOpt with
    | none => simpa [Option.elim] using hml
    | some e => simpa [Option.elim] using hml
  | succ m ih =>
    intro hm
    obtain ⟨ihlen, ihml, ihlength, ihkey, ihheight, ihhigh, ihdone⟩ := ih (by omega)
    have hsplit : sl.deleteLoop path tau (List.range (m + 1))
        = (sl.deleteLoop path tau (List.range m)).deleteStep path tau m := by
      rw [List.range_succ, deleteLoop_append]
      rfl
    have hstep := @deleteStep_spec (sl.deleteLoop path tau (List.range m)) sl path tau m
      ihlen ihheight (fun id => ihhigh m (by omega) id) ihlength
      (hp m (by omega)).1 (hp m (by omega)).2.1 (hp m (by omega)).2.2
      (fun hh => hcond m hh (by omega))
    obtain ⟨s1, s2, s3, s4, s5, s6, s7, s8⟩ := hstep
    rw [hsplit]
    refine ⟨s1, ?_, s2, ?_, ?_, ?_, ?_⟩
    · -- maxLevel evolution
      rcases Nat.lt_or_ge m (sl.height tau) with hcase | hcase
      · have hmlstep := (s6 hcase).2
        cases eOpt with
        | none =>
          simp only [Option.elim] at ihml hsched ⊢
          have hno : ¬ (m < (sl.deleteLoop path tau (List.range m)).maxLevel ∧
              1 < (sl.deleteLoop path tau (List.range m)).maxLevel ∧
              sl.delNextAfter path tau m = none) := by
            rw [ihml]
            intro hc
            exact hsched m (by omega) hcase ⟨hc.2.1, hc.2.2⟩
          rw [hmlstep, if_neg hno, ihml]
        | some e =>
          obtain ⟨he1, he2, he3, he4, he5⟩ := hsched
          simp only [Option.elim] at ihml ⊢
          rcases Nat.lt_trichotomy m e with hme | hme | hme
          · have hcur : (sl.deleteLoop path tau (List.range m)).maxLevel = ml0 := by
              rw [ihml, if_neg (by omega)]
            have hno : ¬ (m < (sl.deleteLoop path tau (List.range m)).maxLevel ∧
                1 < (sl.deleteLoop path tau (List.range m)).maxLevel ∧
                sl.delNextAfter path tau m = none) := by
              intro hc
              exact he5 m hme hc.2.2
            rw [hmlstep, if_neg hno, hcur, if_neg (by omega)]
          · subst hme
            have hcur : (sl.deleteLoop path tau (List.range m)).maxLevel = ml0 := by
              rw [ihml, if_neg (by omega)]
            have hyes : m < (sl.deleteLoop path tau (List.range m)).maxLevel ∧
                1 < (sl.deleteLoop path tau (List.range m)).maxLevel ∧
                sl.delNextAfter path tau m = none := by
              rw [hcur]
              exact ⟨he1, he3, he4⟩
            rw [hmlstep, if_pos hyes, if_pos (by omega)]
          · have hcur : (sl.deleteLoop path tau (List.range m)).maxLevel = e := by
              rw [ihml, if_pos hme]
            have hno : ¬ (m < (sl.deleteLoop path tau (List.range m)).maxLevel ∧
                1 < (sl.deleteLoop path tau (List.range m)).maxLevel ∧
                sl.delNextAfter path tau m = none) := by
              rw [hcur]
              intro hc
              omega
            rw [hmlstep, if_neg hno, hcur, if_pos (by omega)]
      · have hmlstep := (s7 hcase).2
        cases eOpt with
        | none =>
          simp only [Option.elim] at ihml ⊢
          rw [hmlstep, ihml]
        | some e =>
          obtain ⟨he1, he2, he3, he4, he5⟩ := hsched
          simp only [Option.elim] at ihml ⊢
          rw [hmlstep, ihml]
          by_cases hcem : e < m
          · rw [if_pos hcem, if_pos (by omega)]
          · rw [if_neg hcem, if_neg (by omega)]
    · intro id; rw [s3 id, ihkey id]
    · intro id; rw [s4 id, ihheight id]
    · intro j hj id
      rw [s5 j (by omega) id, ihhigh j (by omega) id]
    · intro j hj
      by_cases hjm : j = m
      · subst hjm
        exact ⟨fun hh => (s6 hh).1, fun hh => (s7 hh).1, s8⟩
      · have hjm2 : j < m := by omega
        obtain ⟨d1, d2, d3⟩ := ihdone j hjm2
        refine ⟨?_, ?_, ?_⟩
        · intro hh
          rw [s5 j hjm, d1 hh]
        · intro hh
          rw [s5 j hjm, d2 hh]
        · intro id hid
          rw [s5 j hjm, d3 id hid]

/-! ## Delete -/

theorem nodes_length_resetNode (sl : SkipList) (tau : Nat) :
    (sl.resetNode tau).nodes.length = sl.nodes.length := by
  simp [resetNode]

theorem maxLevel_resetNode (sl : SkipList) (tau : Nat) :
    (sl.resetNode tau).maxLevel = sl.maxLevel := rfl

theorem length_resetNode (sl : SkipList) (tau : Nat) :
    (sl.resetNode tau).length = sl.length := rfl

theorem node_resetNode_ne (sl : SkipList) {tau id : Nat} (hid : id ≠ tau) :
    (sl.resetNode tau).node id = sl.node id := by
  show (sl.nodes.set tau _).getD id {} = sl.nodes.getD id {}
  exact getD_set_ne _ _ _ hid

theorem key_resetNode_ne (sl : SkipList) {tau id : Nat} (hid : id ≠ tau) :
    (sl.resetNode tau).key id = sl.key id := by
  show ((sl.resetNode tau).node id).intervalKey = (sl.node id).intervalKey
  rw [node_resetNode_ne sl hid]

theorem height_resetNode_ne (sl : SkipList) {tau id : Nat} (hid : id ≠ tau) :
    (sl.resetNode tau).height id = sl.height id := by
  show ((sl.resetNode tau).node id).levels.length = (sl.node id).levels.length
  rw [node_resetNode_ne sl hid]

theorem nlv_resetNode_ne (sl : SkipList) {tau id : Nat} (hid : id ≠ tau) (j : Nat) :
    (sl.resetNode tau).nlv id j = sl.nlv id j := by
  show ((sl.resetNode tau).node id).levels.getD j {} = (sl.node id).levels.getD j {}
  rw [node_resetNode_ne sl hid]

/-- `Delete` of an interval stored nowhere returns the state unchanged. -/
theorem InvW.delete_miss {sl : SkipList} {base : List Nat} (h : sl.InvW base)
    {K : IntervalKey}
    (hno : ∀ id ∈ base, (sl.key id).equalInterval K = false) :
    sl.Delete K = (sl, none) := by
  obtain ⟨hpath, hfin⟩ := h.insert_path K
  have hnext : (sl.nlv (sl.descend K sl.maxLevel 0 0).2 0).next
      = (highPath sl base K 0).head? := by
    rw [hfin]
    exact h.next_predAt K (by decide)
  show (match (sl.nlv (sl.descend K sl.maxLevel 0 0).2 0).next with
    | none => (sl, none)
    | some tau =>
      if (sl.key tau).equalInterval K then
        let sl2 := sl.deleteLoop (sl.descend K sl.maxLevel 0 0).1 tau
          (List.range sl.maxLevel)
        let k := sl2.key tau
        let sl3 := sl2.resetNode tau
        ({ sl3 with length := sl3.length - 1 }, some k)
      else (sl, none)) = (sl, none)
  rw [hnext]
  cases hh : (highPath sl base K 0).head? with
  | none => rfl
  | some sigma =>
    have hsig : sigma ∈ base := by
      have h1 : sigma ∈ highPath sl base K 0 := List.mem_of_mem_head? hh
      unfold highPath at h1
      have h2 : sigma ∈ sl.rowOf base 0 := (List.dropWhile_sublist _).subset h1
      exact List.mem_of_mem_filter h2
    simp [hno sigma hsig]

/-- Retarget a chain: if a state agrees with `sl` on all pointers along
`n :: l` except the last, whose pointer now goes to `y`, the chain reaches `y`. -/
theorem chainTo_retarget {sl D : SkipList} {i : Nat} :
    ∀ {l : List Nat} {n y z : Nat},
      (∀ x ∈ (n :: l).dropLast, (D.nlv x i).next = (sl.nlv x i).next) →
      (D.nlv (lastD l n) i).next = some y →
      sl.ChainTo i n l z → D.ChainTo i n l y := by
  intro l
  induction l with
  | nil =>
    intro n y z hagree hlast hc
    exact hlast
  | cons x xs ih =>
    intro n y z hagree hlast hc
    obtain ⟨h1, h2⟩ := hc
    have hdl : (n :: x :: xs).dropLast = n :: (x :: xs).dropLast := rfl
    refine ⟨?_, ?_⟩
    · rw [hagree n (by rw [hdl]; exact List.mem_cons_self n _)]
      exact h1
    · refine ih (fun a ha => hagree a ?_) hlast h2
      rw [hdl]
      exact List.mem_cons_of_mem n ha

/-- Terminate a chain: if the last pointer along `n :: l` now ends with `nil`
and the others are unchanged, the list is a complete chain from `n`. -/
theorem chainTo_isChain_none {sl D : SkipList} {i : Nat} :
    ∀ {l : List Nat} {n z : Nat},
      (∀ x ∈ (n :: l).dropLast, (D.nlv x i).next = (sl.nlv x i).next) →
      (D.nlv (lastD l n) i).next = none →
      sl.ChainTo i n l z → D.IsChain i n l := by
  intro l
  induction l with
  | nil =>
    intro n z hagree hlast hc
    exact hlast
  | cons x xs ih =>
    intro n z hagree hlast hc
    obtain ⟨h1, h2⟩ := hc
    have hdl : (n :: x :: xs).dropLast = n :: (x :: xs).dropLast := rfl
    refine ⟨?_, ?_⟩
    · rw [hagree n (by rw [hdl]; exact List.mem_cons_self n _)]
      exact h1
    · refine ih (fun a ha => hagree a ?_) hlast h2
      rw [hdl]
      exact List.mem_cons_of_mem n ha

/-- A key that compares interval-equal to `K` is never strictly below `K`. -/
theorem not_mem_Pof_of_equalInterval {sl : SkipList} {base : List Nat}
    {K : IntervalKey} {m : Nat} (heq : (sl.key m).equalInterval K = true) :
    m ∉ Pof sl base K := by
  intro hc
  have h1 := mem_Pof_less hc
  rw [less_of_equalInterval_left heq, less_irrefl] at h1
  cases h1

/-- The suffix `Sof` starts exactly at the matching node. -/
theorem InvW.Sof_eq_cons {sl : SkipList} {base : List Nat} (h : sl.InvW base)
    {K : IntervalKey} {m : Nat} (hm : m ∈ base)
    (heq : (sl.key m).equalInterval K = true) :
    Sof sl base K = m :: (Sof sl base K).tail := by
  have hh := h.head_Sof_match hm heq
  cases hS : Sof sl base K with
  | nil => rw [hS] at hh; cases hh
  | cons a l =>
    rw [hS] at hh
    simp only [List.head?_cons, Option.some.injEq] at hh
    rw [hh]
    rfl

/-- The descent predecessors never point at the matching node itself. -/
theorem InvW.predAt_ne_match {sl : SkipList} {base : List Nat} (h : sl.InvW base)
    {K : IntervalKey} {m : Nat} (hm : m ∈ base)
    (heq : (sl.key m).equalInterval K = true) (j : Nat) :
    predAt sl base K j ≠ m := by
  intro hc
  rcases List.mem_cons.mp (h.predAt_mem K j) with h0 | hmem
  · rw [h0] at hc
    have := (h.base_mem m hm).1
    omega
  · rw [h.lowPath_eq_Pof K j] at hmem
    have h2 : predAt sl base K j ∈ Pof sl base K := List.mem_of_mem_filter hmem
    rw [hc] at h2
    exact not_mem_Pof_of_equalInterval heq h2

theorem key_withLength (sl : SkipList) (v : Int) (id : Nat) :
    ({ sl with length := v } : SkipList).key id = sl.key id := rfl

theorem height_withLength (sl : SkipList) (v : Int) (id : Nat) :
    ({ sl with length := v } : SkipList).height id = sl.height id := rfl

theorem nlv_withLength (sl : SkipList) (v : Int) (id j : Nat) :
    ({ sl with length := v } : SkipList).nlv id j = sl.nlv id j := rfl

theorem nodes_withLength (sl : SkipList) (v : Int) :
    ({ sl with length := v } : SkipList).nodes = sl.nodes := rfl

theorem maxLevel_withLength (sl : SkipList) (v : Int) :
    ({ sl with length := v } : SkipList).maxLevel = sl.maxLevel := rfl

/-- Effect of a successful `Delete` on every observable field of the state. -/
theorem InvW.delete_state {sl : SkipList} {base : List Nat} (h : sl.InvW base)
    {K : IntervalKey} {m : Nat} (hm : m ∈ base)
    (heq : (sl.key m).equalInterval K = true) :
    (sl.Delete K).2 = some (sl.key m) ∧
    (sl.Delete K).1.nodes.length = sl.nodes.length ∧
    (sl.Delete K).1.length = sl.length - 1 ∧
    (sl.Delete K).1.maxLevel ≤ sl.maxLevel ∧
    (∀ x ∈ base, x ≠ m → sl.height x ≤ (sl.Delete K).1.maxLevel) ∧
    (∀ id, id ≠ m → (sl.Delete K).1.key id = sl.key id) ∧
    (∀ id, id ≠ m → (sl.Delete K).1.height id = sl.height id) ∧
    (∀ j, j < sl.maxLevel →
      (j < sl.height m →
        (sl.Delete K).1.nlv (predAt sl base K j) j
          = { next := (sl.nlv m j).next,
              span := (sl.nlv (predAt sl base K j) j).span + (sl.nlv m j).span - 1 }) ∧
      (sl.height m ≤ j →
        (sl.Delete K).1.nlv (predAt sl base K j) j
          = { next := (sl.nlv (predAt sl base K j) j).next,
              span := (sl.nlv (predAt sl base K j) j).span - 1 })) ∧
    (∀ j, ∀ id, id ≠ m → id ≠ predAt sl base K j →
      (sl.Delete K).1.nlv id j = sl.nlv id j) ∧
    (∀ j, sl.maxLevel ≤ j → ∀ id, id ≠ m →
      (sl.Delete K).1.nlv id j = sl.nlv id j) := by
  classical
  obtain ⟨hpath, hfin⟩ := h.insert_path K
  have hm0 : 0 < m := (h.base_mem m hm).1
  have hmlt : m < sl.nodes.length := (h.base_mem m hm).2
  have hmP : m ∉ Pof sl base K := by
    intro hc
    have h1 := mem_Pof_less hc
    rw [less_of_equalInterval_left heq, less_irrefl] at h1
    cases h1
  have hSof : ∃ rest, Sof sl base K = m :: rest := by
    have hh := h.head_Sof_match hm heq
    cases hS : Sof sl base K with
    | nil => rw [hS] at hh; cases hh
    | cons a l =>
      rw [hS] at hh
      simp only [List.head?_cons, Option.some.injEq] at hh
      exact ⟨l, by rw [hh]⟩
  obtain ⟨rest, hSof⟩ := hSof
  have hhighj : ∀ j, j < sl.height m → (highPath sl base K j).head? = some m := by
    intro j hj
    rw [h.highPath_eq_Sof K j, hSof]
    simp [hj]
  have hnextj : ∀ j, j < MaxLevel → j < sl.height m →
      (sl.nlv (predAt sl base K j) j).next = some m := by
    intro j hj32 hj
    rw [h.next_predAt K hj32]
    exact hhighj j hj
  have hpredne : ∀ j, predAt sl base K j ≠ m := by
    intro j hc
    rcases List.mem_cons.mp (h.predAt_mem K j) with h0 | hmem
    · rw [h0] at hc; omega
    · rw [h.lowPath_eq_Pof K j] at hmem
      have h2 : predAt sl base K j ∈ Pof sl base K := List.mem_of_mem_filter hmem
      rw [hc] at h2
      exact hmP h2
  have hnext : (sl.nlv (sl.descend K sl.maxLevel 0 0).2 0).next = some m := by
    rw [hfin]
    refine hnextj 0 (by decide) ?_
    exact h.height_pos m hm
  have hDel : sl.Delete K
      = ({ ((sl.deleteLoop (sl.descend K sl.maxLevel 0 0).1 m
              (List.range sl.maxLevel)).resetNode m) with
            length := ((sl.deleteLoop (sl.descend K sl.maxLevel 0 0).1 m
              (List.range sl.maxLevel)).resetNode m).length - 1 },
         some ((sl.deleteLoop (sl.descend K sl.maxLevel 0 0).1 m
              (List.range sl.maxLevel)).key m)) := by
    show (match (sl.nlv (sl.descend K sl.maxLevel 0 0).2 0).next with
      | none => (sl, none)
      | some tau =>
        if (sl.key tau).equalInterval K then
          let sl2 := sl.deleteLoop (sl.descend K sl.maxLevel 0 0).1 tau
            (List.range sl.maxLevel)
          let k := sl2.key tau
          let sl3 := sl2.resetNode tau
          ({ sl3 with length := sl3.length - 1 }, some k)
        else (sl, none)) = _
    rw [hnext]
    simp [heq]
  have hpth : ∀ j, j < sl.maxLevel →
      (pathAt (sl.descend K sl.maxLevel 0 0).1 j).1 = predAt sl base K j := by
    intro j hj
    rw [hpath j (lt_of_lt_of_le hj h.ml_le)]
  have hp : ∀ j, j < sl.maxLevel →
      (pathAt (sl.descend K sl.maxLevel 0 0).1 j).1 ≠ m ∧
      (pathAt (sl.descend K sl.maxLevel 0 0).1 j).1 < sl.nodes.length ∧
      j < sl.height (pathAt (sl.descend K sl.maxLevel 0 0).1 j).1 := by
    intro j hj
    rw [hpth j hj]
    exact ⟨hpredne j, h.predAt_lt K j, h.predAt_height K (lt_of_lt_of_le hj h.ml_le)⟩
  have hcond : ∀ j, j < sl.height m → j < sl.maxLevel →
      (sl.nlv (pathAt (sl.descend K sl.maxLevel 0 0).1 j).1 j).next = some m := by
    intro j hjh hj
    rw [hpth j hj]
    exact hnextj j (lt_of_lt_of_le hj h.ml_le) hjh
  -- first-emptied-level schedule for the maxLevel shrink
  by_cases hB : ∃ e, e < sl.maxLevel ∧ e < sl.height m ∧ 1 < sl.maxLevel ∧
      sl.delNextAfter (sl.descend K sl.maxLevel 0 0).1 m e = none
  · -- some level empties: maxLevel shrinks to the least such level
    obtain ⟨e, he1, he2, he3, he4, he5⟩ :
        ∃ e, e < sl.maxLevel ∧ e < sl.height m ∧ 1 < sl.maxLevel ∧
          sl.delNextAfter (sl.descend K sl.maxLevel 0 0).1 m e = none ∧
          ∀ i, i < e →
            sl.delNextAfter (sl.descend K sl.maxLevel 0 0).1 m i ≠ none := by
      obtain ⟨hf1, hf2, hf3, hf4⟩ := Nat.find_spec hB
      refine ⟨Nat.find hB, hf1, hf2, hf3, hf4, ?_⟩
      intro i hie hc
      exact Nat.find_min hB hie ⟨by omega, by omega, hf3, hc⟩
    have hsched : Option.elim (some e)
        (∀ i, i < sl.maxLevel → i < sl.height m →
          ¬ (1 < sl.maxLevel ∧
            sl.delNextAfter (sl.descend K sl.maxLevel 0 0).1 m i = none))
        (fun e2 => e2 < sl.maxLevel ∧ e2 < sl.height m ∧ 1 < sl.maxLevel ∧
          sl.delNextAfter (sl.descend K sl.maxLevel 0 0).1 m e2 = none ∧
          ∀ i, i < e2 →
            sl.delNextAfter (sl.descend K sl.maxLevel 0 0).1 m i ≠ none) :=
      ⟨he1, he2, he3, he4, he5⟩
    obtain ⟨L1, L2, L3, L4, L5, L6, L7⟩ := deleteLoop_spec rfl hmlt hp hcond
      (some e) hsched sl.maxLevel (le_refl _)
    -- level e holds only the deleted node
    have hrowe : sl.rowOf base e = [m] := by
      unfold delNextAfter at he4
      rw [hpth e he1] at he4
      have hrow : sl.rowOf base e = lowPath sl base K e ++ highPath sl base K e :=
        (List.takeWhile_append_dropWhile _ _).symm
      by_cases hP0 : predAt sl base K e = 0
      · rw [if_pos hP0] at he4
        have hlow : lowPath sl base K e = [] := by
          cases hl : lowPath sl base K e with
          | nil => rfl
          | cons a l =>
            exfalso
            have hmem : predAt sl base K e ∈ lowPath sl base K e := by
              unfold predAt
              rw [hl]
              exact lastD_mem_of_ne_nil (by simp) 0
            have hmemb := h.mem_lowPath_base hmem
            have := (h.base_mem _ hmemb).1
            omega
        have hhigh : highPath sl base K e
            = m :: (rest.filter (fun id => decide (e < sl.height id))) := by
          rw [h.highPath_eq_Sof K e, hSof]
          simp [he2]
        rw [hrow, hlow, hhigh, List.nil_append]
        have hc := h.chains e (lt_of_lt_of_le he1 h.ml_le)
        rw [hrow, hlow, hhigh, List.nil_append] at hc
        obtain ⟨hc1, hc2⟩ := hc
        cases hr : rest.filter (fun id => decide (e < sl.height id)) with
        | nil => rfl
        | cons y ys =>
          exfalso
          rw [hr] at hc2
          obtain ⟨hc3, _⟩ := hc2
          rw [he4] at hc3
          cases hc3
      · exfalso
        rw [if_neg hP0] at he4
        have hmem : predAt sl base K e ∈ lowPath sl base K e := by
          unfold predAt at hP0 ⊢
          cases hl : lowPath sl base K e with
          | nil => rw [hl] at hP0; exact absurd rfl hP0
          | cons a l => exact lastD_mem_of_ne_nil (by simp) 0
        have hrowne : sl.rowOf base e ≠ [] := by
          intro hc
          rw [hrow] at hc
          rcases List.append_eq_nil.mp hc with ⟨hc1, _⟩
          rw [hc1] at hmem
          cases hmem
        have hc := h.chains e (lt_of_lt_of_le he1 h.ml_le)
        cases hr : sl.rowOf base e with
        | nil => exact hrowne hr
        | cons x xs =>
          rw [hr] at hc
          obtain ⟨hc1, _⟩ := hc
          rw [he4] at hc1
          cases hc1
    have hht : ∀ x ∈ base, x ≠ m → sl.height x ≤ e := by
      intro x hx hxm
      by_contra hcon
      have hxrow : x ∈ sl.rowOf base e := by
        unfold rowOf
        refine List.mem_filter.mpr ⟨hx, ?_⟩
        simp
        omega
      rw [hrowe] at hxrow
      rcases List.mem_singleton.mp hxrow with hc
      exact hxm hc
    have hml2 : ((sl.deleteLoop (sl.descend K sl.maxLevel 0 0).1 m
        (List.range sl.maxLevel)).maxLevel) = e := by
      rw [L2]
      simp only [Option.elim]
      rw [if_pos he1]
    rw [hDel]
    refine ⟨?_, ?_, ?_, ?_, ?_, ?_, ?_, ?_, ?_, ?_⟩
    · simp only [L4 m]
    · rw [nodes_withLength]
      rw [nodes_length_resetNode, L1]
    · rw [length_resetNode, L3]
    · rw [maxLevel_withLength, maxLevel_resetNode, hml2]
      omega
    · intro x hx hxm
      rw [maxLevel_withLength, maxLevel_resetNode, hml2]
      exact hht x hx hxm
    · intro id hid
      rw [key_withLength, key_resetNode_ne _ hid, L4]
    · intro id hid
      rw [height_withLength, height_resetNode_ne _ hid, L5]
    · intro j hj
      obtain ⟨D1, D2, D3⟩ := L7 j hj
      rw [hpth j hj] at D1 D2
      constructor
      · intro hjh
        rw [nlv_withLength, nlv_resetNode_ne _ (hpredne j), D1 hjh]
      · intro hjh
        rw [nlv_withLength, nlv_resetNode_ne _ (hpredne j), D2 hjh]
    · intro j id hid hidp
      rw [nlv_withLength, nlv_resetNode_ne _ hid]
      rcases Nat.lt_or_ge j sl.maxLevel with hj | hj
      · obtain ⟨D1, D2, D3⟩ := L7 j hj
        refine D3 id ?_
        rw [hpth j hj]
        exact hidp
      · exact L6 j hj id
    · intro j hj id hid
      rw [nlv_withLength, nlv_resetNode_ne _ hid]
      exact L6 j hj id
  · -- no level empties: maxLevel is unchanged
    have hsched : Option.elim (none : Option Nat)
        (∀ i, i < sl.maxLevel → i < sl.height m →
          ¬ (1 < sl.maxLevel ∧
            sl.delNextAfter (sl.descend K sl.maxLevel 0 0).1 m i = none))
        (fun e2 => e2 < sl.maxLevel ∧ e2 < sl.height m ∧ 1 < sl.maxLevel ∧
          sl.delNextAfter (sl.descend K sl.maxLevel 0 0).1 m e2 = none ∧
          ∀ i, i < e2 →
            sl.delNextAfter (sl.descend K sl.maxLevel 0 0).1 m i ≠ none) := by
      intro i hi1 hi2 hc
      exact hB ⟨i, hi1, hi2, hc.1, hc.2⟩
    obtain ⟨L1, L2, L3, L4, L5, L6, L7⟩ := deleteLoop_spec rfl hmlt hp hcond
      none hsched sl.maxLevel (le_refl _)
    have hml2 : ((sl.deleteLoop (sl.descend K sl.maxLevel 0 0).1 m
        (List.range sl.maxLevel)).maxLevel) = sl.maxLevel := by
      rw [L2]
      rfl
    rw [hDel]
    refine ⟨?_, ?_, ?_, ?_, ?_, ?_, ?_, ?_, ?_, ?_⟩
    · simp only [L4 m]
    · rw [nodes_withLength]
      rw [nodes_length_resetNode, L1]
    · rw [length_resetNode, L3]
    · rw [maxLevel_withLength, maxLevel_resetNode, hml2]
    · intro x hx hxm
      rw [maxLevel_withLength, maxLevel_resetNode, hml2]
      exact h.height_le x hx
    · intro id hid
      rw [key_withLength, key_resetNode_ne _ hid, L4]
    · intro id hid
      rw [height_withLength, height_resetNode_ne _ hid, L5]
    · intro j hj
      obtain ⟨D1, D2, D3⟩ := L7 j hj
      rw [hpth j hj] at D1 D2
      constructor
      · intro hjh
        rw [nlv_withLength, nlv_resetNode_ne _ (hpredne j), D1 hjh]
      · intro hjh
        rw [nlv_withLength, nlv_resetNode_ne _ (hpredne j), D2 hjh]
    · intro j id hid hidp
      rw [nlv_withLength, nlv_resetNode_ne _ hid]
      rcases Nat.lt_or_ge j sl.maxLevel with hj | hj
      · obtain ⟨D1, D2, D3⟩ := L7 j hj
        refine D3 id ?_
        rw [hpth j hj]
        exact hidp
      · exact L6 j hj id
    · intro j hj id hid
      rw [nlv_withLength, nlv_resetNode_ne _ hid]
      exact L6 j hj id

/-- At level 0 the strict suffix of the walk is exactly `Sof`. -/
theorem InvW.highPath_zero {sl : SkipList} {base : List Nat} (h : sl.InvW base)
    (K : IntervalKey) : highPath sl base K 0 = Sof sl base K := by
  rw [h.highPath_eq_Sof K 0]
  apply List.filter_eq_self.mpr
  intro x hx
  have hxb : x ∈ base := (Sof_sublist sl base K).subset hx
  simpa using h.height_pos x hxb

/-- At most one stored node matches a given `(Start, End)`. -/
theorem InvW.unique_match {sl : SkipList} {base : List Nat} (h : sl.InvW base)
    {K : IntervalKey} {m1 m2 : Nat} (h1 : m1 ∈ base)
    (he1 : (sl.key m1).equalInterval K = true) (h2 : m2 ∈ base)
    (he2 : (sl.key m2).equalInterval K = true) : m1 = m2 := by
  have q1 := h.head_Sof_match h1 he1
  have q2 := h.head_Sof_match h2 he2
  rw [q1] at q2
  simpa using q2

theorem searchLevels_le_ml (sl : SkipList) : sl.searchLevels ≤ sl.maxLevel := by
  simp only [searchLevels, maxSearchLevel, MaxSearchLevel]
  split
  · next hc => omega
  · omega

theorem searchLevels_le_max (sl : SkipList) : sl.searchLevels ≤ MaxLevel := by
  simp only [searchLevels, maxSearchLevel, MaxSearchLevel, MaxLevel]
  split
  · omega
  · omega

theorem searchLevels_pos (sl : SkipList) (h : 0 < sl.maxLevel) :
    0 < sl.searchLevels := by
  simp only [searchLevels, maxSearchLevel, MaxSearchLevel]
  split
  · omega
  · omega

/-- `Get` is determined by the first node at or after the search key. -/
theorem InvW.get_eq {sl : SkipList} {base : List Nat} (h : sl.InvW base)
    (K : IntervalKey) :
    sl.Get K
      = (match (Sof sl base K).head? with
        | some mh => if (sl.key mh).equalInterval K then some (sl.key mh) else none
        | none => none) := by
  have hGet : sl.Get K
      = (match (sl.nlv (sl.descend K sl.searchLevels 0 0).2 0).next with
        | some mh => if (sl.key mh).equalInterval K then some (sl.key mh) else none
        | none => none) := rfl
  rcases Nat.eq_zero_or_pos sl.maxLevel with hml | hml
  · have hbase0 : base = [] := h.base_nil_of_ml_zero hml
    have hsl0 : sl.searchLevels = 0 := by
      simp only [searchLevels, maxSearchLevel, MaxSearchLevel, hml]
      split
      · omega
      · omega
    rw [hGet, hsl0]
    have hch := h.chains 0 (by decide)
    rw [h.rowOf_zero, hbase0] at hch
    have hch2 : (sl.nlv 0 0).next = none := hch
    have hd : (sl.descend K 0 0 0).2 = 0 := rfl
    rw [hd, hch2, hbase0]
    rfl
  · have hpos : 0 < sl.searchLevels := searchLevels_pos sl hml
    have hd0 : (0 : Int) = posIn base 0 := rfl
    have hspec := @descend_spec sl base h K sl.searchLevels 0
      (searchLevels_le_max sl) (by simp)
    rw [← hd0] at hspec
    obtain ⟨_, _, hfin⟩ := hspec
    rw [hGet, hfin, if_neg (by omega), h.next_predAt K (by decide), h.highPath_zero K]

/-- A successful `Delete` preserves the invariant: the base list loses
exactly the matching node. -/
theorem InvW.delete_inv {sl : SkipList} {base : List Nat} (h : sl.InvW base)
    {K : IntervalKey} {m : Nat} (hm : m ∈ base)
    (heq : (sl.key m).equalInterval K = true) :
    (sl.Delete K).1.InvW (Pof sl base K ++ (Sof sl base K).tail) := by
  classical
  obtain ⟨_S1, S2, S3, S4, S5, S6, S7, S8, S9, S10⟩ := h.delete_state hm heq
  have hm0 : 0 < m := (h.base_mem m hm).1
  have hSof := h.Sof_eq_cons hm heq
  set R : List Nat := (Sof sl base K).tail with hR
  set P : List Nat := Pof sl base K with hP
  have hbase : base = P ++ m :: R := by
    conv_lhs => rw [← Pof_append_Sof sl base K]
    rw [hSof]
  have hnodup2 : (m :: (P ++ R)).Nodup := by
    rw [← List.nodup_middle, ← hbase]
    exact h.base_nodup
  have hmPR : m ∉ P ++ R := (List.nodup_cons.mp hnodup2).1
  have hnodup' : (P ++ R).Nodup := (List.nodup_cons.mp hnodup2).2
  have hxbase : ∀ x ∈ P ++ R, x ∈ base := by
    intro x hx
    rw [hbase]
    rcases List.mem_append.mp hx with h1 | h1
    · exact List.mem_append.mpr (Or.inl h1)
    · exact List.mem_append.mpr (Or.inr (List.mem_cons_of_mem m h1))
  have hxm : ∀ x ∈ P ++ R, x ≠ m := fun x hx hc => hmPR (hc ▸ hx)
  have hxmR : ∀ x ∈ R, x ≠ m :=
    fun x hx => hxm x (List.mem_append.mpr (Or.inr hx))
  have hdisj : ∀ x ∈ R, x ∉ P := by
    intro x hx hc
    have hd := List.disjoint_of_nodup_append (hbase ▸ h.base_nodup)
    exact hd hc (List.mem_cons_of_mem m hx)
  have hRnePred : ∀ i : Nat, ∀ x ∈ R, x ≠ predAt sl base K i := by
    intro i x hx hc
    rcases List.mem_cons.mp (h.predAt_mem K i) with h0 | hmem
    · rw [h0] at hc
      have := (h.base_mem x (hxbase x (List.mem_append.mpr (Or.inr hx)))).1
      omega
    · rw [h.lowPath_eq_Pof K i] at hmem
      have h2 : predAt sl base K i ∈ P := List.mem_of_mem_filter hmem
      rw [← hc] at h2
      exact hdisj x hx h2
  have hhm : sl.height m ≤ sl.maxLevel := h.height_le m hm
  have hrow' : ∀ i : Nat, (sl.Delete K).1.rowOf (P ++ R) i
      = (P ++ R).filter (fun id => decide (i < sl.height id)) := by
    intro i
    unfold rowOf
    exact List.filter_congr (fun x hx => by rw [S7 x (hxm x hx)])
  have hrowsplit : ∀ i : Nat, (P ++ R).filter (fun id => decide (i < sl.height id))
      = lowPath sl base K i ++ R.filter (fun id => decide (i < sl.height id)) := by
    intro i
    rw [List.filter_append, ← h.lowPath_eq_Pof K i]
  have hrowold : ∀ i : Nat, sl.rowOf base i
      = lowPath sl base K i ++ highPath sl base K i :=
    fun i => (List.takeWhile_append_dropWhile _ _).symm
  have hhighsplit : ∀ i : Nat, highPath sl base K i
      = (if i < sl.height m then
          m :: R.filter (fun id => decide (i < sl.height id))
         else R.filter (fun id => decide (i < sl.height id))) := by
    intro i
    rw [h.highPath_eq_Sof K i, hSof, List.filter_cons]
    by_cases hi : i < sl.height m
    · rw [if_pos hi]
      simp [hi]
    · rw [if_neg hi]
      simp [hi]
  have hlowP : ∀ i : Nat, ∀ x ∈ lowPath sl base K i, x ∈ P := by
    intro i x hx
    rw [h.lowPath_eq_Pof K i] at hx
    exact List.mem_of_mem_filter hx
  have hlowne : ∀ i : Nat, ∀ x ∈ lowPath sl base K i, x ≠ m := by
    intro i x hx hc
    have h2 := hlowP i x hx
    rw [hc] at h2
    exact not_mem_Pof_of_equalInterval heq h2
  have hnodup0l : ∀ i : Nat, ((0 : Nat) :: lowPath sl base K i).Nodup := by
    intro i
    refine List.nodup_cons.mpr
      ⟨?_, h.base_nodup.sublist (lowPath_sublist sl base K i)⟩
    intro hc
    have := (h.base_mem 0 ((lowPath_sublist sl base K i).subset hc)).1
    omega
  have hmem0l_ne : ∀ i : Nat, ∀ x ∈ (0 : Nat) :: lowPath sl base K i, x ≠ m := by
    intro i x hx
    rcases List.mem_cons.mp hx with rfl | hxl
    · omega
    · exact hlowne i x hxl
  have hposP : ∀ a ∈ (0 : Nat) :: lowPath sl base K 0, True := fun _ _ => trivial
  refine ⟨?_, ?_, ?_, ?_, hnodup', ?_, ?_, ?_, ?_, ?_, ?_, ?_⟩
  · rw [S2]
    exact h.head_lt
  · rw [S7 0 (by omega)]
    exact h.head_levels
  · rw [S6 0 (by omega)]
    exact h.head_key
  · intro id hid
    rw [S2]
    exact h.base_mem id (hxbase id hid)
  · -- sorted
    have hpair' : (P ++ R).Pairwise
        (fun a b => less (sl.key a) (sl.key b) = true) := by
      refine h.base_pairwise.sublist ?_
      rw [hbase]
      exact List.Sublist.append_left (List.sublist_cons_self m R) P
    haveI : IsTrans Nat (fun a b => less (sl.key a) (sl.key b) = true) :=
      ⟨fun _ _ _ hab hbc => less_trans hab hbc⟩
    have hchain2 : List.Chain' (fun a b => less (sl.key a) (sl.key b) = true)
        (P ++ R) := List.chain'_iff_pairwise.mpr hpair'
    refine chain'_congr_mem (fun a ha b hb hab => ?_) hchain2
    rw [S6 a (hxm a ha), S6 b (hxm b hb)]
    exact hab
  · intro id hid
    rw [S7 id (hxm id hid)]
    exact h.height_pos id (hxbase id hid)
  · intro id hid
    rw [S7 id (hxm id hid)]
    exact S5 id (hxbase id hid) (hxm id hid)
  · exact le_trans S4 h.ml_le
  · -- chains
    intro i hi
    rw [hrow' i, hrowsplit i]
    rcases Nat.lt_or_ge i sl.maxLevel with hiML | hiML
    · rcases Nat.lt_or_ge i (sl.height m) with hiH | hiH
      · -- the target occupied level i: splice it out of the chain
        have hcold := h.chains i hi
        rw [hrowold i, hhighsplit i, if_pos hiH] at hcold
        obtain ⟨CT, C2⟩ := isChain_append.mp hcold
        have hagree : ∀ x ∈ ((0 : Nat) :: lowPath sl base K i).dropLast,
            ((sl.Delete K).1.nlv x i).next = (sl.nlv x i).next := by
          intro x hx
          have hane : x ≠ predAt sl base K i :=
            mem_dropLast_ne_lastD (hnodup0l i) hx
          have hamem : x ∈ (0 : Nat) :: lowPath sl base K i :=
            (List.dropLast_sublist _).subset hx
          rw [S9 i x (hmem0l_ne i x hamem) hane]
        have hlastnext : ((sl.Delete K).1.nlv (lastD (lowPath sl base K i) 0) i).next
            = (sl.nlv m i).next := by
          show ((sl.Delete K).1.nlv (predAt sl base K i) i).next = _
          rw [(S8 i hiML).1 hiH]
        cases hRf : R.filter (fun id => decide (i < sl.height id)) with
        | nil =>
          rw [List.append_nil]
          rw [hRf] at C2
          refine chainTo_isChain_none hagree ?_ CT
          rw [hlastnext]
          exact C2
        | cons y ys =>
          rw [hRf] at C2
          obtain ⟨hy, C3⟩ := C2
          refine isChain_append.mpr ⟨?_, ?_⟩
          · refine chainTo_retarget hagree ?_ CT
            rw [hlastnext, hy]
          · refine isChain_congr_next (fun x hx => ?_) C3
            have hxR : x ∈ R := by
              have h2 : x ∈ R.filter (fun id => decide (i < sl.height id)) := by
                rw [hRf]
                exact hx
              exact List.mem_of_mem_filter h2
            rw [S9 i x (hxmR x hxR) (fun hc => hRnePred i x hxR hc)]
      · -- the target is below level i: pointers are untouched
        have hcold := h.chains i hi
        rw [hrowold i, hhighsplit i, if_neg (by omega)] at hcold
        refine isChain_congr_next (fun x hx => ?_) hcold
        by_cases hxp : x = predAt sl base K i
        · rw [hxp, (S8 i hiML).2 hiH]
        · have hxm3 : x ≠ m := by
            rcases List.mem_cons.mp hx with rfl | hx2
            · omega
            · rcases List.mem_append.mp hx2 with h1 | h1
              · exact hlowne i x h1
              · exact hxmR x (List.mem_of_mem_filter h1)
          rw [S9 i x hxm3 hxp]
    · -- level at or above maxLevel: empty row on both sides
      have hlow0 : lowPath sl base K i = [] := by
        unfold lowPath
        rw [h.rowOf_nil_of_top hiML]
        rfl
      have hRf0 : R.filter (fun id => decide (i < sl.height id)) = [] := by
        rw [List.filter_eq_nil_iff]
        intro x hx
        have := h.height_le x (hxbase x (List.mem_append.mpr (Or.inr hx)))
        simp only [decide_eq_true_eq]
        omega
      rw [hlow0, hRf0]
      show ((sl.Delete K).1.nlv 0 i).next = none
      have hold := h.chains i hi
      rw [h.rowOf_nil_of_top hiML] at hold
      rw [S10 i hiML 0 (by omega)]
      exact hold
  · -- spans
    intro i hi
    unfold SpansOk
    rw [hrow' i, hrowsplit i]
    have hposPi : ∀ a ∈ (0 : Nat) :: lowPath sl base K i,
        posIn (P ++ R) a = posIn base a := by
      intro a ha
      rcases List.mem_cons.mp ha with rfl | hal
      · rfl
      · have haP : a ∈ P := hlowP i a hal
        have ha0 : a ≠ 0 := by
          have := (h.base_mem a (hxbase a (List.mem_append.mpr (Or.inl haP)))).1
          omega
        rw [hbase]
        exact (posIn_insert_left haP ha0).symm
    have hposRi : ∀ a ∈ R, posIn (P ++ R) a = posIn base a + (-1) := by
      intro a ha
      have ha0 : a ≠ 0 := by
        have := (h.base_mem a (hxbase a (List.mem_append.mpr (Or.inr ha)))).1
        omega
      have haP : a ∉ P := hdisj a ha
      have ham : a ≠ m := hxmR a ha
      rw [hbase]
      have h3 := @posIn_insert_right P R m a haP ham ha0
      omega
    have hspold := h.spans i hi
    unfold SpansOk at hspold
    rw [hrowold i, hhighsplit i] at hspold
    have hdropP : ∀ a ∈ ((0 : Nat) :: lowPath sl base K i).dropLast,
        ((sl.Delete K).1.nlv a i).span = (sl.nlv a i).span := by
      intro a ha
      have hane : a ≠ predAt sl base K i :=
        mem_dropLast_ne_lastD (hnodup0l i) ha
      have hamem : a ∈ (0 : Nat) :: lowPath sl base K i :=
        (List.dropLast_sublist _).subset ha
      rw [S9 i a (hmem0l_ne i a hamem) hane]
    have hdropS : ∀ a ∈ (R.filter (fun id => decide (i < sl.height id))).dropLast,
        ((sl.Delete K).1.nlv a i).span = (sl.nlv a i).span := by
      intro a ha
      have haR : a ∈ R := by
        have h2 : a ∈ R.filter (fun id => decide (i < sl.height id)) :=
          (List.dropLast_sublist _).subset ha
        exact List.mem_of_mem_filter h2
      rw [S9 i a (hxmR a haR) (fun hc => hRnePred i a haR hc)]
    have hlastlow : ((0 : Nat) :: lowPath sl base K i).getLast?
        = some (predAt sl base K i) := lastD_eq_getLast? _ _
    rcases Nat.lt_or_ge i sl.maxLevel with hiML | hiML
    · rcases Nat.lt_or_ge i (sl.height m) with hiH | hiH
      · rw [if_pos hiH] at hspold
        have hshape : (0 : Nat) :: (lowPath sl base K i
              ++ m :: R.filter (fun id => decide (i < sl.height id)))
            = ((0 : Nat) :: lowPath sl base K i)
              ++ m :: R.filter (fun id => decide (i < sl.height id)) := rfl
        rw [hshape] at hspold
        obtain ⟨hA, hB, hAB⟩ := List.chain'_append.mp hspold
        obtain ⟨hmy, hBtail⟩ := List.chain'_cons'.mp hB
        have hCP : List.Chain' ((sl.Delete K).1.spanOk (P ++ R) i)
            ((0 : Nat) :: lowPath sl base K i) :=
          chain'_spanOk_shift (c := 0) hdropP
            (fun a ha => by rw [hposPi a ha]; ring) hA
        have hCS : List.Chain' ((sl.Delete K).1.spanOk (P ++ R) i)
            (R.filter (fun id => decide (i < sl.height id))) :=
          chain'_spanOk_shift (c := -1) hdropS
            (fun a ha => hposRi a (List.mem_of_mem_filter ha)) hBtail
        have hshape2 : (0 : Nat) :: (lowPath sl base K i
              ++ R.filter (fun id => decide (i < sl.height id)))
            = ((0 : Nat) :: lowPath sl base K i)
              ++ R.filter (fun id => decide (i < sl.height id)) := rfl
        rw [hshape2]
        refine List.chain'_append.mpr ⟨hCP, hCS, ?_⟩
        intro x hx y hy
        rw [hlastlow] at hx
        simp only [Option.mem_def, Option.some.injEq] at hx
        have hyR : y ∈ R := by
          have h2 : y ∈ R.filter (fun id => decide (i < sl.height id)) :=
            List.mem_of_mem_head? hy
          exact List.mem_of_mem_filter h2
        have hold1 : sl.spanOk base i (predAt sl base K i) m :=
          hAB (predAt sl base K i) hlastlow m rfl
        have hold2 : sl.spanOk base i m y := hmy y hy
        unfold spanOk at hold1 hold2 ⊢
        rw [← hx, (S8 i hiML).1 hiH]
        have hpx : posIn (P ++ R) (predAt sl base K i) = posIn base (predAt sl base K i) :=
          hposPi _ (h.predAt_mem K i)
        have hpy := hposRi y hyR
        simp only []
        rw [hpx, hpy]
        omega
      · rw [if_neg (by omega)] at hspold
        have hshape : (0 : Nat) :: (lowPath sl base K i
              ++ R.filter (fun id => decide (i < sl.height id)))
            = ((0 : Nat) :: lowPath sl base K i)
              ++ R.filter (fun id => decide (i < sl.height id)) := rfl
        rw [hshape] at hspold ⊢
        obtain ⟨hA, hB, hAB⟩ := List.chain'_append.mp hspold
        have hCP : List.Chain' ((sl.Delete K).1.spanOk (P ++ R) i)
            ((0 : Nat) :: lowPath sl base K i) :=
          chain'_spanOk_shift (c := 0) hdropP
            (fun a ha => by rw [hposPi a ha]; ring) hA
        have hCS : List.Chain' ((sl.Delete K).1.spanOk (P ++ R) i)
            (R.filter (fun id => decide (i < sl.height id))) :=
          chain'_spanOk_shift (c := -1) hdropS
            (fun a ha => hposRi a (List.mem_of_mem_filter ha)) hB
        refine List.chain'_append.mpr ⟨hCP, hCS, ?_⟩
        intro x hx y hy
        rw [hlastlow] at hx
        simp only [Option.mem_def, Option.some.injEq] at hx
        have hyR : y ∈ R := by
          have h2 : y ∈ R.filter (fun id => decide (i < sl.height id)) :=
            List.mem_of_mem_head? hy
          exact List.mem_of_mem_filter h2
        have hold1 : sl.spanOk base i (predAt sl base K i) y :=
          hAB (predAt sl base K i) hlastlow y hy
        unfold spanOk at hold1 ⊢
        rw [← hx, (S8 i hiML).2 hiH]
        have hpx : posIn (P ++ R) (predAt sl base K i) = posIn base (predAt sl base K i) :=
          hposPi _ (h.predAt_mem K i)
        have hpy := hposRi y hyR
        simp only []
        rw [hpx, hpy]
        omega
    · have hlow0 : lowPath sl base K i = [] := by
        unfold lowPath
        rw [h.rowOf_nil_of_top hiML]
        rfl
      have hRf0 : R.filter (fun id => decide (i < sl.height id)) = [] := by
        rw [List.filter_eq_nil_iff]
        intro x hx
        have := h.height_le x (hxbase x (List.mem_append.mpr (Or.inr hx)))
        simp only [decide_eq_true_eq]
        omega
      rw [hlow0, hRf0]
      simp
  · -- length
    rw [S3, h.length_eq]
    have hlen := congrArg List.length hbase
    simp only [List.length_append, List.length_cons] at hlen
    simp only [List.length_append]
    omega

/-- C10: `Get` returns the stored key with matching `(Start, End)` (carrying
its stored payload) when one exists and `none` otherwise; after `Delete` of
an interval, `Get` of that interval returns `none`. -/
theorem C10_get_semantics {sl : SkipList} {base : List Nat} (h : sl.InvW base)
    (K : IntervalKey) :
    (∀ m ∈ base, (sl.key m).equalInterval K = true → sl.Get K = some (sl.key m)) ∧
    ((∀ id ∈ base, (sl.key id).equalInterval K = false) → sl.Get K = none) ∧
    (∀ m ∈ base, (sl.key m).equalInterval K = true →
      ((sl.Delete K).1).Get K = none) := by
  refine ⟨?_, ?_, ?_⟩
  · intro m hm heqm
    rw [h.get_eq K, h.head_Sof_match hm heqm]
    simp [heqm]
  · intro hno
    rw [h.get_eq K]
    cases hS : (Sof sl base K).head? with
    | none => rfl
    | some sigma =>
      have hsig : sigma ∈ base :=
        (Sof_sublist sl base K).subset (List.mem_of_mem_head? hS)
      simp [hno sigma hsig]
  · intro m hm heqm
    have hD := h.delete_inv hm heqm
    obtain ⟨_, _, _, _, _, S6, _⟩ := h.delete_state hm heqm
    have hSof := h.Sof_eq_cons hm heqm
    have hbase : base = Pof sl base K ++ m :: (Sof sl base K).tail := by
      conv_lhs => rw [← Pof_append_Sof sl base K]
      conv_lhs => rw [hSof]
    have hnodup2 : (m :: (Pof sl base K ++ (Sof sl base K).tail)).Nodup := by
      rw [← List.nodup_middle, ← hbase]
      exact h.base_nodup
    have hmPR : m ∉ Pof sl base K ++ (Sof sl base K).tail :=
      (List.nodup_cons.mp hnodup2).1
    rw [hD.get_eq K]
    cases hS : (Sof (sl.Delete K).1 (Pof sl base K ++ (Sof sl base K).tail) K).head? with
    | none => rfl
    | some sigma =>
      have hsig : sigma ∈ Pof sl base K ++ (Sof sl base K).tail :=
        (Sof_sublist _ _ _).subset (List.mem_of_mem_head? hS)
      have hsigb : sigma ∈ base := by
        rw [hbase]
        rcases List.mem_append.mp hsig with h1 | h1
        · exact List.mem_append.mpr (Or.inl h1)
        · exact List.mem_append.mpr (Or.inr (List.mem_cons_of_mem m h1))
      have hsigm : sigma ≠ m := fun hc => hmPR (hc ▸ hsig)
      have hkey : (sl.Delete K).1.key sigma = sl.key sigma := S6 sigma hsigm
      cases hbe : (sl.key sigma).equalInterval K with
      | true => exact absurd (h.unique_match hsigb hbe hm heqm) hsigm
      | false =>
        show (if ((sl.Delete K).1.key sigma).equalInterval K = true
          then some ((sl.Delete K).1.key sigma) else none) = none
        rw [hkey, hbe]
        simp

theorem C10_get_semantics_witness :
    (SkipList.new.Insert ⟨1, 2, "a"⟩ 1).1.Get ⟨1, 2, "q"⟩
        = some ((SkipList.new.Insert ⟨1, 2, "a"⟩ 1).1.key 1) ∧
    (((SkipList.new.Insert ⟨1, 2, "a"⟩ 1).1.Delete ⟨1, 2, "q"⟩).1).Get ⟨1, 2, "q"⟩
        = none :=
  ⟨(@C10_get_semantics (SkipList.new.Insert ⟨1, 2, "a"⟩ 1).1 [1]
      (by decide) ⟨1, 2, "q"⟩).1 1 (by decide) (by decide),
   (@C10_get_semantics (SkipList.new.Insert ⟨1, 2, "a"⟩ 1).1 [1]
      (by decide) ⟨1, 2, "q"⟩).2.2 1 (by decide) (by decide)⟩

end SkipList

/-- States reachable by `New` followed by any sequence of `Insert`/`Delete`
(with the inserted levels ranging over `randomLevel`'s codomain `[1, MaxLevel]`). -/
inductive Reachable : SkipList → Prop
  | new : Reachable SkipList.new
  | insert {sl : SkipList} (ik : IntervalKey) {r : Nat} (h1 : 1 ≤ r) (h2 : r ≤ MaxLevel)
      (h : Reachable sl) : Reachable (sl.Insert ik r).1
  | delete {sl : SkipList} (ik : IntervalKey) (h : Reachable sl) :
      Reachable (sl.Delete ik).1


namespace SkipList

/-- The freshly created list satisfies the invariant with no live nodes. -/
theorem new_inv : SkipList.new.InvW [] :=
  ⟨by decide, by decide, by rfl, by decide, by decide, by decide,
   by decide, by decide, by decide, by decide,
   fun i _ => List.chain'_singleton 0, by rfl⟩

end SkipList

/-- Every reachable state satisfies the structural invariant for some base. -/
theorem reachable_inv {sl : SkipList} (h : Reachable sl) :
    ∃ base, sl.InvW base := by
  induction h with
  | new => exact ⟨[], SkipList.new_inv⟩
  | @insert sl2 ik r h1 h2 hprev ih =>
    obtain ⟨base, hb⟩ := ih
    by_cases hex : ∃ m ∈ base, (sl2.key m).equalInterval ik = true
    · obtain ⟨m, hm, heqm⟩ := hex
      exact ⟨base, hb.insert_update_inv hm heqm _⟩
    · refine ⟨_, hb.insert_inv h1 h2 ?_⟩
      intro id hid
      cases hbe : (sl2.key id).equalInterval ik with
      | false => rfl
      | true => exact absurd ⟨id, hid, hbe⟩ hex
  | @delete sl2 ik hprev ih =>
    obtain ⟨base, hb⟩ := ih
    by_cases hex : ∃ m ∈ base, (sl2.key m).equalInterval ik = true
    · obtain ⟨m, hm, heqm⟩ := hex
      exact ⟨_, hb.delete_inv hm heqm⟩
    · refine ⟨base, ?_⟩
      have hno : ∀ id ∈ base, (sl2.key id).equalInterval ik = false := by
        intro id hid
        cases hbe : (sl2.key id).equalInterval ik with
        | false => rfl
        | true => exact absurd ⟨id, hid, hbe⟩ hex
      rw [hb.delete_miss hno]
      exact hb

end Islist

/-! ## Claim theorems -/

namespace Islist

open SkipList

/-- C5: `GetByIndex i` for `0 ≤ i < length` returns the key of the `i`-th
node (0-based) of the in-order level-0 traversal, and fails with the
out-of-range error exactly when `i < 0` or `i ≥ length`. -/
theorem C5_get_by_index {sl : SkipList} {base : List Nat} (h : sl.InvW base)
    (idx : Int) :
    (0 ≤ idx → idx < sl.length →
      sl.GetByIndex idx
        = Except.ok (sl.key ((sl.row 0).getD idx.toNat 0))) ∧
    ((idx < 0 ∨ sl.length ≤ idx) →
      sl.GetByIndex idx = Except.error (.outOfBounds idx)) := by
  have hGBI : sl.GetByIndex idx
      = (if idx < 0 ∨ idx ≥ sl.length then Except.error (.outOfBounds idx)
        else if (sl.posDescend sl.searchLevels 0 (idx + 1)).1 ≠ 0 then
          Except.ok (sl.key (sl.posDescend sl.searchLevels 0 (idx + 1)).1)
        else Except.error (.notFound idx)) := rfl
  constructor
  · intro h0 h1
    have hlen : sl.length = (base.length : Int) := h.length_eq
    have hT1 : 1 ≤ idx + 1 := by omega
    have hT2 : idx + 1 ≤ (base.length : Int) := by omega
    have hml : 0 < sl.maxLevel := by
      by_contra hc
      have hml0 : sl.maxLevel = 0 := by omega
      have hb := h.base_nil_of_ml_zero hml0
      rw [hb] at hlen
      simp at hlen
      omega
    obtain ⟨hpred_eq, hpred_pos⟩ := h.posPred_zero hT1 hT2
    have hsl_ne : sl.searchLevels ≠ 0 := by
      have := searchLevels_pos sl hml
      omega
    have harg : idx + 1 = (idx + 1) - posIn base 0 := by
      rw [posIn_zero]
      ring
    have hdesc := @posDescend_spec sl base h (idx + 1) sl.searchLevels 0
      (searchLevels_le_max sl) (by simp)
    rw [← harg, if_neg hsl_ne] at hdesc
    have hmemb : posPred sl base (idx + 1) 0 ∈ base := by
      rw [hpred_eq]
      have hlt : (idx + 1).toNat - 1 < base.length := by omega
      rw [List.getD_eq_getElem base 0 hlt]
      exact List.getElem_mem hlt
    have hne0 : posPred sl base (idx + 1) 0 ≠ 0 := by
      have := (h.base_mem _ hmemb).1
      omega
    rw [hGBI, if_neg (by omega), hdesc]
    simp only []
    rw [if_pos hne0]
    have hidx : (idx + 1).toNat - 1 = idx.toNat := by omega
    rw [hpred_eq, hidx, h.base_eq_row]
  · intro hcase
    rw [hGBI, if_pos (by omega)]

theorem C5_get_by_index_witness :
    ((SkipList.new.Insert ⟨1, 2, "a"⟩ 1).1.GetByIndex 0
      = Except.ok ((SkipList.new.Insert ⟨1, 2, "a"⟩ 1).1.key
          (((SkipList.new.Insert ⟨1, 2, "a"⟩ 1).1.row 0).getD (0 : Int).toNat 0))) ∧
    ((SkipList.new.Insert ⟨1, 2, "a"⟩ 1).1.GetByIndex 5
      = Except.error (.outOfBounds 5)) :=
  ⟨(@C5_get_by_index (SkipList.new.Insert ⟨1, 2, "a"⟩ 1).1 [1] (by decide) 0).1
      (by decide) (by decide),
   (@C5_get_by_index (SkipList.new.Insert ⟨1, 2, "a"⟩ 1).1 [1] (by decide) 5).2
      (Or.inr (by decide))⟩

/-- C4: after any sequence of `Insert`/`Delete` operations the level-0
traversal from the head yields the stored keys in strictly ascending
`(Start, End)` order (by `less`); consequently no two stored nodes carry
an equal `(Start, End)` interval. -/
theorem C4_sorted_no_dups {sl : SkipList} (h : Reachable sl) :
    List.Chain' (fun a b => less a b = true) ((sl.row 0).map sl.key) ∧
    List.Pairwise (fun a b => a.equalInterval b = false) ((sl.row 0).map sl.key) := by
  obtain ⟨base, hb⟩ := reachable_inv h
  rw [hb.base_eq_row]
  constructor
  · rw [List.chain'_map]
    exact hb.sorted
  · rw [List.pairwise_map]
    exact hb.base_pairwise.imp (fun hab => not_equalInterval_of_less hab)

theorem C4_sorted_no_dups_witness :
    List.Chain' (fun a b => less a b = true)
      ((((SkipList.new.Insert ⟨1, 2, "a"⟩ 1).1.Insert ⟨5, 9, "b"⟩ 2).1.row 0).map
        ((SkipList.new.Insert ⟨1, 2, "a"⟩ 1).1.Insert ⟨5, 9, "b"⟩ 2).1.key) ∧
    List.Pairwise (fun a b => a.equalInterval b = false)
      ((((SkipList.new.Insert ⟨1, 2, "a"⟩ 1).1.Insert ⟨5, 9, "b"⟩ 2).1.row 0).map
        ((SkipList.new.Insert ⟨1, 2, "a"⟩ 1).1.Insert ⟨5, 9, "b"⟩ 2).1.key) :=
  C4_sorted_no_dups
    (Reachable.insert _ (by decide) (by decide)
      (Reachable.insert _ (by decide) (by decide) Reachable.new))

/-- C1: in every reachable state, for every level `i` and every position `p`
on the level-`i` chain, the spans accumulated from the head over the first
`p + 1` records (the head's and those of the first `p` level-`i` nodes)
equal the 1-based base-list position of the `p`-th level-`i` node. -/
theorem C1_span_invariant {sl : SkipList} (h : Reachable sl) (i : Nat)
    (hi : i < MaxLevel) (p : Nat) (hp : p < (sl.row i).length) :
    ((((0 : Nat) :: sl.row i).take (p + 1)).map (fun x => (sl.nlv x i).span)).sum
      = posIn (sl.row 0) ((sl.row i).getD p 0) := by
  obtain ⟨base, hb⟩ := reachable_inv h
  rw [hb.base_eq_row, hb.row_eq_rowOf hi]
  rw [hb.row_eq_rowOf hi] at hp
  have hsp := hb.spans i hi
  unfold SpansOk at hsp
  have hchain : List.Chain' (sl.spanOk base i)
      (((0 : Nat) :: sl.rowOf base i).take (p + 2)) :=
    hsp.prefix (List.take_prefix _ _)
  have htake : ((0 : Nat) :: sl.rowOf base i).take (p + 2)
      = 0 :: (sl.rowOf base i).take (p + 1) := rfl
  rw [htake] at hchain
  have htel := spanSum_telescope hchain
  have hlast : lastD ((sl.rowOf base i).take (p + 1)) 0
      = (sl.rowOf base i).getD p 0 := lastD_take _ p 0 hp
  have hne : (sl.rowOf base i).take (p + 1) ≠ [] := by
    have h5 : 0 < ((sl.rowOf base i).take (p + 1)).length := by
      rw [List.length_take]
      omega
    exact List.ne_nil_of_length_pos h5
  have hdl : ((0 : Nat) :: (sl.rowOf base i).take (p + 1)).dropLast
      = (0 : Nat) :: (sl.rowOf base i).take p := by
    rw [List.dropLast_cons_of_ne_nil hne, dropLast_take _ p hp]
  rw [hdl, hlast] at htel
  have hgoal_list : ((0 : Nat) :: sl.rowOf base i).take (p + 1)
      = (0 : Nat) :: (sl.rowOf base i).take p := rfl
  rw [hgoal_list, htel, posIn_zero]
  ring

theorem C1_span_invariant_witness :
    ((((0 : Nat) :: ((SkipList.new.Insert ⟨1, 2, "a"⟩ 1).1.Insert ⟨5, 9, "b"⟩ 2).1.row 0).take
        (1 + 1)).map
      (fun x => (((SkipList.new.Insert ⟨1, 2, "a"⟩ 1).1.Insert ⟨5, 9, "b"⟩ 2).1.nlv x 0).span)).sum
      = posIn (((SkipList.new.Insert ⟨1, 2, "a"⟩ 1).1.Insert ⟨5, 9, "b"⟩ 2).1.row 0)
          ((((SkipList.new.Insert ⟨1, 2, "a"⟩ 1).1.Insert ⟨5, 9, "b"⟩ 2).1.row 0).getD 1 0) :=
  C1_span_invariant
    (Reachable.insert _ (by decide) (by decide)
      (Reachable.insert _ (by decide) (by decide) Reachable.new))
    0 (by decide) 1 (by decide)

theorem overlapScan_zero (sl : SkipList) (q : IntervalKey) (o l : Int)
    (st : Option Nat) (c : Int) (acc : List IntervalKey) :
    sl.overlapScan q o l 0 st c acc = acc := by
  cases st <;> rfl

theorem overlapScan_none (sl : SkipList) (q : IntervalKey) (o l : Int)
    (f : Nat) (c : Int) (acc : List IntervalKey) :
    sl.overlapScan q o l (f + 1) none c acc = acc := rfl

theorem overlapScan_succ_some (sl : SkipList) (q : IntervalKey) (o l : Int)
    (f n : Nat) (c : Int) (acc : List IntervalKey) :
    sl.overlapScan q o l (f + 1) (some n) c acc
      = (if (sl.key n).Start ≤ q.End then
          if (sl.key n).End ≥ q.Start then
            if c ≥ o then
              if l ≠ 0 ∧ ((acc ++ [sl.key n]).length : Int) ≥ l then acc ++ [sl.key n]
              else sl.overlapScan q o l f ((sl.nlv n 0).next) (c + 1) (acc ++ [sl.key n])
            else sl.overlapScan q o l f ((sl.nlv n 0).next) (c + 1) acc
          else sl.overlapScan q o l f ((sl.nlv n 0).next) c acc
        else acc) := rfl

/-- The unbounded scan ignores its counter and prepends its accumulator. -/
theorem overlapScan_unbounded_shift (sl : SkipList) (q : IntervalKey) :
    ∀ (fuel : Nat) (st : Option Nat) (c : Int) (acc : List IntervalKey), 0 ≤ c →
      sl.overlapScan q 0 0 fuel st c acc
        = acc ++ sl.overlapScan q 0 0 fuel st 0 [] := by
  intro fuel
  induction fuel with
  | zero =>
    intro st c acc hc
    rw [overlapScan_zero, overlapScan_zero, List.append_nil]
  | succ f ih =>
    intro st c acc hc
    cases st with
    | none => rw [overlapScan_none, overlapScan_none, List.append_nil]
    | some n =>
      rw [overlapScan_succ_some, overlapScan_succ_some]
      by_cases h1 : (sl.key n).Start ≤ q.End
      · rw [if_pos h1, if_pos h1]
        by_cases h2 : (sl.key n).End ≥ q.Start
        · rw [if_pos h2, if_pos h2, if_pos hc, if_pos (le_refl (0 : Int)),
            if_neg (by simp), if_neg (by simp)]
          rw [ih ((sl.nlv n 0).next) (c + 1) (acc ++ [sl.key n]) (by omega),
            ih ((sl.nlv n 0).next) (0 + 1) ([] ++ [sl.key n]) (by omega)]
          simp
        · rw [if_neg h2, if_neg h2]
          rw [ih ((sl.nlv n 0).next) c acc hc]
      · rw [if_neg h1, if_neg h1, List.append_nil]

/-- Offset-only scans drop a prefix of the unbounded result. -/
theorem overlapScan_offset (sl : SkipList) (q : IntervalKey) :
    ∀ (fuel : Nat) (st : Option Nat) (o c : Int) (acc : List IntervalKey),
      0 ≤ c → 0 ≤ o →
      sl.overlapScan q o 0 fuel st c acc
        = acc ++ (sl.overlapScan q 0 0 fuel st 0 []).drop (o - c).toNat := by
  intro fuel
  induction fuel with
  | zero =>
    intro st o c acc hc ho
    rw [overlapScan_zero, overlapScan_zero]
    simp
  | succ f ih =>
    intro st o c acc hc ho
    cases st with
    | none =>
      rw [overlapScan_none, overlapScan_none]
      simp
    | some n =>
      rw [overlapScan_succ_some, overlapScan_succ_some]
      by_cases h1 : (sl.key n).Start ≤ q.End
      · rw [if_pos h1, if_pos h1]
        by_cases h2 : (sl.key n).End ≥ q.Start
        · rw [if_pos h2, if_pos h2, if_pos (le_refl (0 : Int))]
          have hrno : ¬ ((0 : Int) ≠ 0 ∧
              ((([] ++ [sl.key n]).length : Int) ≥ 0)) := by simp
          rw [if_neg hrno]
          rw [overlapScan_unbounded_shift sl q f ((sl.nlv n 0).next) (0 + 1)
            ([] ++ [sl.key n]) (by omega)]
          by_cases h3 : c ≥ o
          · rw [if_pos h3]
            have hlno : ¬ ((0 : Int) ≠ 0 ∧
                (((acc ++ [sl.key n]).length : Int) ≥ 0)) := by simp
            rw [if_neg hlno]
            rw [ih ((sl.nlv n 0).next) o (c + 1) (acc ++ [sl.key n]) (by omega) ho]
            have hz1 : (o - c).toNat = 0 := by omega
            have hz2 : (o - (c + 1)).toNat = 0 := by omega
            rw [hz1, hz2]
            simp
          · rw [if_neg h3]
            rw [ih ((sl.nlv n 0).next) o (c + 1) acc (by omega) ho]
            have hsucc : (o - c).toNat = (o - (c + 1)).toNat + 1 := by omega
            rw [hsucc]
            simp
        · rw [if_neg h2, if_neg h2]
          exact ih ((sl.nlv n 0).next) o c acc hc ho
      · rw [if_neg h1, if_neg h1]
        simp

/-- Limited scans take a window of the unbounded result. -/
theorem overlapScan_limited (sl : SkipList) (q : IntervalKey) :
    ∀ (fuel : Nat) (st : Option Nat) (o c lim : Int) (acc : List IntervalKey),
      0 ≤ c → 0 ≤ o → 0 < lim → (acc.length : Int) < lim →
      sl.overlapScan q o lim fuel st c acc
        = acc ++ ((sl.overlapScan q 0 0 fuel st 0 []).drop (o - c).toNat).take
            (lim - acc.length).toNat := by
  intro fuel
  induction fuel with
  | zero =>
    intro st o c lim acc hc ho hlim hacc
    rw [overlapScan_zero, overlapScan_zero]
    simp
  | succ f ih =>
    intro st o c lim acc hc ho hlim hacc
    cases st with
    | none =>
      rw [overlapScan_none, overlapScan_none]
      simp
    | some n =>
      rw [overlapScan_succ_some, overlapScan_succ_some]
      by_cases h1 : (sl.key n).Start ≤ q.End
      · rw [if_pos h1, if_pos h1]
        by_cases h2 : (sl.key n).End ≥ q.Start
        · rw [if_pos h2, if_pos h2, if_pos (le_refl (0 : Int))]
          have hrno : ¬ ((0 : Int) ≠ 0 ∧
              ((([] ++ [sl.key n]).length : Int) ≥ 0)) := by simp
          rw [if_neg hrno]
          rw [overlapScan_unbounded_shift sl q f ((sl.nlv n 0).next) (0 + 1)
            ([] ++ [sl.key n]) (by omega)]
          by_cases h3 : c ≥ o
          · rw [if_pos h3]
            have hz1 : (o - c).toNat = 0 := by omega
            by_cases h4 : lim ≠ 0 ∧ (((acc ++ [sl.key n]).length : Int)) ≥ lim
            · rw [if_pos h4]
              obtain ⟨_, h5⟩ := h4
              have hone : (lim - (acc.length : Int)).toNat = 1 := by
                simp only [List.length_append, List.length_cons,
                  List.length_nil] at h5
                push_cast at h5
                omega
              rw [hz1, hone]
              simp
            · rw [if_neg h4]
              have h5 : ((acc ++ [sl.key n]).length : Int) < lim := by
                rcases not_and_or.mp h4 with h6 | h6
                · exact absurd (by omega) h6
                · omega
              rw [ih ((sl.nlv n 0).next) o (c + 1) lim (acc ++ [sl.key n])
                (by omega) ho hlim h5]
              have hz2 : (o - (c + 1)).toNat = 0 := by omega
              have hsucc : (lim - (acc.length : Int)).toNat
                  = (lim - ((acc ++ [sl.key n]).length : Int)).toNat + 1 := by
                simp only [List.length_append, List.length_cons, List.length_nil]
                push_cast
                simp only [List.length_append, List.length_cons,
                  List.length_nil] at h5
                push_cast at h5
                omega
              rw [hz1, hz2, hsucc]
              simp
          · rw [if_neg h3]
            rw [ih ((sl.nlv n 0).next) o (c + 1) lim acc (by omega) ho hlim hacc]
            have hsucc : (o - c).toNat = (o - (c + 1)).toNat + 1 := by omega
            rw [hsucc]
            simp
        · rw [if_neg h2, if_neg h2]
          exact ih ((sl.nlv n 0).next) o c lim acc hc ho hlim hacc
      · rw [if_neg h1, if_neg h1]
        simp

/-- Along a level-0 chain, the unbounded scan collects exactly the visited
keys up to the first `Start` beyond the query, filtered by the `End` test. -/
theorem overlapScan_chain {sl : SkipList} {q : IntervalKey} :
    ∀ {l : List Nat} {n fuel : Nat},
      sl.IsChain 0 n l → l.length + 1 ≤ fuel →
      sl.overlapScan q 0 0 fuel (some n) 0 []
        = (((n :: l).map sl.key).takeWhile
            (fun I => decide (I.Start ≤ q.End))).filter
            (fun I => decide (I.End ≥ q.Start)) := by
  intro l
  induction l with
  | nil =>
    intro n fuel hch hf
    cases fuel with
    | zero => omega
    | succ f =>
      have hnx : (sl.nlv n 0).next = none := hch
      rw [overlapScan_succ_some]
      by_cases h1 : (sl.key n).Start ≤ q.End
      · rw [if_pos h1]
        by_cases h2 : (sl.key n).End ≥ q.Start
        · rw [if_pos h2, if_pos (le_refl (0 : Int)), if_neg (by simp), hnx]
          have hstop : sl.overlapScan q 0 0 f none (0 + 1) ([] ++ [sl.key n])
              = [sl.key n] := by
            cases f with
            | zero => rw [overlapScan_zero]; rfl
            | succ f2 => rw [overlapScan_none]; rfl
          rw [hstop]
          simp [List.takeWhile_cons, h1, h2]
        · rw [if_neg h2, hnx]
          have hstop : sl.overlapScan q 0 0 f none 0 [] = [] := by
            cases f with
            | zero => rw [overlapScan_zero]
            | succ f2 => rw [overlapScan_none]
          rw [hstop]
          simp [List.takeWhile_cons, h1, h2]
      · rw [if_neg h1]
        simp [List.takeWhile_cons, h1]
  | cons m tl ih =>
    intro n fuel hch hf
    cases fuel with
    | zero => omega
    | succ f =>
      obtain ⟨hnx, hch2⟩ := hch
      rw [overlapScan_succ_some]
      by_cases h1 : (sl.key n).Start ≤ q.End
      · rw [if_pos h1]
        by_cases h2 : (sl.key n).End ≥ q.Start
        · rw [if_pos h2, if_pos (le_refl (0 : Int)), if_neg (by simp), hnx]
          rw [overlapScan_unbounded_shift sl q f (some m) (0 + 1)
            ([] ++ [sl.key n]) (by omega)]
          rw [ih hch2 (by simpa using hf)]
          simp [List.takeWhile_cons, h1, h2]
        · rw [if_neg h2, hnx]
          rw [ih hch2 (by simpa using hf)]
          simp [List.takeWhile_cons, h1, h2]
      · rw [if_neg h1]
        simp [List.takeWhile_cons, h1]

/-- C2 (counterexample): the unbounded `Overlaps` both returns the head
sentinel's placeholder key `(0,0,"")`, which is never stored, and misses a
stored interval that overlaps the query but lies before the scan's starting
point. -/
theorem C2_overlaps_counterexample :
    (SkipList.new.Overlaps ⟨0, 5, ""⟩ ⟨0, 0⟩
        = [{ Start := 0, End := 0, Key := "" }] ∧
     SkipList.new.row 0 = []) ∧
    (((SkipList.new.Insert ⟨0, 100, "a"⟩ 1).1.Insert ⟨50, 60, "b"⟩ 1).1.Overlaps
        ⟨70, 80, ""⟩ ⟨0, 0⟩ = [] ∧
     (⟨0, 100, "a"⟩ : IntervalKey) ∈
       ((((SkipList.new.Insert ⟨0, 100, "a"⟩ 1).1.Insert ⟨50, 60, "b"⟩ 1).1.row 0).map
         (((SkipList.new.Insert ⟨0, 100, "a"⟩ 1).1.Insert ⟨50, 60, "b"⟩ 1).1.key)) ∧
     (0 : Int) ≤ 80 ∧ (70 : Int) ≤ 100) := by decide

/-- C2 (amended): for stored intervals that are pairwise disjoint (in
level-0 order, each interval ends before the next begins) and a query with
`1 ≤ Start ≤ End`, the unbounded `Overlaps` returns exactly the stored
intervals `I` with `I.Start ≤ Q.End ∧ I.End ≥ Q.Start`, in ascending
`(Start, End)` order, and never the head sentinel's placeholder key.
(The counterexample shows both clauses fail without these conditions.) -/
theorem C2_overlaps_amended {sl : SkipList} {base : List Nat} (h : sl.InvW base)
    (q : IntervalKey) (hq1 : 1 ≤ q.Start) (hq2 : q.Start ≤ q.End)
    (hdisj : List.Pairwise
      (fun a b => (sl.key a).End < (sl.key b).Start) base) :
    sl.Overlaps q ⟨0, 0⟩
      = ((sl.row 0).map sl.key).filter
          (fun I => decide (I.Start ≤ q.End ∧ I.End ≥ q.Start)) ∧
    List.Chain' (fun a b => less a b = true) (sl.Overlaps q ⟨0, 0⟩) := by
  have hOv : sl.Overlaps q ⟨0, 0⟩
      = sl.overlapScan q 0 0 sl.nodes.length
          (some (sl.descend q sl.searchLevels 0 0).2) 0 [] := rfl
  have hSof_tw : ((Sof sl base q).map sl.key).takeWhile
        (fun I => decide (I.Start ≤ q.End))
      = ((Sof sl base q).map sl.key).filter (fun I => decide (I.Start ≤ q.End)) := by
    refine takeWhile_eq_filter_of_sorted (R := fun a b => less a b = true) ?_ ?_
    · rw [List.pairwise_map]
      exact h.base_pairwise.sublist (Sof_sublist sl base q)
    · intro a b hab hb
      simp only [decide_eq_true_eq] at hb ⊢
      rw [less_iff] at hab
      omega
  have hSof_f : ∀ X : List IntervalKey,
      (X.filter (fun I => decide (I.Start ≤ q.End))).filter
          (fun I => decide (I.End ≥ q.Start))
        = X.filter (fun I => decide (I.Start ≤ q.End ∧ I.End ≥ q.Start)) := by
    intro X
    rw [List.filter_filter]
    refine List.filter_congr ?_
    intro x _
    by_cases h1 : (x.Start ≤ q.End)
    · by_cases h2 : (x.End ≥ q.Start)
      · simp [h1, h2]
      · simp [h1, h2]
    · simp [h1]
  have hmain : sl.Overlaps q ⟨0, 0⟩
      = ((sl.row 0).map sl.key).filter
          (fun I => decide (I.Start ≤ q.End ∧ I.End ≥ q.Start)) := by
    rw [h.base_eq_row]
    rcases Nat.eq_zero_or_pos sl.maxLevel with hml | hml
    · have hbase0 : base = [] := h.base_nil_of_ml_zero hml
      have hsl0 : sl.searchLevels = 0 := by
        simp only [searchLevels, maxSearchLevel, MaxSearchLevel, hml]
        split
        · omega
        · omega
      have hch : sl.IsChain 0 0 ([] : List Nat) := by
        have hc := h.chains 0 (by decide)
        rw [h.rowOf_zero, hbase0] at hc
        exact hc
      rw [hOv, hsl0]
      have hd : (sl.descend q 0 0 0).2 = 0 := rfl
      rw [hd, overlapScan_chain hch (by simpa using h.head_lt), hbase0]
      simp only [List.map_cons, List.map_nil]
      rw [h.head_key]
      have hA : (({} : IntervalKey).Start ≤ q.End) := by
        show (0 : Int) ≤ q.End
        omega
      have hB : ¬ (({} : IntervalKey).End ≥ q.Start) := by
        show ¬ ((0 : Int) ≥ q.Start)
        omega
      simp [List.takeWhile_cons, hA, hB]
    · have hpos := searchLevels_pos sl hml
      have hd0 : (0 : Int) = posIn base 0 := rfl
      have hspec := @descend_spec sl base h q sl.searchLevels 0
        (searchLevels_le_max sl) (by simp)
      rw [← hd0] at hspec
      obtain ⟨_, _, hfin⟩ := hspec
      have hchS : sl.IsChain 0 (predAt sl base q 0) (Sof sl base q) := by
        cases hS : Sof sl base q with
        | nil =>
          show (sl.nlv (predAt sl base q 0) 0).next = none
          rw [h.next_predAt q (by decide), h.highPath_zero q, hS]
          rfl
        | cons s rest =>
          refine ⟨?_, ?_⟩
          · rw [h.next_predAt q (by decide), h.highPath_zero q, hS]
            rfl
          · have hbc := h.base_chain
            have hPS : base = Pof sl base q ++ s :: rest := by
              conv_lhs => rw [← Pof_append_Sof sl base q]
              rw [hS]
            rw [hPS] at hbc
            exact (isChain_append.mp hbc).2
      have hflen : (Sof sl base q).length + 1 ≤ sl.nodes.length := by
        have h1 : (Sof sl base q).length ≤ base.length :=
          (Sof_sublist sl base q).length_le
        have := h.base_length_lt
        omega
      rw [hOv, hfin, if_neg (by omega), overlapScan_chain hchS hflen]
      have hbaseP : base = Pof sl base q ++ Sof sl base q :=
        (Pof_append_Sof sl base q).symm
      by_cases hP : Pof sl base q = []
      · have hpred0 : predAt sl base q 0 = 0 := by
          unfold predAt
          rw [h.lowPath_zero q, hP]
          rfl
        rw [hpred0]
        conv_rhs => rw [hbaseP, hP]
        simp only [List.map_cons, List.nil_append]
        rw [h.head_key]
        have hA : (({} : IntervalKey).Start ≤ q.End) := by
          show (0 : Int) ≤ q.End
          omega
        have hB : ¬ (({} : IntervalKey).End ≥ q.Start) := by
          show ¬ ((0 : Int) ≥ q.Start)
          omega
        rw [List.takeWhile_cons, if_pos (by simpa using hA), List.filter_cons,
          if_neg (by simpa using hB)]
        rw [hSof_tw, hSof_f]
      · obtain ⟨t, x, hPof⟩ : ∃ t x, Pof sl base q = t ++ [x] := by
          rcases List.eq_nil_or_concat (Pof sl base q) with hc | ⟨t, x, hc⟩
          · exact absurd hc hP
          · refine ⟨t, x, ?_⟩
            rw [hc, List.concat_eq_append]
        have hpredx : predAt sl base q 0 = x := by
          unfold predAt
          rw [h.lowPath_zero q, hPof]
          exact lastD_append t x [] 0
        have hxP : x ∈ Pof sl base q := by
          rw [hPof]
          simp
        have hxless := mem_Pof_less hxP
        have hxStart : (sl.key x).Start ≤ q.Start := by
          rw [less_iff] at hxless
          omega
        have hA : (sl.key x).Start ≤ q.End := by omega
        rw [hpredx]
        conv_rhs => rw [hbaseP, hPof]
        simp only [List.map_cons, List.map_append, List.map_nil,
          List.filter_append]
        rw [List.takeWhile_cons, if_pos (by simpa using hA)]
        have htnil : ((t.map sl.key).filter
            (fun I => decide (I.Start ≤ q.End ∧ I.End ≥ q.Start))) = [] := by
          rw [List.filter_eq_nil_iff]
          intro I hI
          rw [List.mem_map] at hI
          obtain ⟨id, hid, rfl⟩ := hI
          have hdisjP : (Pof sl base q).Pairwise
              (fun a b => (sl.key a).End < (sl.key b).Start) :=
            hdisj.sublist (Pof_sublist sl base q)
          rw [hPof] at hdisjP
          have h3 := (List.pairwise_append.mp hdisjP).2.2 id hid x (by simp)
          simp only [decide_eq_true_eq]
          intro hcon
          omega
        rw [htnil, List.nil_append]
        rw [List.filter_cons, List.filter_cons, List.filter_nil]
        rw [hSof_tw, hSof_f]
        by_cases hfx : ((sl.key x).End ≥ q.Start)
        · rw [if_pos (by simpa using hfx), if_pos (by simp [hA, hfx])]
          simp
        · rw [if_neg (by simpa using hfx), if_neg (by simp [hA, hfx])]
          simp
  refine ⟨hmain, ?_⟩
  rw [hmain]
  haveI : IsTrans IntervalKey (fun a b => less a b = true) :=
    ⟨fun _ _ _ hab hbc => less_trans hab hbc⟩
  apply List.chain'_iff_pairwise.mpr
  refine List.Pairwise.sublist (List.filter_sublist _) ?_
  rw [h.base_eq_row, List.pairwise_map]
  exact h.base_pairwise

theorem C2_overlaps_amended_witness :
    ((SkipList.new.Insert ⟨1, 2, "a"⟩ 1).1.Insert ⟨5, 9, "b"⟩ 2).1.Overlaps
        ⟨2, 6, ""⟩ ⟨0, 0⟩
      = (((((SkipList.new.Insert ⟨1, 2, "a"⟩ 1).1.Insert ⟨5, 9, "b"⟩ 2).1.row 0).map
          ((SkipList.new.Insert ⟨1, 2, "a"⟩ 1).1.Insert ⟨5, 9, "b"⟩ 2).1.key).filter
          (fun I => decide (I.Start ≤ (⟨2, 6, ""⟩ : IntervalKey).End
            ∧ I.End ≥ (⟨2, 6, ""⟩ : IntervalKey).Start))) ∧
    List.Chain' (fun a b => less a b = true)
      (((SkipList.new.Insert ⟨1, 2, "a"⟩ 1).1.Insert ⟨5, 9, "b"⟩ 2).1.Overlaps
        ⟨2, 6, ""⟩ ⟨0, 0⟩) :=
  @C2_overlaps_amended ((SkipList.new.Insert ⟨1, 2, "a"⟩ 1).1.Insert ⟨5, 9, "b"⟩ 2).1
    [1, 2] (by decide) ⟨2, 6, ""⟩ (by decide) (by decide) (by decide)

/-- C9: `Overlaps` with offset `o ≥ 0` and limit `l ≥ 0` returns exactly the
window from index `o` (of length `l`, or everything remaining when `l = 0`)
of the unbounded result `Overlaps(Q, {offset 0, limit 0})`. -/
theorem C9_pagination (sl : SkipList) (q : IntervalKey) (o l : Int)
    (ho : 0 ≤ o) (hl : 0 ≤ l) :
    (l = 0 → sl.Overlaps q ⟨o, 0⟩ = (sl.Overlaps q ⟨0, 0⟩).drop o.toNat) ∧
    (0 < l → sl.Overlaps q ⟨o, l⟩
        = ((sl.Overlaps q ⟨0, 0⟩).drop o.toNat).take l.toNat) := by
  constructor
  · intro _
    show sl.overlapScan q o 0 sl.nodes.length
        (some (sl.descend q sl.searchLevels 0 0).2) 0 [] = _
    rw [overlapScan_offset sl q sl.nodes.length
      (some (sl.descend q sl.searchLevels 0 0).2) o 0 [] (by omega) ho]
    simp
    rfl
  · intro hlp
    show sl.overlapScan q o l sl.nodes.length
        (some (sl.descend q sl.searchLevels 0 0).2) 0 [] = _
    rw [overlapScan_limited sl q sl.nodes.length
      (some (sl.descend q sl.searchLevels 0 0).2) o 0 l [] (by omega) ho hlp
      (by simp; omega)]
    simp
    rfl

theorem C9_pagination_witness :
    ((SkipList.new.Insert ⟨1, 2, "a"⟩ 1).1.Overlaps ⟨1, 9, ""⟩ ⟨1, 0⟩
      = ((SkipList.new.Insert ⟨1, 2, "a"⟩ 1).1.Overlaps ⟨1, 9, ""⟩
          ⟨0, 0⟩).drop (1 : Int).toNat) ∧
    ((SkipList.new.Insert ⟨1, 2, "a"⟩ 1).1.Overlaps ⟨1, 9, ""⟩ ⟨1, 2⟩
      = (((SkipList.new.Insert ⟨1, 2, "a"⟩ 1).1.Overlaps ⟨1, 9, ""⟩
          ⟨0, 0⟩).drop (1 : Int).toNat).take (2 : Int).toNat) :=
  ⟨(C9_pagination (SkipList.new.Insert ⟨1, 2, "a"⟩ 1).1 ⟨1, 9, ""⟩ 1 0
      (by decide) (by decide)).1 rfl,
   (C9_pagination (SkipList.new.Insert ⟨1, 2, "a"⟩ 1).1 ⟨1, 9, ""⟩ 1 2
      (by decide) (by decide)).2 (by decide)⟩

/-- C3: the `maxLevel` management is buggy: deleting the last remaining node
of a list whose height is at least 2 runs the shrink branch at level 0 and
sets `maxLevel` to 0, violating the specified floor of 1 ("never below 1").
The state is reachable by the public API (one `Insert` with drawn level 2,
then one `Delete`). -/
theorem C3_maxLevel_shrink_bug :
    Reachable (((SkipList.new.Insert ⟨10, 20, "k"⟩ 2).1.Delete ⟨10, 20, "k"⟩).1) ∧
    (((SkipList.new.Insert ⟨10, 20, "k"⟩ 2).1.Delete ⟨10, 20, "k"⟩).1).maxLevel = 0 :=
  ⟨Reachable.delete _ (Reachable.insert _ (by decide) (by decide) Reachable.new),
   by decide⟩

/-- C8 (counterexample): constructing an interval with a negative bound does
not produce a typed error value a caller could branch on: `NewIntervalKey`
panics (modelled by `KeyResult.panicked`), so no `ok` value exists. -/
theorem C8_counterexample :
    NewIntervalKey (-5) 10 "key"
      = KeyResult.panicked
          "interval Start and End must be a positive number and Start must be < End"
      ∧ ∀ k : IntervalKey, NewIntervalKey (-5) 10 "key" ≠ KeyResult.ok k := by
  refine ⟨rfl, ?_⟩
  intro k h
  rw [show NewIntervalKey (-5) 10 "key"
      = KeyResult.panicked
          "interval Start and End must be a positive number and Start must be < End"
    from rfl] at h
  cases h

/-- C8 (amended): `NewIntervalKey` panics with a fixed message when
`Start < 0`, `End < 0`, or `Start > End` — an abort rather than a typed
`InvalidInterval` error — and returns the key with the given bounds and
payload when `0 ≤ Start`, `0 ≤ End`, and `Start ≤ End`. -/
theorem C8_construction_panics (s e : Int) (p : String) :
    (s < 0 ∨ e < 0 ∨ s > e →
      NewIntervalKey s e p = KeyResult.panicked
        "interval Start and End must be a positive number and Start must be < End") ∧
    (0 ≤ s → 0 ≤ e → s ≤ e →
      NewIntervalKey s e p = KeyResult.ok { Start := s, End := e, Key := p }) := by
  constructor
  · intro hcond
    unfold NewIntervalKey
    rw [if_pos hcond]
  · intro h1 h2 h3
    unfold NewIntervalKey
    rw [if_neg (by omega)]

theorem C8_construction_panics_witness :
    NewIntervalKey (-1) 5 "w" = KeyResult.panicked
      "interval Start and End must be a positive number and Start must be < End" ∧
    NewIntervalKey 2 7 "w" = KeyResult.ok { Start := 2, End := 7, Key := "w" } :=
  ⟨(C8_construction_panics (-1) 5 "w").1 (Or.inl (by decide)),
   (C8_construction_panics 2 7 "w").2 (by decide) (by decide) (by decide)⟩

/-- C6: inserting a key whose `(Start, End)` matches a stored node returns
the previously stored payload, and only that node's payload changes: length,
`maxLevel`, the node pool, and every link and span record are untouched. -/
theorem C6_update_in_place {sl : SkipList} {base : List Nat} (h : sl.InvW base)
    {K : IntervalKey} {m : Nat} (hm : m ∈ base)
    (heq : (sl.key m).equalInterval K = true) (r : Nat) :
    (sl.Insert K r).2 = some (sl.key m) ∧
    (sl.Insert K r).1.length = sl.length ∧
    (sl.Insert K r).1.maxLevel = sl.maxLevel ∧
    (sl.Insert K r).1.nodes.length = sl.nodes.length ∧
    (∀ id j, (sl.Insert K r).1.nlv id j = sl.nlv id j) ∧
    (∀ id, (sl.Insert K r).1.height id = sl.height id) ∧
    (∀ id, id ≠ m → (sl.Insert K r).1.key id = sl.key id) ∧
    (sl.Insert K r).1.key m = K := by
  have hmlt : m < sl.nodes.length := (h.base_mem m hm).2
  rw [h.insert_update hm heq r]
  have hnode_ne : ∀ x, x ≠ m →
      ({ sl with nodes := sl.nodes.set m { sl.node m with intervalKey := K } }
        : SkipList).node x = sl.node x := by
    intro x hx
    show (sl.nodes.set m _).getD x {} = sl.nodes.getD x {}
    exact getD_set_ne _ _ _ hx
  have hnode_self :
      ({ sl with nodes := sl.nodes.set m { sl.node m with intervalKey := K } }
        : SkipList).node m = { sl.node m with intervalKey := K } := by
    show (sl.nodes.set m _).getD m {} = _
    exact getD_set_self _ _ _ hmlt
  refine ⟨rfl, rfl, rfl, by simp, ?_, ?_, ?_, ?_⟩
  · intro id j
    by_cases hx : id = m
    · show (({ sl with nodes := sl.nodes.set m _ } : SkipList).node id).levels.getD j {}
        = (sl.node id).levels.getD j {}
      rw [hx, hnode_self]
    · show (({ sl with nodes := sl.nodes.set m _ } : SkipList).node id).levels.getD j {}
        = (sl.node id).levels.getD j {}
      rw [hnode_ne id hx]
  · intro id
    by_cases hx : id = m
    · show (({ sl with nodes := sl.nodes.set m _ } : SkipList).node id).levels.length
        = (sl.node id).levels.length
      rw [hx, hnode_self]
    · show (({ sl with nodes := sl.nodes.set m _ } : SkipList).node id).levels.length
        = (sl.node id).levels.length
      rw [hnode_ne id hx]
  · intro id hx
    show (({ sl with nodes := sl.nodes.set m _ } : SkipList).node id).intervalKey
      = (sl.node id).intervalKey
    rw [hnode_ne id hx]
  · show (({ sl with nodes := sl.nodes.set m _ } : SkipList).node m).intervalKey = K
    rw [hnode_self]

theorem C6_update_in_place_witness :
    ((SkipList.new.Insert ⟨1, 2, "a"⟩ 1).1.Insert ⟨1, 2, "b"⟩ 1).2
        = some ((SkipList.new.Insert ⟨1, 2, "a"⟩ 1).1.key 1) ∧
    ((SkipList.new.Insert ⟨1, 2, "a"⟩ 1).1.Insert ⟨1, 2, "b"⟩ 1).1.length
        = (SkipList.new.Insert ⟨1, 2, "a"⟩ 1).1.length ∧
    ((SkipList.new.Insert ⟨1, 2, "a"⟩ 1).1.Insert ⟨1, 2, "b"⟩ 1).1.maxLevel
        = (SkipList.new.Insert ⟨1, 2, "a"⟩ 1).1.maxLevel ∧
    ((SkipList.new.Insert ⟨1, 2, "a"⟩ 1).1.Insert ⟨1, 2, "b"⟩ 1).1.nodes.length
        = (SkipList.new.Insert ⟨1, 2, "a"⟩ 1).1.nodes.length ∧
    (∀ id j, ((SkipList.new.Insert ⟨1, 2, "a"⟩ 1).1.Insert ⟨1, 2, "b"⟩ 1).1.nlv id j
        = (SkipList.new.Insert ⟨1, 2, "a"⟩ 1).1.nlv id j) ∧
    (∀ id, ((SkipList.new.Insert ⟨1, 2, "a"⟩ 1).1.Insert ⟨1, 2, "b"⟩ 1).1.height id
        = (SkipList.new.Insert ⟨1, 2, "a"⟩ 1).1.height id) ∧
    (∀ id, id ≠ 1 →
      ((SkipList.new.Insert ⟨1, 2, "a"⟩ 1).1.Insert ⟨1, 2, "b"⟩ 1).1.key id
        = (SkipList.new.Insert ⟨1, 2, "a"⟩ 1).1.key id) ∧
    ((SkipList.new.Insert ⟨1, 2, "a"⟩ 1).1.Insert ⟨1, 2, "b"⟩ 1).1.key 1
        = ⟨1, 2, "b"⟩ :=
  @C6_update_in_place (SkipList.new.Insert ⟨1, 2, "a"⟩ 1).1 [1] (by decide)
    ⟨1, 2, "b"⟩ 1 (by decide) (by decide) 1

/-- C7: `Delete` of a stored `(Start, End)` returns the removed node's stored
key and decrements length by one; `Delete` of an interval stored nowhere
returns `none` and leaves the state literally unchanged. -/
theorem C7_delete_semantics {sl : SkipList} {base : List Nat} (h : sl.InvW base)
    (K : IntervalKey) :
    (∀ m ∈ base, (sl.key m).equalInterval K = true →
      (sl.Delete K).2 = some (sl.key m) ∧
      (sl.Delete K).1.length = sl.length - 1) ∧
    ((∀ id ∈ base, (sl.key id).equalInterval K = false) →
      sl.Delete K = (sl, none)) := by
  constructor
  · intro m hm heqm
    obtain ⟨S1, _, S3, _⟩ := h.delete_state hm heqm
    exact ⟨S1, S3⟩
  · intro hno
    exact h.delete_miss hno

theorem C7_delete_semantics_witness :
    ((((SkipList.new.Insert ⟨1, 2, "a"⟩ 1).1).Delete ⟨1, 2, "z"⟩).2
        = some ⟨1, 2, "a"⟩ ∧
      (((SkipList.new.Insert ⟨1, 2, "a"⟩ 1).1).Delete ⟨1, 2, "z"⟩).1.length
        = ((SkipList.new.Insert ⟨1, 2, "a"⟩ 1).1).length - 1) ∧
    ((SkipList.new.Insert ⟨1, 2, "a"⟩ 1).1).Delete ⟨7, 9, "q"⟩
      = ((SkipList.new.Insert ⟨1, 2, "a"⟩ 1).1, none) :=
  ⟨(@C7_delete_semantics (SkipList.new.Insert ⟨1, 2, "a"⟩ 1).1 [1]
      (by decide) ⟨1, 2, "z"⟩).1 1 (by decide) (by decide),
   (@C7_delete_semantics (SkipList.new.Insert ⟨1, 2, "a"⟩ 1).1 [1]
      (by decide) ⟨7, 9, "q"⟩).2 (by decide)⟩

end Islist
